import Mathlib

/-!
# Verification of the permpy core (`permpy/permutation.py`)

This file gives a shallow embedding of the core of the `permpy` permutation
library — the permutation value type, the pattern-containment backtracking
search with its precomputed bounds, and the sum/skew/substitution
decomposition algorithms — and proves the specified properties about them.

Permutations are embedded as `List Nat` (the one-line notation of
`Permutation`, a tuple of the values `0..n-1`).  Each Lean definition below
is a direct functional translation of the corresponding Python method; the
Python source line is noted at each definition.  Python's `-1` sentinels are
kept as `Int` values.  Mutable arrays that the Python code updates in place
are threaded explicitly (the backtracking search's `indices` array, the
`mins`/`maxs` arrays of `simple_location`); writes that the Python code
performs but never reads again before overwriting are reproduced faithfully
where they are observable.
-/

namespace Permpy

/-- `Permutation.standardize` (permutation.py line 153): map the entries of
`L` to `{0, ..., len L - 1}` by an order-preserving bijection.  Python
computes `sorted(L).index(x)` for each `x`, which equals the number of
entries of `L` strictly below `x`. -/
def standardize (L : List Nat) : List Nat :=
  L.map (fun x => L.countP (fun y => decide (y < x)))

/-- A list is a permutation value when it is a rearrangement of
`0, ..., n-1` (the invariant of the `Permutation` class). -/
def IsPermList (p : List Nat) : Prop :=
  p.Perm (List.range p.length)

instance (p : List Nat) : Decidable (IsPermList p) := by
  unfold IsPermList; infer_instance

/-! ## BoundCache: `set_up_bounds` (permutation.py lines 941-962)

For each position `i` the scan over the later positions `j > i` tracks
`max_below`/`min_above` and the positions where they occur.  The running
state `(max_below, min_above, lower_bound_i, upper_bound_i)` is threaded
through a fold over the later positions, exactly as the Python inner loop
updates its four variables. -/

/-- One step of the inner loop of `set_up_bounds` for a fixed `i`:
`Li` is `L[i]`, `j` the scanned position and `Lj` its value. -/
def boundsStep (Li : Nat) (s : Int × Int × Int × Int) (j : Nat) (Lj : Nat) :
    Int × Int × Int × Int :=
  let mb := s.1
  let ma := s.2.1
  let lb := s.2.2.1
  let ub := s.2.2.2
  if Lj < Li then
    (if (Lj : Int) > mb then ((Lj : Int), ma, (j : Int), ub) else s)
  else
    (if (Lj : Int) < ma || ma == -1 then (mb, (Lj : Int), lb, (j : Int)) else s)

/-- The `(lower_bound[i], upper_bound[i])` pair computed by the inner loop
of `set_up_bounds` for position `i`. -/
def boundsAt (L : List Nat) (i : Nat) : Int × Int :=
  let s := (List.range' (i + 1) (L.length - (i + 1))).foldl
    (fun s j => boundsStep (L.getD i 0) s j (L.getD j 0)) (-1, -1, -1, -1)
  (s.2.2.1, s.2.2.2)

/-- `Permutation.set_up_bounds` (lines 941-962): returns the pair
`(lower_bound, upper_bound)` of arrays with the `-1` sentinel for "none". -/
def set_up_bounds (L : List Nat) : List Int × List Int :=
  ((List.range L.length).map (fun i => (boundsAt L i).1),
   (List.range L.length).map (fun i => (boundsAt L i).2))

/-- Invariant of the inner-loop state of `set_up_bounds` after scanning the
positions in `js`: the `lower` components track the position of the largest
value below `L[i]` seen so far, the `upper` components the position of the
smallest value `≥ L[i]` seen so far. -/
def BoundsInv (L : List Nat) (i : Nat) (js : List Nat)
    (s : Int × Int × Int × Int) : Prop :=
  ((s.1 = -1 ∧ s.2.2.1 = -1 ∧ ∀ j ∈ js, ¬(L.getD j 0 < L.getD i 0)) ∨
    (∃ j ∈ js, s.2.2.1 = (j : Int) ∧ L.getD j 0 < L.getD i 0 ∧
      s.1 = (L.getD j 0 : Int) ∧
      ∀ k ∈ js, L.getD k 0 < L.getD i 0 → L.getD k 0 ≤ L.getD j 0)) ∧
  ((s.2.1 = -1 ∧ s.2.2.2 = -1 ∧ ∀ j ∈ js, ¬(L.getD i 0 ≤ L.getD j 0)) ∨
    (∃ j ∈ js, s.2.2.2 = (j : Int) ∧ L.getD i 0 ≤ L.getD j 0 ∧
      s.2.1 = (L.getD j 0 : Int) ∧
      ∀ k ∈ js, L.getD i 0 ≤ L.getD k 0 → L.getD j 0 ≤ L.getD k 0))


/-! ## ContainmentEngine: `involved_in` and its backtracking search
(permutation.py lines 964-1066)

`self` is the *pattern* and `P` the *target*: `self.involved_in(P)` decides
whether the pattern occurs in the target.  The search assigns target indices
to pattern positions from the last pattern position backwards, keeping the
tentative assignment in the `indices` array.  The embedding threads
`indices` explicitly (entries below the level being assigned are scratch
space that the Python code overwrites before reading, so passing the
un-scribbled array is observationally identical); the candidate index being
tried at the current level is the `Int` argument `cand`, matching the
`while indices[next] >= 0` countdown.  Only the `last_require == 0` branch
(the default used by `avoids`/`involves`/`__contains__`) is embedded. -/

/-- `Permutation.involvement_fits` (lines 1064-1066): the candidate target
position for pattern position `next` must lie strictly between the target
values at the positions already assigned to `lower_bound[next]` and
`upper_bound[next]`. -/
def invFits (ub lb : List Int) (indices : List Nat) (q : List Nat)
    (next : Nat) : Bool :=
  (lb.getD next 0 == -1 ||
    q.getD (indices.getD next 0) 0 >
      q.getD (indices.getD (lb.getD next 0).toNat 0) 0) &&
  (ub.getD next 0 == -1 ||
    q.getD (indices.getD next 0) 0 <
      q.getD (indices.getD (ub.getD next 0).toNat 0) 0)

/-- `Permutation.involvement_check` (lines 1051-1062), with the countdown
over `indices[next]` made explicit: `cand` is the current value of
`indices[next]`, initially `indices[next+1] - 1`.  The nested `if` mirrors
`involvement_check`'s recursive call at `next - 1` (which Python enters via
`next < 0` returning `True` when `next = 0` here). -/
def invSearch (ub lb : List Int) (q : List Nat) (next : Nat)
    (indices : List Nat) (cand : Int) : Bool :=
  if cand < 0 then false
  else
    let ind := indices.set next cand.toNat
    if invFits ub lb ind q next &&
        (if next = 0 then true else invSearch ub lb q (next - 1) ind (cand - 1))
    then true
    else invSearch ub lb q next indices (cand - 1)
termination_by (next, (cand + 1).toNat)
decreasing_by
  all_goals first
    | (apply Prod.Lex.left; omega)
    | (apply Prod.Lex.right; omega)

/-- The outer loop of `involved_in` (lines 1030-1036): try
`indices[n-1] = p-1, p-2, ..., 0`; for each, run `involvement_check` at
level `n - 2` over the freshly initialized `indices` array. -/
def invTop (ub lb : List Int) (q : List Nat) (n : Nat) (cand : Int) : Bool :=
  if cand < 0 then false
  else if (if n ≤ 1 then true
           else invSearch ub lb q (n - 2)
             ((List.replicate n 0).set (n - 1) cand.toNat) (cand - 1))
  then true
  else invTop ub lb q n (cand - 1)
termination_by (cand + 1).toNat
decreasing_by omega

/-- `Permutation.involved_in` (lines 1004-1043), `last_require = 0` branch:
is the pattern `self` involved in the target `P`? -/
def involved_in (self P : List Nat) : Bool :=
  let bounds := set_up_bounds self
  let n := self.length
  let p := P.length
  if n ≤ 1 ∧ n ≤ p then true
  else invTop bounds.2 bounds.1 P n ((p : Int) - 1)

/-- `Permutation.involves` (lines 989-1002): does `self` contain the
pattern `P`? -/
def involves (self P : List Nat) : Bool :=
  involved_in P self

/-- `Permutation.avoids` (lines 964-987): check that `self` avoids the
pattern `p` (if supplied), or every pattern of the collection `B` (if
supplied), returning `True` when neither is supplied. -/
def avoids (self : List Nat) (p : Option (List Nat))
    (B : Option (List (List Nat))) : Bool :=
  match p with
  | some p => !(involved_in p self)
  | none =>
    match B with
    | some B => B.all (fun b => !(involved_in b self))
    | none => true

/-- Specification of `invSearch`: a strictly decreasing list `rs` of
candidate target indices for the pattern positions `next, next-1, ..., 0`
(so `rs.reverse` lists them in position order), whose first entry is at most
`cand`, extending the fixed suffix of `ind` to an assignment satisfying
`involvement_fits` at every level up to `next`. -/
def SearchSpec (ub lb : List Int) (q : List Nat) (next : Nat)
    (ind : List Nat) (cand : Int) : Prop :=
  ∃ rs : List Nat, rs.length = next + 1 ∧ List.Chain' (· > ·) rs ∧
    (∀ x ∈ rs.head?, (x : Int) ≤ cand) ∧
    ∀ k, k ≤ next → invFits ub lb (rs.reverse ++ ind.drop (next + 1)) q k = true

/-- `Permutation.delete` with an integer `indices` argument (permutation.py
lines 431-438): look up `val = self[i]`, drop the entry equal to `val`, and
close the value gap (`old_val if old_val < val else old_val - 1`). -/
def delete_at (self : List Nat) (i : Nat) : List Nat :=
  (self.filter (fun old => !(old == self.getD i 0))).map
    (fun old => if old < self.getD i 0 then old else old - 1)

/-- `v` realizes the pattern `A`: same length and the same relative order
in every pair of positions (the "order-isomorphic" of the specification). -/
def OrderIsoTo (A v : List Nat) : Prop :=
  A.length = v.length ∧ ∀ k l : Nat, k < l → l < A.length →
    (A.getD k 0 < A.getD l 0 ↔ v.getD k 0 < v.getD l 0)

/-! ## DecompositionEngine: sum and skew decomposition
(permutation.py lines 327-359 and 596-673) -/

/-- `Permutation.__add__` (lines 327-337): the direct sum, stacking
`other`'s values above `self`'s. -/
def dsum (self other : List Nat) : List Nat :=
  self ++ other.map (fun x => x + self.length)

/-- `Permutation.__sub__` (lines 349-359): the skew sum, stacking `self`'s
values above `other`'s. -/
def sskew (self other : List Nat) : List Nat :=
  self.map (fun x => x + other.length) ++ other

/-- The cut test of `sum_decomposition` (lines 612-616): after the first
`idx+1` entries the set of seen indices equals the set of seen values. -/
def sumCutAt (p : List Nat) (idx : Nat) : Bool :=
  decide ((p.take (idx + 1)).toFinset = Finset.range (idx + 1))

/-- The cut test of `skew_decomposition` (lines 663-667): the seen indices
equal the complemented seen values `n - val - 1`. -/
def skewCutAt (p : List Nat) (idx : Nat) : Bool :=
  decide (((p.take (idx + 1)).map (fun v => p.length - v - 1)).toFinset =
    Finset.range (idx + 1))

/-- `Permutation.sum_decomposition` (lines 596-622): split at the first cut
and recurse on the remainder with values shifted down.  (The scan over
`enumerate(self[:-1])` returning at the first successful test is the
`find?` over `range (n-1)`.) -/
def sum_decomposition (p : List Nat) : List (List Nat) :=
  if _hp : p.length = 0 then []
  else
    match (List.range (p.length - 1)).find? (fun idx => sumCutAt p idx) with
    | some idx =>
      p.take (idx + 1) ::
        sum_decomposition ((p.drop (idx + 1)).map (fun v => v - (idx + 1)))
    | none => [p]
termination_by p.length
decreasing_by
  simp only [List.length_map, List.length_drop]
  omega

/-- `Permutation.skew_decomposition` (lines 646-673): the component's
values are shifted down by `n - idx - 1` (Python's `value - (n - idx) + 1`;
the cut test guarantees every such value is at least `n - idx - 1`, so the
truncated natural subtraction agrees with Python's integers). -/
def skew_decomposition (p : List Nat) : List (List Nat) :=
  if _hp : p.length = 0 then []
  else
    match (List.range (p.length - 1)).find? (fun idx => skewCutAt p idx) with
    | some idx =>
      ((p.take (idx + 1)).map (fun v => v - (p.length - idx - 1))) ::
        skew_decomposition (p.drop (idx + 1))
    | none => [p]
termination_by p.length
decreasing_by
  simp only [List.length_drop]
  omega

/-! ## IntervalFinder and substitution decomposition
(permutation.py lines 1125-1201) -/

/-- Python's `max` over a slice (the scans below apply it to nonempty
slices of naturals only, where the `0` seed is neutral). -/
def listMax (l : List Nat) : Nat := l.foldl max 0

/-- Python's `min` over a nonempty slice: fold from the first element. -/
def listMin : List Nat → Nat
  | [] => 0
  | x :: xs => xs.foldl min x

/-- The interval test `max(self[j:j+i]) - min(self[j:j+i]) == i - 1`
shared by `maximal_interval` (line 1134) and `all_intervals`. -/
def isIntervalAt (p : List Nat) (j i : Nat) : Bool :=
  listMax ((p.drop j).take i) - listMin ((p.drop j).take i) == i - 1

/-- The inner loop of `maximal_interval` (line 1133): the first start `j`
(ascending) of an interval of size `i`. -/
def firstJ (p : List Nat) (i : Nat) : Option Nat :=
  (List.range (p.length - i + 1)).find? (fun j => isIntervalAt p j i)

/-- The outer loop of `maximal_interval` (line 1132): sizes descending
from `len(self) - 1` to `2`. -/
def miScan (p : List Nat) (i : Nat) : Nat × Nat :=
  if i < 2 then (0, 0)
  else
    match firstJ p i with
    | some j => (i, j)
    | none => miScan p (i - 1)
termination_by i
decreasing_by omega

/-- `Permutation.maximal_interval` (lines 1125-1136): the size and start of
the largest proper interval, or `(0, 0)` if the permutation is simple. -/
def maximal_interval (p : List Nat) : Nat × Nat :=
  miScan p (p.length - 1)

/-- Modelled from the spec: `Permutation.is_simple` lives in the
`PermutationStatsMixin` (permstats.py), which is not part of this source
tree.  Per the specification a permutation is *simple* when it has no
nontrivial interval, which is exactly `maximal_interval` returning
`(0, 0)` (section 4.2 of the specification; also the contract stated in the
docstrings of `maximal_interval` and `simple_location`). -/
def is_simple (p : List Nat) : Bool :=
  maximal_interval p == (0, 0)

/-- One `mins` pass of `simple_location` for size parameter `i`
(lines 1148-1149): positions `j ≥ i` get `min(mins[j-1], self[j])`; the
descending `j` loop reads only entries the pass has not yet written, so the
pass is a pointwise map over the previous array. -/
def slPassMin (p : List Nat) (i : Nat) (mins : List Nat) : List Nat :=
  (List.range p.length).map
    (fun j => if i ≤ j then min (mins.getD (j - 1) 0) (p.getD j 0)
              else mins.getD j 0)

/-- The matching `maxs` pass of `simple_location` (line 1150). -/
def slPassMax (p : List Nat) (i : Nat) (maxs : List Nat) : List Nat :=
  (List.range p.length).map
    (fun j => if i ≤ j then max (maxs.getD (j - 1) 0) (p.getD j 0)
              else maxs.getD j 0)

/-- The loops of `simple_location` (lines 1145-1153): for each `i` from 1
to `len(self)-2`, update both arrays and return `(i, j)` at the first `j`
(descending from `len(self)-1` to `i`) where `maxs[j] - mins[j] == i`. -/
def slScan (p : List Nat) (mins maxs : List Nat) (i : Nat) : Nat × Nat :=
  if p.length - 1 ≤ i then (0, 0)
  else
    let mins' := slPassMin p i mins
    let maxs' := slPassMax p i maxs
    match ((List.range' i (p.length - i)).reverse).find?
        (fun j => maxs'.getD j 0 - mins'.getD j 0 == i) with
    | some j => (i, j)
    | none => slScan p mins' maxs' (i + 1)
termination_by p.length - 1 - i
decreasing_by omega

/-- `Permutation.simple_location` (lines 1138-1153). -/
def simple_location (p : List Nat) : Nat × Nat :=
  slScan p p p 1

/-- The `while not base.is_simple()` loop of `Permutation.decomposition`
(lines 1155-1176): replace the maximal interval by its first entry,
standardize, and record the interval pattern as the component at that
position.  The recursion is guarded by the check that the base shrinks;
the theorem `decompLoop_progress` below proves this guard always succeeds
when the base is not simple (a non-`(0,0)` answer of `maximal_interval`
has size at least 2 and fits inside the base), so the guard's else branch
is unreachable and the function agrees with Python's unguarded loop. -/
def decompLoop (base : List Nat) (comps : List (List Nat)) :
    List Nat × List (List Nat) :=
  if is_simple base then (base, comps)
  else
    let i := (maximal_interval base).1
    let j := (maximal_interval base).2
    let interval := (base.drop j).take i
    let new_base := standardize
      (base.take j ++ [base.getD j 0] ++ base.drop (i + j))
    let new_comps := comps.take j ++ [standardize interval] ++
      comps.drop (i + j)
    if h : new_base.length < base.length then decompLoop new_base new_comps
    else (base, comps)
termination_by base.length
decreasing_by exact h

/-- `Permutation.decomposition` (lines 1155-1176): start from the identity
decomposition into singleton components (`Permutation([1])` standardizes to
`[0]`). -/
def decomposition (p : List Nat) : List Nat × List (List Nat) :=
  decompLoop p (List.replicate p.length [0])

/-- The body of the `for value in range(n)` loop of `Permutation.inflate`
(lines 1193-1198), threading the `(inflated, vertical_shift)` state. -/
def inflStep (base : List Nat) (comps : List (List Nat))
    (st : List (List Nat) × Nat) (value : Nat) : List (List Nat) × Nat :=
  let index := base.indexOf value
  let component := comps.getD index []
  (st.1.set index (component.map (fun cv => cv + st.2)),
   st.2 + component.length)

/-- The flattened `inflated` list built by `Permutation.inflate` before the
final `Permutation(...)` standardization. -/
def inflateFlat (base : List Nat) (comps : List (List Nat)) : List Nat :=
  (((List.range base.length).foldl (inflStep base comps)
    (List.replicate base.length [], 0)).1).flatten

/-- `Permutation.inflate` (lines 1178-1201): the shape check raising
`ValueError` (the specification's ShapeMismatch) when the number of
components differs from the base's length, else the inflation. -/
def inflate (base : List Nat) (comps : List (List Nat)) :
    Except String (List Nat) :=
  if base.length ≠ comps.length then Except.error "ShapeMismatch"
  else Except.ok (standardize (inflateFlat base comps))

/-! ## The per-instance bound cache (permutation.py lines 51-53 and
1019-1021)

Python stores `lower_bound`/`upper_bound`/`bounds_set` as class attributes
holding the defaults `[] / [] / False`; the assignments
`self.lower_bound, self.upper_bound = self.set_up_bounds()` and
`self.bounds_set = True` inside `involved_in` create *instance* attributes
shadowing the class defaults, so the cache of one instance is never visible
to another.  The model keys the optional cache by instance identity and the
class-level default is the absent entry. -/

structure PermInstance where
  id : Nat
  entries : List Nat

def CacheStore : Type := Nat → Option (List Int × List Int)

/-- The body of `involved_in` after the cache block, on explicit bound
arrays. -/
def involvedInWith (ub lb : List Int) (self P : List Nat) : Bool :=
  if self.length ≤ 1 ∧ self.length ≤ P.length then true
  else invTop ub lb P self.length ((P.length : Int) - 1)

/-- `involved_in` as a state transformer on the cache store: populate the
calling instance's own cache entry on first use, reuse it afterwards. -/
def involvedInSt (σ : CacheStore) (self : PermInstance) (target : List Nat) :
    Bool × CacheStore :=
  let σ' : CacheStore :=
    match σ self.id with
    | some _ => σ
    | none => fun i => if i = self.id then some (set_up_bounds self.entries)
                       else σ i
  let bounds := (σ' self.id).getD (set_up_bounds self.entries)
  (involvedInWith bounds.2 bounds.1 self.entries target, σ')

/-- Total length of the components of all values below `v`, in value order:
the vertical shift applied to the component sitting at the position of
value `v` during `inflate`. -/
def shiftSum (base : List Nat) (comps : List (List Nat)) (v : Nat) : Nat :=
  ((List.range' 0 v).map
    (fun w => (comps.getD (base.indexOf w) []).length)).sum

/-- The value renaming performed by the collapse step of `decomposition`:
the `i` interval values `[m, m+i)` merge into the single value `m` and the
values above the interval slide down by `i - 1`. -/
def collapseVal (m i v : Nat) : Nat :=
  if v < m then v else if v < m + i then m else v - (i - 1)

/-- The invariant of the `decomposition` loop: every position lying inside
a nontrivial proper interval of the current base still carries the trivial
singleton component, so collapsing that interval discards no information. -/
def NoNest (base : List Nat) (comps : List (List Nat)) : Prop :=
  ∀ s t k : Nat, 2 ≤ s → s + 1 ≤ base.length → t + s ≤ base.length →
    isIntervalAt base t s = true → t ≤ k → k < t + s →
    comps.getD k [] = [0]

/-- The full hypothesis set at one collapse step of the `decomposition`
loop: a standardized base with matching components, an interval of size
`i ≥ 2` starting at `j` whose value set is `[m, m+i)`, and singleton
components throughout that interval. -/
structure CollapseCtx where
  base : List Nat
  comps : List (List Nat)
  i : Nat
  j : Nat
  m : Nat
  hb : IsPermList base
  hlen : comps.length = base.length
  hi : 2 ≤ i
  hile : i + 1 ≤ base.length
  hij : j + i ≤ base.length
  hval : ∀ v : Nat, v ∈ (base.drop j).take i ↔ m ≤ v ∧ v < m + i
  hsing : ∀ k : Nat, j ≤ k → k < j + i → comps.getD k [] = [0]

def CollapseCtx.n (C : CollapseCtx) : Nat := C.base.length

def CollapseCtx.bj (C : CollapseCtx) : Nat := C.base.getD C.j 0

/-- The collapsed base before standardization. -/
def CollapseCtx.nbPre (C : CollapseCtx) : List Nat :=
  C.base.take C.j ++ [C.bj] ++ C.base.drop (C.i + C.j)

/-- The collapsed and standardized base of the next loop iteration. -/
def CollapseCtx.nb (C : CollapseCtx) : List Nat := standardize C.nbPre

/-- The component list of the next loop iteration. -/
def CollapseCtx.nc (C : CollapseCtx) : List (List Nat) :=
  C.comps.take C.j ++ [standardize ((C.base.drop C.j).take C.i)] ++
    C.comps.drop (C.i + C.j)

/-! ## Theorems -/

theorem IsPermList.perm {p : List Nat} (h : IsPermList p) :
    p.Perm (List.range p.length) := h

theorem IsPermList.nodup {p : List Nat} (h : IsPermList p) : p.Nodup :=
  h.perm.nodup_iff.mpr (List.nodup_range _)

theorem IsPermList.mem_iff_lt {p : List Nat} (h : IsPermList p) {v : Nat} :
    v ∈ p ↔ v < p.length := by
  rw [h.perm.mem_iff, List.mem_range]

theorem list_range_toFinset (n : Nat) :
    (List.range n).toFinset = Finset.range n := by
  ext x; simp

/-- Pigeonhole: a duplicate-free list of naturals below its length is a
permutation list. -/
theorem isPermList_of_nodup_lt {p : List Nat} (hnd : p.Nodup)
    (hlt : ∀ v ∈ p, v < p.length) : IsPermList p := by
  apply List.perm_of_nodup_nodup_toFinset_eq hnd (List.nodup_range _)
  rw [list_range_toFinset]
  apply Finset.eq_of_subset_of_card_le
  · intro x hx
    rw [List.mem_toFinset] at hx
    exact Finset.mem_range.mpr (hlt x hx)
  · rw [Finset.card_range, List.toFinset_card_of_nodup hnd]

theorem IsPermList.toFinset_eq {p : List Nat} (h : IsPermList p) :
    p.toFinset = Finset.range p.length := by
  rw [← list_range_toFinset]
  exact List.toFinset_eq_of_perm _ _ h

theorem countP_lt_range (n x : Nat) :
    (List.range n).countP (fun y => decide (y < x)) = min x n := by
  induction n with
  | zero => simp
  | succ n ih =>
    rw [List.range_succ, List.countP_append, ih]
    simp only [List.countP_cons, List.countP_nil, decide_eq_true_eq]
    split <;> omega

/-- Over a permutation list, `countP (· < x)` counts `0, ..., x-1`. -/
theorem countP_lt_of_perm {p : List Nat} (h : IsPermList p) {x : Nat}
    (hx : x < p.length) :
    p.countP (fun y => decide (y < x)) = x := by
  rw [h.perm.countP_eq, countP_lt_range]
  omega

/-- `standardize` is the identity on permutation lists (the `Permutation`
constructor does not change an already-standard entry sequence). -/
theorem standardize_eq_self {p : List Nat} (h : IsPermList p) :
    standardize p = p := by
  unfold standardize
  apply List.ext_getElem (by simp)
  intro i hi hip
  simp only [List.getElem_map]
  exact countP_lt_of_perm h (h.mem_iff_lt.mp (p.getElem_mem _))

theorem standardize_length (L : List Nat) :
    (standardize L).length = L.length := by
  simp [standardize]

/-- `countP (· < x)` is monotone in the threshold. -/
theorem countP_lt_mono (L : List Nat) {x y : Nat} (hxy : x ≤ y) :
    L.countP (fun z => decide (z < x)) ≤ L.countP (fun z => decide (z < y)) := by
  apply List.countP_mono_left
  intro a _ ha
  simp only [decide_eq_true_eq] at *
  omega

/-- `countP (· < x)` is strictly monotone on thresholds that are themselves
entries of the list. -/
theorem countP_lt_strict (L : List Nat) {x y : Nat} (hxy : x < y)
    (hx : x ∈ L) :
    L.countP (fun z => decide (z < x)) < L.countP (fun z => decide (z < y)) := by
  induction L with
  | nil => simp at hx
  | cons a t ih =>
    rw [List.countP_cons, List.countP_cons]
    rcases List.mem_cons.mp hx with rfl | hmem
    · have h1 : (decide (x < x) : Bool) = false := by simp
      have h2 : (decide (x < y) : Bool) = true := by simpa using hxy
      rw [h1, h2, if_neg (by simp), if_pos rfl]
      have := countP_lt_mono t (Nat.le_of_lt hxy)
      omega
    · have := ih hmem
      have hm := countP_lt_mono [a] (Nat.le_of_lt hxy)
      simp only [List.countP_cons, List.countP_nil] at hm
      omega

/-- `standardize` preserves the relative order of the entries of a list. -/
theorem standardize_lt_iff {L : List Nat} {a b : Nat}
    (ha : a < L.length) (hb : b < L.length) :
    ((standardize L).getD a 0 < (standardize L).getD b 0 ↔
      L.getD a 0 < L.getD b 0) := by
  have hsl : (standardize L).length = L.length := standardize_length L
  rw [List.getD_eq_getElem _ _ (hsl ▸ ha), List.getD_eq_getElem _ _ (hsl ▸ hb),
    List.getD_eq_getElem _ _ ha, List.getD_eq_getElem _ _ hb]
  simp only [standardize, List.getElem_map]
  constructor
  · intro h
    by_contra hcon
    rcases Nat.lt_or_ge L[b] L[a] with hba | hab
    · have := countP_lt_mono L (Nat.le_of_lt hba)
      have h2 := countP_lt_strict L hba (L.getElem_mem hb)
      omega
    · have hle : L[a] = L[b] := by omega
      rw [hle] at h
      omega
  · intro h
    exact countP_lt_strict L h (L.getElem_mem ha)

/-- `standardize` sends any duplicate-free list to a permutation list. -/
theorem standardize_isPermList {L : List Nat} (hnd : L.Nodup) :
    IsPermList (standardize L) := by
  have hpair := (List.pairwise_iff_getElem).mp hnd
  apply isPermList_of_nodup_lt
  · rw [List.Nodup, List.pairwise_iff_getElem]
    intro i j hi hj hij
    have hi' : i < L.length := by simpa [standardize_length] using hi
    have hj' : j < L.length := by simpa [standardize_length] using hj
    have hLne : L[i] ≠ L[j] := hpair i j hi' hj' hij
    simp only [standardize, List.getElem_map]
    rcases Nat.lt_or_ge L[i] L[j] with hlt | hge
    · exact Nat.ne_of_lt (countP_lt_strict L hlt (L.getElem_mem hi'))
    · have hlt : L[j] < L[i] := by omega
      exact Nat.ne_of_gt (countP_lt_strict L hlt (L.getElem_mem hj'))
  · intro v hv
    rw [standardize_length]
    simp only [standardize, List.mem_map] at hv
    obtain ⟨x, hx, rfl⟩ := hv
    rcases Nat.lt_or_ge (L.countP (fun y => decide (y < x))) L.length with h | h
    · exact h
    · exfalso
      have hle := List.countP_le_length (p := fun y => decide (y < x)) (l := L)
      have heq : L.countP (fun y => decide (y < x)) = L.length := by omega
      have := (List.countP_eq_length).mp heq x hx
      simp at this

theorem boundsStep_inv (L : List Nat) (i : Nat) (js : List Nat)
    (s : Int × Int × Int × Int) (j : Nat) (h : BoundsInv L i js s) :
    BoundsInv L i (js ++ [j]) (boundsStep (L.getD i 0) s j (L.getD j 0)) := by
  obtain ⟨hlo, hhi⟩ := h
  unfold boundsStep
  simp only []
  by_cases hc : L.getD j 0 < L.getD i 0
  · rw [if_pos hc]
    constructor
    · -- the lower components are updated (or kept) by this step
      by_cases hgt : ((L.getD j 0 : Int) > s.1)
      · rw [if_pos hgt]
        refine Or.inr ⟨j, by simp, rfl, hc, rfl, ?_⟩
        intro k hk hklt
        rcases List.mem_append.mp hk with hk | hk
        · rcases hlo with ⟨hmb, _, hnone⟩ | ⟨j', _, _, _, hmb, hmax⟩
          · exact absurd hklt (hnone k hk)
          · have := hmax k hk hklt
            omega
        · simp only [List.mem_singleton] at hk
          subst hk; omega
      · rw [if_neg hgt]
        rcases hlo with ⟨hmb, _, _⟩ | ⟨j', hj', hlbv, hj'lt, hmb, hmax⟩
        · exfalso; rw [hmb] at hgt; omega
        · refine Or.inr ⟨j', List.mem_append.mpr (Or.inl hj'), hlbv, hj'lt, hmb, ?_⟩
          intro k hk hklt
          rcases List.mem_append.mp hk with hk | hk
          · exact hmax k hk hklt
          · simp only [List.mem_singleton] at hk
            subst hk; omega
    · -- the upper components pass through unchanged in this branch
      split
      all_goals {
        rcases hhi with ⟨hma, hub, hnone⟩ | ⟨j', hj', hubv, hj'ge, hma, hmin⟩
        · refine Or.inl ⟨hma, hub, ?_⟩
          intro k hk
          rcases List.mem_append.mp hk with hk | hk
          · exact hnone k hk
          · simp only [List.mem_singleton] at hk
            subst hk; omega
        · refine Or.inr ⟨j', List.mem_append.mpr (Or.inl hj'), hubv, hj'ge, hma, ?_⟩
          intro k hk hkge
          rcases List.mem_append.mp hk with hk | hk
          · exact hmin k hk hkge
          · simp only [List.mem_singleton] at hk
            subst hk; omega
      }
  · rw [if_neg hc]
    have hge : L.getD i 0 ≤ L.getD j 0 := by omega
    constructor
    · -- lower components unchanged in this branch
      split
      all_goals {
        rcases hlo with ⟨hmb, hlb, hnone⟩ | ⟨j', hj', hlbv, hj'lt, hmb, hmax⟩
        · refine Or.inl ⟨hmb, hlb, ?_⟩
          intro k hk
          rcases List.mem_append.mp hk with hk | hk
          · exact hnone k hk
          · simp only [List.mem_singleton] at hk
            subst hk; omega
        · refine Or.inr ⟨j', List.mem_append.mpr (Or.inl hj'), hlbv, hj'lt, hmb, ?_⟩
          intro k hk hklt
          rcases List.mem_append.mp hk with hk | hk
          · exact hmax k hk hklt
          · simp only [List.mem_singleton] at hk
            subst hk; omega
      }
    · by_cases hup : ((L.getD j 0 : Int) < s.2.1 || s.2.1 == -1) = true
      · rw [if_pos hup]
        refine Or.inr ⟨j, by simp, rfl, hge, rfl, ?_⟩
        intro k hk hkge
        rcases List.mem_append.mp hk with hk | hk
        · rcases hhi with ⟨hma, _, hnone⟩ | ⟨j', _, _, _, hma, hmin⟩
          · exact absurd hkge (hnone k hk)
          · have := hmin k hk hkge
            simp only [Bool.or_eq_true, decide_eq_true_eq, beq_iff_eq] at hup
            rcases hup with hup | hup
            · rw [hma] at hup; omega
            · rw [hup] at hma; omega
        · simp only [List.mem_singleton] at hk
          subst hk; omega
      · rw [if_neg hup]
        simp only [Bool.or_eq_true, decide_eq_true_eq, beq_iff_eq, not_or] at hup
        rcases hhi with ⟨hma, _, _⟩ | ⟨j', hj', hubv, hj'ge, hma, hmin⟩
        · exact absurd hma hup.2
        · refine Or.inr ⟨j', List.mem_append.mpr (Or.inl hj'), hubv, hj'ge, hma, ?_⟩
          intro k hk hkge
          rcases List.mem_append.mp hk with hk | hk
          · exact hmin k hk hkge
          · simp only [List.mem_singleton] at hk
            subst hk
            rw [hma] at hup
            omega

theorem boundsInv_foldl (L : List Nat) (i : Nat) (js : List Nat) :
    BoundsInv L i js
      (js.foldl (fun s j => boundsStep (L.getD i 0) s j (L.getD j 0))
        (-1, -1, -1, -1)) := by
  induction js using List.reverseRecOn with
  | nil =>
    constructor
    · exact Or.inl ⟨rfl, rfl, by simp⟩
    · exact Or.inl ⟨rfl, rfl, by simp⟩
  | append_singleton js j ih =>
    rw [List.foldl_append]
    exact boundsStep_inv L i js _ j ih

theorem boundsAt_inv (L : List Nat) (i : Nat) :
    BoundsInv L i (List.range' (i + 1) (L.length - (i + 1)))
      (let s := (List.range' (i + 1) (L.length - (i + 1))).foldl
        (fun s j => boundsStep (L.getD i 0) s j (L.getD j 0)) (-1, -1, -1, -1)
       s) :=
  boundsInv_foldl L i _

theorem mem_range'_iff {a n j : Nat} : j ∈ List.range' a n ↔ a ≤ j ∧ j < a + n := by
  rw [List.mem_range']
  constructor
  · rintro ⟨k, hk, rfl⟩; omega
  · intro ⟨h1, h2⟩; exact ⟨j - a, by omega, by omega⟩

theorem set_up_bounds_fst_getD (L : List Nat) {i : Nat} (hi : i < L.length) :
    (set_up_bounds L).1.getD i 0 = (boundsAt L i).1 := by
  unfold set_up_bounds
  rw [List.getD_eq_getElem _ _ (by simpa using hi)]
  simp

theorem set_up_bounds_snd_getD (L : List Nat) {i : Nat} (hi : i < L.length) :
    (set_up_bounds L).2.getD i 0 = (boundsAt L i).2 := by
  unfold set_up_bounds
  rw [List.getD_eq_getElem _ _ (by simpa using hi)]
  simp

/-- Case analysis for `lower_bound[i]`: either the sentinel `-1` with no
later smaller value, or the position of the maximal later smaller value. -/
theorem lower_bound_cases (L : List Nat) {i : Nat} (hi : i < L.length) :
    ((set_up_bounds L).1.getD i 0 = -1 ∧
      ∀ j : Nat, i < j → j < L.length → ¬(L.getD j 0 < L.getD i 0)) ∨
    (∃ j : Nat, (set_up_bounds L).1.getD i 0 = (j : Int) ∧ i < j ∧ j < L.length ∧
      L.getD j 0 < L.getD i 0 ∧
      ∀ k : Nat, i < k → k < L.length → L.getD k 0 < L.getD i 0 →
        L.getD k 0 ≤ L.getD j 0) := by
  have hinv := (boundsAt_inv L i).1
  rw [set_up_bounds_fst_getD L hi]
  have hmem : ∀ j, j ∈ List.range' (i + 1) (L.length - (i + 1)) ↔
      i < j ∧ j < L.length := by
    intro j
    rw [mem_range'_iff]
    omega
  unfold boundsAt
  rcases hinv with ⟨_, hlb, hnone⟩ | ⟨j, hj, hlbv, hjlt, _, hmax⟩
  · exact Or.inl ⟨hlb, fun j h1 h2 => hnone j ((hmem j).mpr ⟨h1, h2⟩)⟩
  · refine Or.inr ⟨j, hlbv, ((hmem j).mp hj).1, ((hmem j).mp hj).2, hjlt, ?_⟩
    intro k h1 h2 h3
    exact hmax k ((hmem k).mpr ⟨h1, h2⟩) h3

/-- Case analysis for `upper_bound[i]`: either the sentinel `-1` with no
later value `≥ L[i]`, or the position of the minimal later such value. -/
theorem upper_bound_cases (L : List Nat) {i : Nat} (hi : i < L.length) :
    ((set_up_bounds L).2.getD i 0 = -1 ∧
      ∀ j : Nat, i < j → j < L.length → ¬(L.getD i 0 ≤ L.getD j 0)) ∨
    (∃ j : Nat, (set_up_bounds L).2.getD i 0 = (j : Int) ∧ i < j ∧ j < L.length ∧
      L.getD i 0 ≤ L.getD j 0 ∧
      ∀ k : Nat, i < k → k < L.length → L.getD i 0 ≤ L.getD k 0 →
        L.getD j 0 ≤ L.getD k 0) := by
  have hinv := (boundsAt_inv L i).2
  rw [set_up_bounds_snd_getD L hi]
  have hmem : ∀ j, j ∈ List.range' (i + 1) (L.length - (i + 1)) ↔
      i < j ∧ j < L.length := by
    intro j
    rw [mem_range'_iff]
    omega
  unfold boundsAt
  rcases hinv with ⟨_, hub, hnone⟩ | ⟨j, hj, hubv, hjge, _, hmin⟩
  · exact Or.inl ⟨hub, fun j h1 h2 => hnone j ((hmem j).mpr ⟨h1, h2⟩)⟩
  · refine Or.inr ⟨j, hubv, ((hmem j).mp hj).1, ((hmem j).mp hj).2, hjge, ?_⟩
    intro k h1 h2 h3
    exact hmin k ((hmem k).mpr ⟨h1, h2⟩) h3

/-- Entries of a duplicate-free list at distinct positions differ. -/
theorem nodup_getD_ne {L : List Nat} (hnd : L.Nodup) {a b : Nat}
    (ha : a < L.length) (hb : b < L.length) (hab : a ≠ b) :
    L.getD a 0 ≠ L.getD b 0 := by
  rw [List.getD_eq_getElem _ _ ha, List.getD_eq_getElem _ _ hb]
  intro he
  have hpair := (List.pairwise_iff_getElem).mp hnd
  rcases Nat.lt_or_ge a b with h | h
  · exact hpair a b ha hb h he
  · exact hpair b a hb ha (by omega) he.symm

/-- C5: For every permutation and every index `i`, `set_up_bounds` returns
arrays such that `lower_bound[i]` is the position `j > i` holding the largest
value smaller than `entries[i]` among all positions after `i` (or the
sentinel `-1` if no later value is smaller), and `upper_bound[i]` is the
position `j > i` holding the smallest value greater than `entries[i]` among
all positions after `i` (or `-1` if none). -/
theorem set_up_bounds_spec (L : List Nat) (hL : IsPermList L) (i : Nat)
    (hi : i < L.length) :
    (((set_up_bounds L).1.getD i 0 = -1 ∧
        ∀ j : Nat, i < j → j < L.length → ¬(L.getD j 0 < L.getD i 0)) ∨
      (∃ j : Nat, (set_up_bounds L).1.getD i 0 = (j : Int) ∧ i < j ∧
        j < L.length ∧ L.getD j 0 < L.getD i 0 ∧
        ∀ k : Nat, i < k → k < L.length → k ≠ j →
          L.getD k 0 < L.getD i 0 → L.getD k 0 < L.getD j 0)) ∧
    (((set_up_bounds L).2.getD i 0 = -1 ∧
        ∀ j : Nat, i < j → j < L.length → ¬(L.getD i 0 < L.getD j 0)) ∨
      (∃ j : Nat, (set_up_bounds L).2.getD i 0 = (j : Int) ∧ i < j ∧
        j < L.length ∧ L.getD i 0 < L.getD j 0 ∧
        ∀ k : Nat, i < k → k < L.length → k ≠ j →
          L.getD i 0 < L.getD k 0 → L.getD j 0 < L.getD k 0)) := by
  have hnd := hL.nodup
  constructor
  · rcases lower_bound_cases L hi with ⟨h1, h2⟩ | ⟨j, hv, hij, hjn, hjlt, hmax⟩
    · exact Or.inl ⟨h1, h2⟩
    · refine Or.inr ⟨j, hv, hij, hjn, hjlt, ?_⟩
      intro k h1 h2 hkj h3
      have hne := nodup_getD_ne hnd h2 hjn hkj
      have := hmax k h1 h2 h3
      omega
  · rcases upper_bound_cases L hi with ⟨h1, h2⟩ | ⟨j, hv, hij, hjn, hjge, hmin⟩
    · refine Or.inl ⟨h1, ?_⟩
      intro j hj1 hj2 hlt
      exact h2 j hj1 hj2 (Nat.le_of_lt hlt)
    · have hne := nodup_getD_ne hnd hi hjn (by omega)
      refine Or.inr ⟨j, hv, hij, hjn, by omega, ?_⟩
      intro k h1 h2 hkj h3
      have hnekj := nodup_getD_ne hnd hjn h2 (fun he => hkj he.symm)
      have := hmin k h1 h2 (Nat.le_of_lt h3)
      omega

/-- Witness for C5 at the permutation `[2,0,3,1]`, index `0`. -/
theorem set_up_bounds_spec_witness :
    IsPermList [2, 0, 3, 1] ∧ 0 < [2, 0, 3, 1].length ∧
    ((((set_up_bounds [2, 0, 3, 1]).1.getD 0 0 = -1 ∧
        ∀ j : Nat, 0 < j → j < [2, 0, 3, 1].length →
          ¬([2, 0, 3, 1].getD j 0 < [2, 0, 3, 1].getD 0 0)) ∨
      (∃ j : Nat, (set_up_bounds [2, 0, 3, 1]).1.getD 0 0 = (j : Int) ∧ 0 < j ∧
        j < [2, 0, 3, 1].length ∧
        [2, 0, 3, 1].getD j 0 < [2, 0, 3, 1].getD 0 0 ∧
        ∀ k : Nat, 0 < k → k < [2, 0, 3, 1].length → k ≠ j →
          [2, 0, 3, 1].getD k 0 < [2, 0, 3, 1].getD 0 0 →
          [2, 0, 3, 1].getD k 0 < [2, 0, 3, 1].getD j 0)) ∧
    (((set_up_bounds [2, 0, 3, 1]).2.getD 0 0 = -1 ∧
        ∀ j : Nat, 0 < j → j < [2, 0, 3, 1].length →
          ¬([2, 0, 3, 1].getD 0 0 < [2, 0, 3, 1].getD j 0)) ∨
      (∃ j : Nat, (set_up_bounds [2, 0, 3, 1]).2.getD 0 0 = (j : Int) ∧ 0 < j ∧
        j < [2, 0, 3, 1].length ∧
        [2, 0, 3, 1].getD 0 0 < [2, 0, 3, 1].getD j 0 ∧
        ∀ k : Nat, 0 < k → k < [2, 0, 3, 1].length → k ≠ j →
          [2, 0, 3, 1].getD 0 0 < [2, 0, 3, 1].getD k 0 →
          [2, 0, 3, 1].getD j 0 < [2, 0, 3, 1].getD k 0))) :=
  ⟨by decide, by decide, set_up_bounds_spec [2, 0, 3, 1] (by decide) 0 (by decide)⟩

/-! ### Correctness of the backtracking search -/

theorem drop_set_cons : ∀ (l : List Nat) (i : Nat) (c : Nat),
    i < l.length → (l.set i c).drop i = c :: l.drop (i + 1)
  | _ :: _, 0, _, _ => rfl
  | a :: t, i + 1, c, h => by
    have := drop_set_cons t i c (by simpa using h)
    simpa using this

/-- `involvement_fits` at level `k` reads the `indices` array only at
positions `≥ k` (position `k` itself and the positions named by the bound
arrays, which point strictly past `k`). -/
theorem invFits_congr (ub lb : List Int) (q : List Nat) (k : Nat)
    (ind₁ ind₂ : List Nat)
    (hlb : lb.getD k 0 = -1 ∨ (k : Int) < lb.getD k 0)
    (hub : ub.getD k 0 = -1 ∨ (k : Int) < ub.getD k 0)
    (hag : ∀ m, k ≤ m → ind₁.getD m 0 = ind₂.getD m 0) :
    invFits ub lb ind₁ q k = invFits ub lb ind₂ q k := by
  have e0 : ind₁.getD k 0 = ind₂.getD k 0 := hag k (Nat.le_refl k)
  have htrue : ((-1 : Int) == -1) = true := rfl
  have L : (lb.getD k 0 == -1 ||
      q.getD (ind₁.getD k 0) 0 > q.getD (ind₁.getD (lb.getD k 0).toNat 0) 0) =
      (lb.getD k 0 == -1 ||
      q.getD (ind₂.getD k 0) 0 > q.getD (ind₂.getD (lb.getD k 0).toNat 0) 0) := by
    rcases hlb with h | h
    · rw [h, htrue, Bool.true_or, Bool.true_or]
    · rw [e0, hag _ (by omega : k ≤ (lb.getD k 0).toNat)]
  have U : (ub.getD k 0 == -1 ||
      q.getD (ind₁.getD k 0) 0 < q.getD (ind₁.getD (ub.getD k 0).toNat 0) 0) =
      (ub.getD k 0 == -1 ||
      q.getD (ind₂.getD k 0) 0 < q.getD (ind₂.getD (ub.getD k 0).toNat 0) 0) := by
    rcases hub with h | h
    · rw [h, htrue, Bool.true_or, Bool.true_or]
    · rw [e0, hag _ (by omega : k ≤ (ub.getD k 0).toNat)]
  unfold invFits
  rw [L, U]

/-- In a `Chain' (· > ·)` list every entry is at most the head. -/
theorem chain'_gt_le_head (rs : List Nat) (h : List.Chain' (· > ·) rs)
    (x : Nat) (hx : x ∈ rs) (y : Nat) (hy : rs.head? = some y) : x ≤ y := by
  have hp := List.chain'_iff_pairwise.mp h
  cases rs with
  | nil => simp at hx
  | cons a t =>
    simp only [List.head?_cons, Option.some_inj] at hy
    subst hy
    rcases List.mem_cons.mp hx with rfl | hm
    · exact Nat.le_refl x
    · have := (List.pairwise_cons.mp hp).1 x hm
      omega

theorem getD_drop_add (l : List Nat) (i m : Nat) :
    (l.drop i).getD m 0 = l.getD (i + m) 0 := by
  simp [List.getD_eq_getElem?_getD, List.getElem?_drop]

theorem getD_append_ge (l₁ l₂ : List Nat) (m : Nat) (h : l₁.length ≤ m) :
    (l₁ ++ l₂).getD m 0 = l₂.getD (m - l₁.length) 0 := by
  simp [List.getD_eq_getElem?_getD, List.getElem?_append_right h]

/-- The functional representation `rsrev ++ c :: ind.drop (next+1)` of the
assignment agrees with Python's array `ind.set next c` at every position
`≥ next` (below `next` the array holds scratch values the search never
reads before overwriting). -/
theorem assigned_agree (rsrev ind : List Nat) (next c : Nat)
    (hlen : rsrev.length = next) (hnext : next < ind.length) :
    ∀ m, next ≤ m →
      (rsrev ++ c :: ind.drop (next + 1)).getD m 0 =
        (ind.set next c).getD m 0 := by
  intro m hm
  have h1 : (rsrev ++ c :: ind.drop (next + 1)).getD m 0
      = (c :: ind.drop (next + 1)).getD (m - next) 0 := by
    rw [getD_append_ge _ _ _ (by omega), hlen]
  have hd : (ind.set next c).drop next = c :: ind.drop (next + 1) :=
    drop_set_cons ind next c hnext
  have h2 := getD_drop_add (ind.set next c) next (m - next)
  rw [hd] at h2
  rw [h1, h2]
  congr 1
  omega

theorem invSearch_iff (ub lb : List Int) (q : List Nat) (nb : Nat)
    (hlb : ∀ k, k ≤ nb → lb.getD k 0 = -1 ∨ (k : Int) < lb.getD k 0)
    (hub : ∀ k, k ≤ nb → ub.getD k 0 = -1 ∨ (k : Int) < ub.getD k 0) :
    ∀ (N next : Nat) (ind : List Nat) (cand : Int),
      next + 1 + (cand + 1).toNat ≤ N → next ≤ nb → next < ind.length →
      (invSearch ub lb q next ind cand = true ↔
        SearchSpec ub lb q next ind cand) := by
  intro N
  induction N with
  | zero => intro next ind cand hN hnb hlen; omega
  | succ N IH =>
    intro next ind cand hN hnb hlen
    by_cases hc : cand < 0
    · rw [invSearch, if_pos hc]
      constructor
      · intro h; cases h
      · rintro ⟨rs, hrsl, _, hhead, _⟩
        exfalso
        cases rs with
        | nil => simp at hrsl
        | cons x t =>
          have := hhead x (by simp)
          omega
    · -- cand ≥ 0; write c for cand.toNat and ind' for the updated array
      have hcn : ((cand.toNat : Int)) = cand := by omega
      have hLHS : invSearch ub lb q next ind cand = true ↔
          ((invFits ub lb (ind.set next cand.toNat) q next &&
            (if next = 0 then true
             else invSearch ub lb q (next - 1) (ind.set next cand.toNat)
               (cand - 1))) = true ∨
           invSearch ub lb q next ind (cand - 1) = true) := by
        conv_lhs => rw [invSearch]
        rw [if_neg hc]
        by_cases hAB : (invFits ub lb (ind.set next cand.toNat) q next &&
            (if next = 0 then true
             else invSearch ub lb q (next - 1) (ind.set next cand.toNat)
               (cand - 1))) = true
        · rw [if_pos hAB]
          constructor
          · intro _
            exact Or.inl hAB
          · intro _
            rfl
        · rw [if_neg hAB]
          constructor
          · exact Or.inr
          · rintro (h | h)
            · exact absurd h hAB
            · exact h
      rw [hLHS]
      have hmeas : next + 1 + (cand - 1 + 1).toNat ≤ N := by omega
      have hFF : ∀ t : List Nat,
          t.reverse ++ (ind.set next cand.toNat).drop next =
            (cand.toNat :: t).reverse ++ ind.drop (next + 1) := by
        intro t
        rw [drop_set_cons ind next cand.toNat hlen]
        simp
      constructor
      · rintro (hAB | hR)
        · obtain ⟨hA, hB⟩ := Bool.and_eq_true_iff.mp hAB
          by_cases h0 : next = 0
          · subst h0
            refine ⟨[cand.toNat], rfl, by simp, ?_, ?_⟩
            · intro x hx
              simp only [List.head?_cons, Option.mem_some_iff] at hx
              omega
            · intro k hk
              interval_cases k
              rw [show ([cand.toNat].reverse ++ ind.drop 1) =
                  ([] : List Nat) ++ cand.toNat :: ind.drop 1 by simp]
              rw [invFits_congr ub lb q 0 _ (ind.set 0 cand.toNat)
                (hlb 0 hnb) (hub 0 hnb)
                (assigned_agree [] ind 0 cand.toNat rfl hlen)]
              exact hA
          · rw [if_neg h0] at hB
            have hlen' : next - 1 < (ind.set next cand.toNat).length := by
              rw [List.length_set]
              omega
            have hinner := (IH (next - 1) (ind.set next cand.toNat) (cand - 1)
              (by omega) (by omega) hlen').mp hB
            obtain ⟨t, htl, htc, hth, htf⟩ := hinner
            have htl' : t.length = next := by omega
            refine ⟨cand.toNat :: t, by simp [htl'], ?_, ?_, ?_⟩
            · rw [List.chain'_cons']
              refine ⟨?_, htc⟩
              intro y hy
              have := hth y hy
              omega
            · intro x hx
              simp only [List.head?_cons, Option.mem_some_iff] at hx
              omega
            · intro k hk
              rw [← hFF t] at *
              rcases Nat.lt_or_ge k next with hkn | hkn
              · have := htf k (by omega)
                rw [show next - 1 + 1 = next by omega] at this
                exact this
              · have hkeq : k = next := by omega
                subst hkeq
                rw [invFits_congr ub lb q k _ (ind.set k cand.toNat)
                  (hlb k hnb) (hub k hnb) ?_]
                · exact hA
                · intro m hm
                  rw [drop_set_cons ind k cand.toNat hlen]
                  exact assigned_agree t.reverse ind k cand.toNat
                    (by simpa using htl') hlen m hm
        · obtain ⟨rs, h1, h2, h3, h4⟩ := (IH next ind (cand - 1) hmeas hnb hlen).mp hR
          refine ⟨rs, h1, h2, ?_, h4⟩
          intro x hx
          have := h3 x hx
          omega
      · rintro ⟨rs, hrsl, hchain, hhead, hfits⟩
        cases rs with
        | nil => simp at hrsl
        | cons x t =>
          have hxc : (x : Int) ≤ cand := hhead x (by simp)
          by_cases hxeq : (x : Int) = cand
          · -- the head is exactly the current candidate: take the left branch
            have hxc' : x = cand.toNat := by omega
            subst hxc'
            left
            have htl : t.length = next := by simpa using hrsl
            have hA : invFits ub lb (ind.set next cand.toNat) q next = true := by
              rw [← invFits_congr ub lb q next _ (ind.set next cand.toNat)
                (hlb next hnb) (hub next hnb)
                (assigned_agree t.reverse ind next cand.toNat
                  (by simpa using htl) hlen)]
              have := hfits next (Nat.le_refl next)
              rw [show ((cand.toNat :: t).reverse ++ ind.drop (next + 1)) =
                  t.reverse ++ cand.toNat :: ind.drop (next + 1) by simp] at this
              exact this
            rw [Bool.and_eq_true_iff]
            refine ⟨hA, ?_⟩
            by_cases h0 : next = 0
            · rw [if_pos h0]
            · rw [if_neg h0]
              have hlen' : next - 1 < (ind.set next cand.toNat).length := by
                rw [List.length_set]
                omega
              apply (IH (next - 1) (ind.set next cand.toNat) (cand - 1)
                (by omega) (by omega) hlen').mpr
              refine ⟨t, by omega, (List.chain'_cons'.mp hchain).2, ?_, ?_⟩
              · intro y hy
                have := (List.chain'_cons'.mp hchain).1 y hy
                omega
              · intro k hk
                rw [show next - 1 + 1 = next by omega, hFF t]
                exact hfits k (by omega)
          · -- head strictly below the candidate: the countdown branch
            right
            apply (IH next ind (cand - 1) hmeas hnb hlen).mpr
            refine ⟨x :: t, hrsl, hchain, ?_, hfits⟩
            intro y hy
            simp only [List.head?_cons, Option.mem_some_iff] at hy
            omega

theorem invTop_iff (ub lb : List Int) (q : List Nat) (n : Nat) (hn : 2 ≤ n)
    (hlb : ∀ k, k ≤ n - 2 → lb.getD k 0 = -1 ∨ (k : Int) < lb.getD k 0)
    (hub : ∀ k, k ≤ n - 2 → ub.getD k 0 = -1 ∨ (k : Int) < ub.getD k 0) :
    ∀ (N : Nat) (cand : Int), (cand + 1).toNat ≤ N →
      (invTop ub lb q n cand = true ↔
        ∃ rs : List Nat, rs.length = n ∧ List.Chain' (· > ·) rs ∧
          (∀ x ∈ rs.head?, (x : Int) ≤ cand) ∧
          ∀ k, k ≤ n - 2 → invFits ub lb rs.reverse q k = true) := by
  have hfalse : ∀ cand : Int, cand < 0 →
      ¬∃ rs : List Nat, rs.length = n ∧ List.Chain' (· > ·) rs ∧
        (∀ x ∈ rs.head?, (x : Int) ≤ cand) ∧
        ∀ k, k ≤ n - 2 → invFits ub lb rs.reverse q k = true := by
    rintro cand hc ⟨rs, hrsl, _, hhead, _⟩
    cases rs with
    | nil => simp only [List.length_nil] at hrsl; omega
    | cons x t =>
      have := hhead x (by simp)
      omega
  intro N
  induction N with
  | zero =>
    intro cand hM
    have hc : cand < 0 := by omega
    rw [invTop, if_pos hc]
    constructor
    · intro h; cases h
    · intro h; exact absurd h (hfalse cand hc)
  | succ N IH =>
    intro cand hM
    by_cases hc : cand < 0
    · rw [invTop, if_pos hc]
      constructor
      · intro h; cases h
      · intro h; exact absurd h (hfalse cand hc)
    · have hcn : ((cand.toNat : Int)) = cand := by omega
      have hdrop : ((List.replicate n 0).set (n - 1) cand.toNat).drop (n - 1) =
          [cand.toNat] := by
        rw [drop_set_cons _ _ _ (by simp; omega)]
        rw [show n - 1 + 1 = n by omega]
        simp
      have hB := invSearch_iff ub lb q (n - 2) hlb hub
        ((n - 2) + 1 + (cand - 1 + 1).toNat)
        (n - 2) ((List.replicate n 0).set (n - 1) cand.toNat) (cand - 1)
        (Nat.le_refl _) (Nat.le_refl _) (by simp; omega)
      have hLHS : invTop ub lb q n cand = true ↔
          (invSearch ub lb q (n - 2)
            ((List.replicate n 0).set (n - 1) cand.toNat) (cand - 1) = true ∨
           invTop ub lb q n (cand - 1) = true) := by
        conv_lhs => rw [invTop]
        rw [if_neg hc, if_neg (by omega : ¬n ≤ 1)]
        by_cases hBB : invSearch ub lb q (n - 2)
            ((List.replicate n 0).set (n - 1) cand.toNat) (cand - 1) = true
        · rw [if_pos hBB]
          exact ⟨fun _ => Or.inl hBB, fun _ => rfl⟩
        · rw [if_neg hBB]
          constructor
          · exact Or.inr
          · rintro (h | h)
            · exact absurd h hBB
            · exact h
      rw [hLHS]
      constructor
      · rintro (hBtrue | hR)
        · obtain ⟨t, htl, htc, hth, htf⟩ := hB.mp hBtrue
          have htl' : t.length = n - 1 := by omega
          refine ⟨cand.toNat :: t, by simp [htl']; omega, ?_, ?_, ?_⟩
          · rw [List.chain'_cons']
            refine ⟨?_, htc⟩
            intro y hy
            have := hth y hy
            omega
          · intro x hx
            simp only [List.head?_cons, Option.mem_some_iff] at hx
            omega
          · intro k hk
            have := htf k hk
            rw [show n - 2 + 1 = n - 1 by omega, hdrop] at this
            rw [show (cand.toNat :: t).reverse = t.reverse ++ [cand.toNat] by simp]
            exact this
        · obtain ⟨rs, h1, h2, h3, h4⟩ := (IH (cand - 1) (by omega)).mp hR
          refine ⟨rs, h1, h2, ?_, h4⟩
          intro x hx
          have := h3 x hx
          omega
      · rintro ⟨rs, hrsl, hchain, hhead, hfits⟩
        cases rs with
        | nil => simp only [List.length_nil] at hrsl; omega
        | cons x t =>
          simp only [List.length_cons] at hrsl
          have hxc : (x : Int) ≤ cand := hhead x (by simp)
          by_cases hxeq : (x : Int) = cand
          · left
            have hxc' : x = cand.toNat := by omega
            subst hxc'
            apply hB.mpr
            refine ⟨t, by omega, (List.chain'_cons'.mp hchain).2, ?_, ?_⟩
            · intro y hy
              have := (List.chain'_cons'.mp hchain).1 y hy
              omega
            · intro k hk
              rw [show n - 2 + 1 = n - 1 by omega, hdrop]
              have := hfits k hk
              rw [show (cand.toNat :: t).reverse = t.reverse ++ [cand.toNat] by simp] at this
              exact this
          · right
            apply (IH (cand - 1) (by omega)).mpr
            refine ⟨x :: t, hrsl, hchain, ?_, hfits⟩
            intro y hy
            simp only [List.head?_cons, Option.mem_some_iff] at hy
            omega

theorem invFits_true_iff (ub lb : List Int) (ind q : List Nat) (k : Nat) :
    invFits ub lb ind q k = true ↔
      ((lb.getD k 0 = -1 ∨
          q.getD (ind.getD (lb.getD k 0).toNat 0) 0 < q.getD (ind.getD k 0) 0) ∧
       (ub.getD k 0 = -1 ∨
          q.getD (ind.getD k 0) 0 < q.getD (ind.getD (ub.getD k 0).toNat 0) 0)) := by
  unfold invFits
  rw [Bool.and_eq_true_iff, Bool.or_eq_true_iff, Bool.or_eq_true_iff]
  simp only [beq_iff_eq, decide_eq_true_eq, gt_iff_lt]

/-- The pruned local conditions of the search are, over a complete strictly
increasing assignment, equivalent to full order-isomorphism with the
pattern.  This is the heart of the bound-based pruning of
`involvement_check`: checking each position only against its nearest
structural neighbours suffices. -/
theorem fits_iff_orderIso (A B : List Nat) (hA : IsPermList A)
    (hB : IsPermList B) (hn : 2 ≤ A.length) (ix : List Nat)
    (hlen : ix.length = A.length) (hchain : List.Chain' (· < ·) ix)
    (hbnd : ∀ x ∈ ix, x < B.length) :
    ((∀ k, k ≤ A.length - 2 →
        invFits (set_up_bounds A).2 (set_up_bounds A).1 ix B k = true) ↔
      (∀ k l : Nat, k < l → l < A.length →
        (A.getD k 0 < A.getD l 0 ↔
          B.getD (ix.getD k 0) 0 < B.getD (ix.getD l 0) 0))) := by
  have hmono : ∀ k l : Nat, k < l → l < ix.length →
      ix.getD k 0 < ix.getD l 0 := by
    intro k l hkl hl
    have hp := (List.pairwise_iff_getElem).mp (List.chain'_iff_pairwise.mp hchain)
    rw [List.getD_eq_getElem _ _ (by omega), List.getD_eq_getElem _ _ hl]
    exact hp k l (by omega) hl hkl
  have hixlt : ∀ k : Nat, k < ix.length → ix.getD k 0 < B.length := by
    intro k hk
    rw [List.getD_eq_getElem _ _ hk]
    exact hbnd _ (ix.getElem_mem hk)
  have hixne : ∀ k l : Nat, k < ix.length → l < ix.length → k ≠ l →
      ix.getD k 0 ≠ ix.getD l 0 := by
    intro k l hk hl hne
    rcases Nat.lt_or_ge k l with h | h
    · exact Nat.ne_of_lt (hmono k l h hl)
    · exact Nat.ne_of_gt (hmono l k (by omega) hk)
  have hBne : ∀ k l : Nat, k < ix.length → l < ix.length → k ≠ l →
      B.getD (ix.getD k 0) 0 ≠ B.getD (ix.getD l 0) 0 := by
    intro k l hk hl hne
    exact nodup_getD_ne hB.nodup (hixlt k hk) (hixlt l hl) (hixne k l hk hl hne)
  have hAne : ∀ k l : Nat, k < A.length → l < A.length → k ≠ l →
      A.getD k 0 ≠ A.getD l 0 := fun k l hk hl hne =>
    nodup_getD_ne hA.nodup hk hl hne
  constructor
  · -- pruned conditions imply full order-isomorphism, by downward induction
    intro hfits
    suffices hsuf : ∀ d : Nat, ∀ k l : Nat, A.length - d ≤ k → k < l →
        l < A.length →
        (A.getD k 0 < A.getD l 0 ↔
          B.getD (ix.getD k 0) 0 < B.getD (ix.getD l 0) 0) by
      intro k l hkl hl
      exact hsuf A.length k l (by omega) hkl hl
    intro d
    induction d with
    | zero => intro k l hk hkl hl; omega
    | succ d IHd =>
      intro k l hk hkl hl
      rcases Nat.lt_or_ge k (A.length - d) with hkd | hkd
      · -- frontier position
        have hkn : k ≤ A.length - 2 := by omega
        have hfit := (invFits_true_iff _ _ _ _ _).mp (hfits k hkn)
        have hlower : A.getD l 0 < A.getD k 0 →
            B.getD (ix.getD l 0) 0 < B.getD (ix.getD k 0) 0 := by
          intro hAlk
          rcases lower_bound_cases A (show k < A.length by omega) with
            ⟨hs, hnone⟩ | ⟨j, hv, hkj, hjn, hjlt, hmax⟩
          · exact absurd hAlk (hnone l hkl hl)
          · have hfit1 : B.getD (ix.getD j 0) 0 < B.getD (ix.getD k 0) 0 := by
              rcases hfit.1 with hcon | hgood
              · rw [hv] at hcon
                omega
              · rw [hv] at hgood
                simpa using hgood
            by_cases hlj : l = j
            · rw [hlj]; exact hfit1
            · have hAlj : A.getD l 0 < A.getD j 0 := by
                have h1 := hmax l hkl hl hAlk
                have h2 := hAne l j hl hjn hlj
                omega
              have hBlj : B.getD (ix.getD l 0) 0 < B.getD (ix.getD j 0) 0 := by
                rcases Nat.lt_or_ge l j with h | h
                · exact (IHd l j (by omega) h hjn).mp hAlj
                · have hjl : j < l := by omega
                  have := (IHd j l (by omega) hjl hl)
                  have hne := hBne j l (by omega) (by omega) (by omega)
                  omega
              omega
        have hupper : A.getD k 0 < A.getD l 0 →
            B.getD (ix.getD k 0) 0 < B.getD (ix.getD l 0) 0 := by
          intro hAkl
          rcases upper_bound_cases A (show k < A.length by omega) with
            ⟨hs, hnone⟩ | ⟨j, hv, hkj, hjn, hjge, hmin⟩
          · exact absurd (Nat.le_of_lt hAkl) (hnone l hkl hl)
          · have hfit2 : B.getD (ix.getD k 0) 0 < B.getD (ix.getD j 0) 0 := by
              rcases hfit.2 with hcon | hgood
              · rw [hv] at hcon
                omega
              · rw [hv] at hgood
                simpa using hgood
            by_cases hlj : l = j
            · rw [hlj]; exact hfit2
            · have hAjl : A.getD j 0 < A.getD l 0 := by
                have h1 := hmin l hkl hl (Nat.le_of_lt hAkl)
                have h2 := hAne j l hjn hl (fun he => hlj he.symm)
                omega
              have hBjl : B.getD (ix.getD j 0) 0 < B.getD (ix.getD l 0) 0 := by
                rcases Nat.lt_or_ge j l with h | h
                · exact (IHd j l (by omega) h hl).mp hAjl
                · have hlj' : l < j := by omega
                  have := (IHd l j (by omega) hlj' hjn)
                  have hne := hBne l j (by omega) (by omega) (by omega)
                  omega
              omega
        constructor
        · exact hupper
        · intro hB'
          by_contra hcon
          have hne := hAne k l (by omega) hl (by omega)
          have hAlk : A.getD l 0 < A.getD k 0 := by omega
          have := hlower hAlk
          omega
      · exact IHd k l hkd hkl hl
  · -- order-isomorphism implies the pruned conditions
    intro horder k hk
    have hkn : k < A.length := by omega
    rw [invFits_true_iff]
    constructor
    · rcases lower_bound_cases A hkn with ⟨hs, _⟩ | ⟨j, hv, hkj, hjn, hjlt, _⟩
      · exact Or.inl hs
      · right
        rw [hv]
        simp only [Int.toNat_natCast]
        have hiff := horder k j hkj hjn
        have hne := hBne k j (by omega) (by omega) (by omega)
        omega
    · rcases upper_bound_cases A hkn with ⟨hs, _⟩ | ⟨j, hv, hkj, hjn, hjge, _⟩
      · exact Or.inl hs
      · right
        rw [hv]
        simp only [Int.toNat_natCast]
        have hne' := hAne k j (by omega) hjn (by omega)
        have hAkj : A.getD k 0 < A.getD j 0 := by omega
        exact (horder k j hkj hjn).mp hAkj

theorem getD_map_fun (B ix : List Nat) {k : Nat} (hk : k < ix.length) :
    (ix.map (fun t => B.getD t 0)).getD k 0 = B.getD (ix.getD k 0) 0 := by
  rw [List.getD_eq_getElem _ _ (by simpa using hk), List.getD_eq_getElem _ _ hk,
    List.getElem_map]

theorem orderIsoTo_map_iff (A B ix : List Nat) (hlen : ix.length = A.length) :
    OrderIsoTo A (ix.map (fun t => B.getD t 0)) ↔
      ∀ k l : Nat, k < l → l < A.length →
        (A.getD k 0 < A.getD l 0 ↔
          B.getD (ix.getD k 0) 0 < B.getD (ix.getD l 0) 0) := by
  unfold OrderIsoTo
  constructor
  · rintro ⟨_, h⟩ k l hkl hln
    have := h k l hkl hln
    rwa [getD_map_fun B ix (by omega), getD_map_fun B ix (by omega)] at this
  · intro h
    refine ⟨by simp [hlen], ?_⟩
    intro k l hkl hln
    rw [getD_map_fun B ix (by omega), getD_map_fun B ix (by omega)]
    exact h k l hkl hln

/-- Full functional specification of `involved_in`: the search returns
`true` exactly when some strictly increasing choice of positions of the
target realizes the pattern. -/
theorem involved_in_iff (A B : List Nat) (hA : IsPermList A)
    (hB : IsPermList B) :
    (involved_in A B = true ↔
      ∃ ix : List Nat, ix.length = A.length ∧ List.Chain' (· < ·) ix ∧
        (∀ x ∈ ix, x < B.length) ∧
        OrderIsoTo A (ix.map (fun t => B.getD t 0))) := by
  have hdef : involved_in A B =
      (if A.length ≤ 1 ∧ A.length ≤ B.length then true
       else invTop (set_up_bounds A).2 (set_up_bounds A).1 B A.length
         ((B.length : Int) - 1)) := rfl
  rw [hdef]
  by_cases hdeg : A.length ≤ 1 ∧ A.length ≤ B.length
  · rw [if_pos hdeg]
    constructor
    · intro _
      rcases Nat.lt_or_ge A.length 1 with h0 | h1
      · have h0' : A.length = 0 := by omega
        exact ⟨[], by simp [h0'], by simp, by simp, ⟨by simp [h0'], by omega⟩⟩
      · have h1' : A.length = 1 := by omega
        refine ⟨[0], by simp [h1'], by simp, ?_, ⟨by simp [h1'], ?_⟩⟩
        · intro x hx
          simp only [List.mem_singleton] at hx
          subst hx
          omega
        · intro k l hkl hln
          omega
    · intro _
      rfl
  · rw [if_neg hdeg]
    rcases Nat.lt_or_ge 1 A.length with hn2 | hn1
    · have hlb' : ∀ k, k ≤ A.length - 2 →
          (set_up_bounds A).1.getD k 0 = -1 ∨
            (k : Int) < (set_up_bounds A).1.getD k 0 := by
        intro k hk
        rcases lower_bound_cases A (show k < A.length by omega) with
          ⟨h, _⟩ | ⟨j, hv, hkj, _, _, _⟩
        · exact Or.inl h
        · right
          rw [hv]
          exact_mod_cast hkj
      have hub' : ∀ k, k ≤ A.length - 2 →
          (set_up_bounds A).2.getD k 0 = -1 ∨
            (k : Int) < (set_up_bounds A).2.getD k 0 := by
        intro k hk
        rcases upper_bound_cases A (show k < A.length by omega) with
          ⟨h, _⟩ | ⟨j, hv, hkj, _, _, _⟩
        · exact Or.inl h
        · right
          rw [hv]
          exact_mod_cast hkj
      rw [invTop_iff (set_up_bounds A).2 (set_up_bounds A).1 B A.length
        (by omega) hlb' hub' (((B.length : Int) - 1 + 1).toNat)
        ((B.length : Int) - 1) (Nat.le_refl _)]
      constructor
      · rintro ⟨rs, hrsl, hchain, hhead, hfits⟩
        have hixlen : rs.reverse.length = A.length := by simpa using hrsl
        have hixchain : List.Chain' (· < ·) rs.reverse :=
          List.chain'_reverse.mpr hchain
        have hixbnd : ∀ x ∈ rs.reverse, x < B.length := by
          intro x hx
          rw [List.mem_reverse] at hx
          cases rs with
          | nil => simp at hrsl; omega
          | cons y t =>
            have hy := hhead y (by simp)
            have hxy := chain'_gt_le_head (y :: t) hchain x hx y (by simp)
            omega
        refine ⟨rs.reverse, hixlen, hixchain, hixbnd, ?_⟩
        rw [orderIsoTo_map_iff A B rs.reverse hixlen]
        exact (fits_iff_orderIso A B hA hB (by omega) rs.reverse hixlen
          hixchain hixbnd).mp hfits
      · rintro ⟨ix, hixlen, hixchain, hixbnd, hiso⟩
        refine ⟨ix.reverse, by simpa using hixlen, ?_, ?_, ?_⟩
        · exact List.chain'_reverse.mpr hixchain
        · intro x hx
          have hmem : x ∈ ix.reverse := List.mem_of_mem_head? hx
          rw [List.mem_reverse] at hmem
          have := hixbnd x hmem
          omega
        · intro k hk
          rw [List.reverse_reverse]
          exact (fits_iff_orderIso A B hA hB (by omega) ix hixlen hixchain
            hixbnd).mpr ((orderIsoTo_map_iff A B ix hixlen).mp hiso) k hk
    · have hp : B.length < A.length := by
        by_contra h
        exact hdeg ⟨hn1, by omega⟩
      have hn1' : A.length = 1 := by omega
      have hp0 : B.length = 0 := by omega
      constructor
      · intro h
        exfalso
        have hneg : ((B.length : Int) - 1) < 0 := by
          rw [hp0]
          decide
        rw [invTop, if_pos hneg] at h
        cases h
      · rintro ⟨ix, hixlen, _, hixbnd, _⟩
        exfalso
        cases ix with
        | nil => rw [hn1'] at hixlen; simp at hixlen
        | cons x t =>
          have := hixbnd x (by simp)
          omega

/-- C1: For every pair of permutations `A` and `B` with
`len(A) ≤ len(B)`, the pattern-containment query (`A.involved_in(B)` with
`last_require = 0`, equivalently `B.involves(A)`, and the negation
`B.avoids(A)`) returns true if and only if there exists a strictly
increasing sequence of `len(A)` positions in `B` whose values, read in
position order, are order-isomorphic to `A`. -/
theorem containment_correct (A B : List Nat) (hA : IsPermList A)
    (hB : IsPermList B) (hlen : A.length ≤ B.length) :
    (involved_in A B = true ↔
      ∃ ix : List Nat, ix.length = A.length ∧ List.Chain' (· < ·) ix ∧
        (∀ x ∈ ix, x < B.length) ∧
        OrderIsoTo A (ix.map (fun t => B.getD t 0))) ∧
    involves B A = involved_in A B ∧
    avoids B (some A) none = !involved_in A B :=
  ⟨involved_in_iff A B hA hB, rfl, rfl⟩

/-- Witness for C1 at pattern `[0,1]` and target `[2,0,1]`. -/
theorem containment_correct_witness :
    IsPermList [0, 1] ∧ IsPermList [2, 0, 1] ∧
    [0, 1].length ≤ [2, 0, 1].length ∧
    ((involved_in [0, 1] [2, 0, 1] = true ↔
      ∃ ix : List Nat, ix.length = [0, 1].length ∧ List.Chain' (· < ·) ix ∧
        (∀ x ∈ ix, x < [2, 0, 1].length) ∧
        OrderIsoTo [0, 1] (ix.map (fun t => [2, 0, 1].getD t 0))) ∧
    involves [2, 0, 1] [0, 1] = involved_in [0, 1] [2, 0, 1] ∧
    avoids [2, 0, 1] (some [0, 1]) none = !involved_in [0, 1] [2, 0, 1]) :=
  ⟨by decide, by decide, by decide,
    containment_correct [0, 1] [2, 0, 1] (by decide) (by decide) (by decide)⟩

/-- C8: For every pattern `P` and target `Q`, if `len(P) ≤ 1` and
`len(P) ≤ len(Q)` then containment holds: `P.involved_in(Q)` returns true
(the empty pattern and every single-point pattern are contained in every
target at least as long). -/
theorem involved_in_degenerate (P Q : List Nat) (h1 : P.length ≤ 1)
    (h2 : P.length ≤ Q.length) : involved_in P Q = true := by
  have hdef : involved_in P Q =
      (if P.length ≤ 1 ∧ P.length ≤ Q.length then true
       else invTop (set_up_bounds P).2 (set_up_bounds P).1 Q P.length
         ((Q.length : Int) - 1)) := rfl
  rw [hdef, if_pos ⟨h1, h2⟩]

/-- Witness for C8 at the one-point pattern `[0]` and target `[1,0]`. -/
theorem involved_in_degenerate_witness :
    [0].length ≤ 1 ∧ [0].length ≤ [1, 0].length ∧
    involved_in [0] [1, 0] = true :=
  ⟨by decide, by decide, involved_in_degenerate [0] [1, 0] (by decide) (by decide)⟩

/-- C10: For every permutation `P`, calling `P.avoids()` with neither a
pattern `p` nor a collection `B` supplied returns `True` rather than
raising an error: avoidance of an empty set of constraints vacuously
holds. -/
theorem avoids_no_arguments (P : List Nat) : avoids P none none = true := rfl

/-- On a duplicate-free list, filtering out the value at position `i`
removes exactly position `i`. -/
theorem filter_ne_getD (P : List Nat) (hnd : P.Nodup) {i : Nat}
    (hi : i < P.length) :
    P.filter (fun old => !(old == P.getD i 0)) =
      P.take i ++ P.drop (i + 1) := by
  have hsplit : P.take i ++ P[i] :: P.drop (i + 1) = P := by
    rw [List.getElem_cons_drop P i hi]
    exact List.take_append_drop i P
  have hval : P.getD i 0 = P[i] := List.getD_eq_getElem P 0 hi
  have hnd' : (P.take i ++ P[i] :: P.drop (i + 1)).Nodup := by
    rw [hsplit]; exact hnd
  obtain ⟨hnd1, hnd2, hdisj⟩ := List.nodup_append.mp hnd'
  have hstep : P.filter (fun old => !(old == P.getD i 0)) =
      (P.take i ++ P[i] :: P.drop (i + 1)).filter
        (fun old => !(old == P.getD i 0)) := by
    conv_rhs => rw [hsplit]
  rw [hstep, List.filter_append]
  have h1 : (P.take i).filter (fun old => !(old == P.getD i 0)) = P.take i := by
    apply List.filter_eq_self.mpr
    intro a ha
    have hne : a ≠ P[i] := fun he => hdisj ha (he ▸ List.mem_cons_self _ _)
    rw [hval]
    simp [hne]
  have h2 : (P[i] :: P.drop (i + 1)).filter (fun old => !(old == P.getD i 0)) =
      P.drop (i + 1) := by
    rw [List.filter_cons]
    have hPi : (!(P[i] == P.getD i 0)) = false := by
      rw [hval]; simp
    rw [hPi]
    simp only [Bool.false_eq_true, if_false]
    apply List.filter_eq_self.mpr
    intro a ha
    have hne : a ≠ P[i] := fun he => (List.nodup_cons.mp hnd2).1 (he ▸ ha)
    rw [hval]
    simp [hne]
  rw [h1, h2]

theorem delete_at_eq (P : List Nat) (hnd : P.Nodup) {i : Nat}
    (hi : i < P.length) :
    delete_at P i = (P.take i ++ P.drop (i + 1)).map
      (fun old => if old < P.getD i 0 then old else old - 1) := by
  unfold delete_at
  rw [filter_ne_getD P hnd hi]

theorem delete_at_length (P : List Nat) (hnd : P.Nodup) {i : Nat}
    (hi : i < P.length) :
    (delete_at P i).length = P.length - 1 := by
  rw [delete_at_eq P hnd hi]
  simp only [List.length_map, List.length_append, List.length_take,
    List.length_drop]
  omega

theorem getD_map_gen (f : Nat → Nat) (l : List Nat) {k : Nat}
    (hk : k < l.length) :
    (l.map f).getD k 0 = f (l.getD k 0) := by
  rw [List.getD_eq_getElem _ _ (by simpa using hk), List.getD_eq_getElem _ _ hk,
    List.getElem_map]

theorem getD_append_lt (l₁ l₂ : List Nat) (m : Nat) (h : m < l₁.length) :
    (l₁ ++ l₂).getD m 0 = l₁.getD m 0 := by
  have h2 : m < (l₁ ++ l₂).length := by
    rw [List.length_append]
    omega
  rw [List.getD_eq_getElem _ _ h2, List.getD_eq_getElem _ _ h,
    List.getElem_append_left h]

theorem getD_take_lt (l : List Nat) (i m : Nat) (h : m < i)
    (h2 : m < l.length) :
    (l.take i).getD m 0 = l.getD m 0 := by
  have h3 : m < (l.take i).length := by
    rw [List.length_take]
    omega
  rw [List.getD_eq_getElem _ _ h3, List.getD_eq_getElem _ _ h2,
    List.getElem_take]

theorem delete_at_getD (P : List Nat) (hnd : P.Nodup) {i : Nat}
    (hi : i < P.length) {t : Nat} (ht : t < P.length - 1) :
    (delete_at P i).getD t 0 =
      (if P.getD (if t < i then t else t + 1) 0 < P.getD i 0
       then P.getD (if t < i then t else t + 1) 0
       else P.getD (if t < i then t else t + 1) 0 - 1) := by
  rw [delete_at_eq P hnd hi]
  have hlen : t < (P.take i ++ P.drop (i + 1)).length := by
    simp only [List.length_append, List.length_take, List.length_drop]
    omega
  rw [getD_map_gen _ _ hlen]
  by_cases hti : t < i
  · rw [if_pos hti,
      getD_append_lt _ _ _ (by rw [List.length_take]; omega),
      getD_take_lt P i t hti (by omega)]
  · rw [if_neg hti,
      getD_append_ge _ _ _ (by rw [List.length_take]; omega),
      List.length_take, getD_drop_add,
      show i + 1 + (t - min i P.length) = t + 1 by omega]

/-- Every entry of `delete_at P i` comes from an entry of `P` other than
position `i`, with the gap closed. -/
theorem delete_at_isPermList (P : List Nat) (hP : IsPermList P) {i : Nat}
    (hi : i < P.length) : IsPermList (delete_at P i) := by
  have hnd := hP.nodup
  have hval : P.getD i 0 = P[i] := List.getD_eq_getElem P 0 hi
  have hrest : ∀ a ∈ P.take i ++ P.drop (i + 1), a ∈ P ∧ a ≠ P[i] := by
    intro a ha
    have hsplit : P.take i ++ P[i] :: P.drop (i + 1) = P := by
      rw [List.getElem_cons_drop P i hi]
      exact List.take_append_drop i P
    have hnd' : (P.take i ++ P[i] :: P.drop (i + 1)).Nodup := by
      rw [hsplit]; exact hnd
    obtain ⟨_, hnd2, hdisj⟩ := List.nodup_append.mp hnd'
    rcases List.mem_append.mp ha with h | h
    · refine ⟨?_, fun he => hdisj h (he ▸ List.mem_cons_self _ _)⟩
      rw [← hsplit]
      exact List.mem_append.mpr (Or.inl h)
    · refine ⟨?_, fun he => (List.nodup_cons.mp hnd2).1 (he ▸ h)⟩
      rw [← hsplit]
      exact List.mem_append.mpr (Or.inr (List.mem_cons_of_mem _ h))
  have hsplit : P.take i ++ P[i] :: P.drop (i + 1) = P := by
    rw [List.getElem_cons_drop P i hi]
    exact List.take_append_drop i P
  have hsub : (P.take i ++ P.drop (i + 1)).Sublist P := by
    have h2 : (P.take i ++ P.drop (i + 1)).Sublist
        (P.take i ++ P[i] :: P.drop (i + 1)) :=
      List.Sublist.append_left (List.sublist_cons_self _ _) _
    rw [hsplit] at h2
    exact h2
  have hPin : P[i] < P.length := hP.mem_iff_lt.mp (P.getElem_mem hi)
  apply isPermList_of_nodup_lt
  · rw [delete_at_eq P hnd hi]
    apply List.Nodup.map_on
    · intro x hx y hy hxy
      obtain ⟨hxP, hxne⟩ := hrest x hx
      obtain ⟨hyP, hyne⟩ := hrest y hy
      rw [hval] at hxy
      split_ifs at hxy <;> omega
    · exact hnd.sublist hsub
  · intro v hv
    rw [delete_at_length P hnd hi]
    rw [delete_at_eq P hnd hi] at hv
    obtain ⟨o, ho, rfl⟩ := List.mem_map.mp hv
    obtain ⟨hoP, hone⟩ := hrest o ho
    have holt : o < P.length := hP.mem_iff_lt.mp hoP
    rw [hval]
    split_ifs <;> omega

/-- C6: For every permutation `P`, every pattern `Q`, and every position
index `i` of `P`: if `P` avoids `Q`, then the permutation obtained by
deleting position `i` from `P` (`P.delete(indices=i)`) also avoids `Q`. -/
theorem avoids_delete (P Q : List Nat) (i : Nat) (hP : IsPermList P)
    (hQ : IsPermList Q) (hi : i < P.length)
    (h : avoids P (some Q) none = true) :
    avoids (delete_at P i) (some Q) none = true := by
  have hdel := delete_at_isPermList P hP hi
  have hnd := hP.nodup
  have hPf : involved_in Q P = false := by
    cases hQP : involved_in Q P
    · rfl
    · rw [show avoids P (some Q) none = !(involved_in Q P) from rfl, hQP] at h
      cases h
  show (!(involved_in Q (delete_at P i))) = true
  cases hDel : involved_in Q (delete_at P i)
  · rfl
  · exfalso
    obtain ⟨ix, hixlen, hixchain, hixbnd, hiso⟩ :=
      (involved_in_iff Q (delete_at P i) hQ hdel).mp hDel
    have hdlen : (delete_at P i).length = P.length - 1 :=
      delete_at_length P hnd hi
    have hixmem : ∀ k : Nat, k < ix.length → ix.getD k 0 < P.length - 1 := by
      intro k hk
      have : ix.getD k 0 ∈ ix := by
        rw [List.getD_eq_getElem _ _ hk]
        exact ix.getElem_mem hk
      have := hixbnd _ this
      omega
    have hmain : involved_in Q P = true := by
      apply (involved_in_iff Q P hQ hP).mpr
      refine ⟨ix.map (fun t => if t < i then t else t + 1),
        by simpa using hixlen, ?_, ?_, ?_⟩
      · rw [List.chain'_map]
        apply List.Chain'.imp ?_ hixchain
        intro a b hab
        dsimp only
        split_ifs <;> omega
      · intro x hx
        obtain ⟨y, hy, rfl⟩ := List.mem_map.mp hx
        have := hixbnd y hy
        rw [hdlen] at this
        split_ifs <;> omega
      · rw [orderIsoTo_map_iff Q P _ (by simpa using hixlen)]
        have hiso' := (orderIsoTo_map_iff Q (delete_at P i) ix hixlen).mp hiso
        intro k l hkl hln
        have hk' : k < ix.length := by omega
        have hl' : l < ix.length := by omega
        have e1 : (ix.map (fun t => if t < i then t else t + 1)).getD k 0 =
            (if ix.getD k 0 < i then ix.getD k 0 else ix.getD k 0 + 1) :=
          getD_map_gen _ _ hk'
        have e2 : (ix.map (fun t => if t < i then t else t + 1)).getD l 0 =
            (if ix.getD l 0 < i then ix.getD l 0 else ix.getD l 0 + 1) :=
          getD_map_gen _ _ hl'
        rw [e1, e2, hiso' k l hkl hln]
        have hu := hixmem k hk'
        have hv := hixmem l hl'
        rw [delete_at_getD P hnd hi hu, delete_at_getD P hnd hi hv]
        have hgu : (if ix.getD k 0 < i then ix.getD k 0 else ix.getD k 0 + 1) <
            P.length := by split_ifs <;> omega
        have hgv : (if ix.getD l 0 < i then ix.getD l 0 else ix.getD l 0 + 1) <
            P.length := by split_ifs <;> omega
        have hguni : (if ix.getD k 0 < i then ix.getD k 0 else ix.getD k 0 + 1) ≠
            i := by split_ifs <;> omega
        have hgvni : (if ix.getD l 0 < i then ix.getD l 0 else ix.getD l 0 + 1) ≠
            i := by split_ifs <;> omega
        have hneu := nodup_getD_ne hnd hgu hi hguni
        have hnev := nodup_getD_ne hnd hgv hi hgvni
        generalize P.getD (if ix.getD k 0 < i then ix.getD k 0
          else ix.getD k 0 + 1) 0 = a at hneu ⊢
        generalize P.getD (if ix.getD l 0 < i then ix.getD l 0
          else ix.getD l 0 + 1) 0 = b at hnev ⊢
        generalize P.getD i 0 = w at hneu hnev ⊢
        constructor
        · intro hlt
          split_ifs at hlt <;> omega
        · intro hlt
          split_ifs <;> omega
    rw [hmain] at hPf
    cases hPf

/-- Witness for C6 at `P = [0,1]`, `Q = [1,0]`, `i = 0`; the avoidance
hypothesis is established through `involved_in_iff`. -/
theorem avoids_delete_witness :
    IsPermList [0, 1] ∧ IsPermList [1, 0] ∧ 0 < [0, 1].length ∧
    avoids [0, 1] (some [1, 0]) none = true ∧
    avoids (delete_at [0, 1] 0) (some [1, 0]) none = true := by
  have hnotex : ¬∃ ix : List Nat, ix.length = [1, 0].length ∧
      List.Chain' (· < ·) ix ∧ (∀ x ∈ ix, x < [0, 1].length) ∧
      OrderIsoTo [1, 0] (ix.map (fun t => [0, 1].getD t 0)) := by
    rintro ⟨ix, hlen, hchain, hbnd, ⟨_, hpairs⟩⟩
    cases ix with
    | nil => simp at hlen
    | cons a t =>
      cases t with
      | nil => simp at hlen
      | cons b t2 =>
        cases t2 with
        | cons c t3 => simp at hlen
        | nil =>
          have hab : a < b := by
            have := List.chain'_cons'.mp hchain
            simpa using this.1 b rfl
          have ha2 : a < 2 := by simpa using hbnd a (by simp)
          have hb2 : b < 2 := by simpa using hbnd b (by simp)
          have hva : [0, 1].getD a 0 = a := by interval_cases a <;> rfl
          have hvb : [0, 1].getD b 0 = b := by interval_cases b <;> rfl
          have hiff := hpairs 0 1 (by omega) (by simp)
          have hr : ([a, b].map (fun t => [0, 1].getD t 0)).getD 0 0 = a := by
            simpa using hva
          have hr2 : ([a, b].map (fun t => [0, 1].getD t 0)).getD 1 0 = b := by
            simpa using hvb
          rw [hr, hr2] at hiff
          have : (1 : Nat) > 0 := by omega
          have hcontra := hiff.mpr hab
          simp at hcontra
  have hfalse : involved_in [1, 0] [0, 1] = false := by
    cases hI : involved_in [1, 0] [0, 1]
    · rfl
    · exact absurd ((involved_in_iff [1, 0] [0, 1] (by decide) (by decide)).mp hI)
        hnotex
  have havoid : avoids [0, 1] (some [1, 0]) none = true := by
    show (!(involved_in [1, 0] [0, 1])) = true
    rw [hfalse]
    rfl
  exact ⟨by decide, by decide, by decide, havoid,
    avoids_delete [0, 1] [1, 0] 0 (by decide) (by decide) (by decide) havoid⟩

theorem dsum_nil (x : List Nat) : dsum [] x = x := by
  simp [dsum]

theorem sskew_nil (x : List Nat) : sskew [] x = x := by
  simp [sskew]

/-- Folding the direct sum from an arbitrary accumulator prepends the
accumulator and shifts the remainder up by its length. -/
theorem foldl_dsum (L : List (List Nat)) :
    ∀ a : List Nat, L.foldl dsum a =
      a ++ (L.foldl dsum []).map (fun x => x + a.length) := by
  induction L with
  | nil => intro a; simp
  | cons x L ih =>
    intro a
    rw [List.foldl_cons, List.foldl_cons, ih (dsum a x), ih (dsum [] x),
      dsum_nil]
    unfold dsum
    rw [List.map_append, List.map_map, List.append_assoc]
    congr 2
    apply List.map_congr_left
    intro v _
    simp only [Function.comp, List.length_append, List.length_map]
    omega

/-- Folding the skew sum from an arbitrary accumulator shifts the
accumulator above the remainder. -/
theorem foldl_sskew (L : List (List Nat)) :
    ∀ a : List Nat, L.foldl sskew a =
      a.map (fun x => x + (L.foldl sskew []).length) ++ L.foldl sskew [] := by
  induction L with
  | nil => intro a; simp
  | cons x L ih =>
    intro a
    rw [List.foldl_cons, List.foldl_cons, ih (sskew a x), ih (sskew [] x),
      sskew_nil]
    unfold sskew
    rw [List.map_append, List.map_map, List.append_assoc]
    congr 1
    apply List.map_congr_left
    intro v _
    simp only [Function.comp, List.length_append, List.length_map]
    omega

/-- Facts extracted from a successful sum cut at `idx`. -/
theorem sumCut_facts (p : List Nat) (hp : IsPermList p) {idx : Nat}
    (hidx : idx + 1 < p.length) (hcut : sumCutAt p idx = true) :
    (∀ v ∈ p.drop (idx + 1), idx + 1 ≤ v ∧ v < p.length) ∧
    IsPermList ((p.drop (idx + 1)).map (fun v => v - (idx + 1))) ∧
    p.take (idx + 1) ++
      (((p.drop (idx + 1)).map (fun v => v - (idx + 1))).map
        (fun v => v + (idx + 1))) = p := by
  have hnd := hp.nodup
  have hcut' : (p.take (idx + 1)).toFinset = Finset.range (idx + 1) := by
    simpa [sumCutAt] using hcut
  have hsplit : p.take (idx + 1) ++ p.drop (idx + 1) = p :=
    List.take_append_drop _ p
  have hnd' : (p.take (idx + 1) ++ p.drop (idx + 1)).Nodup := by
    rw [hsplit]; exact hnd
  obtain ⟨_, _, hdisj⟩ := List.nodup_append.mp hnd'
  have hdropmem : ∀ v ∈ p.drop (idx + 1), idx + 1 ≤ v ∧ v < p.length := by
    intro v hv
    have hvp : v ∈ p := by
      rw [← hsplit]
      exact List.mem_append.mpr (Or.inr hv)
    refine ⟨?_, hp.mem_iff_lt.mp hvp⟩
    by_contra hlt
    have : v ∈ (p.take (idx + 1)).toFinset := by
      rw [hcut']
      exact Finset.mem_range.mpr (by omega)
    rw [List.mem_toFinset] at this
    exact hdisj this hv
  refine ⟨hdropmem, ?_, ?_⟩
  · apply isPermList_of_nodup_lt
    · apply List.Nodup.map_on
      · intro x hx y hy hxy
        have := (hdropmem x hx).1
        have := (hdropmem y hy).1
        omega
      · exact hnd.sublist (List.drop_sublist _ _)
    · intro v hv
      obtain ⟨o, ho, rfl⟩ := List.mem_map.mp hv
      obtain ⟨h1, h2⟩ := hdropmem o ho
      simp only [List.length_map, List.length_drop]
      omega
  · rw [List.map_map]
    have heq : (p.drop (idx + 1)).map
        ((fun v => v + (idx + 1)) ∘ (fun v => v - (idx + 1))) =
        (p.drop (idx + 1)).map id := by
      apply List.map_congr_left
      intro v hv
      have := (hdropmem v hv).1
      simp only [Function.comp, id]
      omega
    rw [heq, List.map_id]
    exact hsplit

/-- Facts extracted from a successful skew cut at `idx`. -/
theorem skewCut_facts (p : List Nat) (hp : IsPermList p) {idx : Nat}
    (hidx : idx + 1 < p.length) (hcut : skewCutAt p idx = true) :
    (∀ v ∈ p.take (idx + 1), p.length - idx - 1 ≤ v ∧ v < p.length) ∧
    IsPermList (p.drop (idx + 1)) ∧
    ((p.take (idx + 1)).map (fun v => v - (p.length - idx - 1))).map
      (fun v => v + (p.length - idx - 1)) = p.take (idx + 1) := by
  have hnd := hp.nodup
  have hcut' : ((p.take (idx + 1)).map
      (fun v => p.length - v - 1)).toFinset = Finset.range (idx + 1) := by
    simpa [skewCutAt] using hcut
  have hsplit : p.take (idx + 1) ++ p.drop (idx + 1) = p :=
    List.take_append_drop _ p
  have hnd' : (p.take (idx + 1) ++ p.drop (idx + 1)).Nodup := by
    rw [hsplit]; exact hnd
  obtain ⟨_, _, hdisj⟩ := List.nodup_append.mp hnd'
  have htakemem : ∀ v ∈ p.take (idx + 1),
      p.length - idx - 1 ≤ v ∧ v < p.length := by
    intro v hv
    have hvp : v ∈ p := by
      rw [← hsplit]
      exact List.mem_append.mpr (Or.inl hv)
    have hvn := hp.mem_iff_lt.mp hvp
    refine ⟨?_, hvn⟩
    have : p.length - v - 1 ∈ ((p.take (idx + 1)).map
        (fun v => p.length - v - 1)).toFinset := by
      rw [List.mem_toFinset]
      exact List.mem_map.mpr ⟨v, hv, rfl⟩
    rw [hcut', Finset.mem_range] at this
    omega
  have hdropmem : ∀ v ∈ p.drop (idx + 1), v < p.length - idx - 1 := by
    intro v hv
    have hvp : v ∈ p := by
      rw [← hsplit]
      exact List.mem_append.mpr (Or.inr hv)
    have hvn := hp.mem_iff_lt.mp hvp
    by_contra hge
    have hmem : p.length - v - 1 ∈ Finset.range (idx + 1) :=
      Finset.mem_range.mpr (by omega)
    rw [← hcut', List.mem_toFinset] at hmem
    obtain ⟨u, hu, huv⟩ := List.mem_map.mp hmem
    have hun := hp.mem_iff_lt.mp (by
      rw [← hsplit]
      exact List.mem_append.mpr (Or.inl hu))
    have huveq : u = v := by omega
    subst huveq
    exact hdisj hu hv
  refine ⟨htakemem, ?_, ?_⟩
  · apply isPermList_of_nodup_lt
    · exact hnd.sublist (List.drop_sublist _ _)
    · intro v hv
      have := hdropmem v hv
      simp only [List.length_drop]
      omega
  · rw [List.map_map]
    have heq : (p.take (idx + 1)).map
        ((fun v => v + (p.length - idx - 1)) ∘
          (fun v => v - (p.length - idx - 1))) =
        (p.take (idx + 1)).map id := by
      apply List.map_congr_left
      intro v hv
      have := (htakemem v hv).1
      simp only [Function.comp, id]
      omega
    rw [heq, List.map_id]

/-- Round trip of the sum decomposition, by strong induction on length. -/
theorem sum_decomposition_foldl : ∀ n : Nat, ∀ p : List Nat,
    p.length = n → IsPermList p →
    (sum_decomposition p).foldl dsum [] = p := by
  intro n
  induction n using Nat.strong_induction_on with
  | _ n IH =>
    intro p hlen hp
    rw [sum_decomposition]
    by_cases hp0 : p.length = 0
    · rw [dif_pos hp0, List.length_eq_zero.mp hp0]
      rfl
    · rw [dif_neg hp0]
      cases hfind : (List.range (p.length - 1)).find?
          (fun idx => sumCutAt p idx) with
      | none =>
        rw [List.foldl_cons, dsum_nil, List.foldl_nil]
      | some idx =>
        have hmem := List.mem_of_find?_eq_some hfind
        rw [List.mem_range] at hmem
        have hcut := List.find?_some hfind
        obtain ⟨hdropmem, hrestperm, hrec⟩ :=
          sumCut_facts p hp (by omega) hcut
        rw [List.foldl_cons, dsum_nil, foldl_dsum]
        have hrest := IH (p.length - (idx + 1)) (by omega)
          ((p.drop (idx + 1)).map (fun v => v - (idx + 1)))
          (by simp only [List.length_map, List.length_drop]) hrestperm
        rw [hrest]
        have htl : (p.take (idx + 1)).length = idx + 1 := by
          rw [List.length_take]
          omega
        rw [htl]
        exact hrec

/-- Round trip of the skew decomposition, by strong induction on length. -/
theorem skew_decomposition_foldl : ∀ n : Nat, ∀ p : List Nat,
    p.length = n → IsPermList p →
    (skew_decomposition p).foldl sskew [] = p := by
  intro n
  induction n using Nat.strong_induction_on with
  | _ n IH =>
    intro p hlen hp
    rw [skew_decomposition]
    by_cases hp0 : p.length = 0
    · rw [dif_pos hp0, List.length_eq_zero.mp hp0]
      rfl
    · rw [dif_neg hp0]
      cases hfind : (List.range (p.length - 1)).find?
          (fun idx => skewCutAt p idx) with
      | none =>
        rw [List.foldl_cons, sskew_nil, List.foldl_nil]
      | some idx =>
        have hmem := List.mem_of_find?_eq_some hfind
        rw [List.mem_range] at hmem
        have hcut := List.find?_some hfind
        obtain ⟨htakemem, hrestperm, hrec⟩ :=
          skewCut_facts p hp (by omega) hcut
        rw [List.foldl_cons, sskew_nil, foldl_sskew]
        have hrest := IH (p.length - (idx + 1)) (by omega)
          (p.drop (idx + 1)) (by simp only [List.length_drop]) hrestperm
        rw [hrest]
        have hdl : (p.drop (idx + 1)).length = p.length - idx - 1 := by
          rw [List.length_drop]
          omega
        rw [hdl, hrec]
        exact List.take_append_drop _ p

/-- C3: For every permutation `P`, folding the direct-sum operation over
`sum_decomposition(P)` in order reconstructs `P` exactly, and folding the
skew-sum operation over `skew_decomposition(P)` in order reconstructs `P`
exactly; the empty permutation decomposes to the empty list. -/
theorem sum_skew_roundtrip (p : List Nat) (hp : IsPermList p) :
    (sum_decomposition p).foldl dsum [] = p ∧
    (skew_decomposition p).foldl sskew [] = p ∧
    sum_decomposition [] = [] ∧ skew_decomposition [] = [] := by
  refine ⟨sum_decomposition_foldl p.length p rfl hp,
    skew_decomposition_foldl p.length p rfl hp, ?_, ?_⟩
  · rw [sum_decomposition]
    rfl
  · rw [skew_decomposition]
    rfl

/-- Witness for C3 at the permutation `[1,0,2]`. -/
theorem sum_skew_roundtrip_witness :
    IsPermList [1, 0, 2] ∧
    ((sum_decomposition [1, 0, 2]).foldl dsum [] = [1, 0, 2] ∧
     (skew_decomposition [1, 0, 2]).foldl sskew [] = [1, 0, 2] ∧
     sum_decomposition [] = [] ∧ skew_decomposition [] = []) :=
  ⟨by decide, sum_skew_roundtrip [1, 0, 2] (by decide)⟩

/-- Complete case analysis of the descending size scan of
`maximal_interval`. -/
theorem miScan_spec (p : List Nat) : ∀ i0 : Nat,
    (miScan p i0 = (0, 0) ∧ ∀ i', 2 ≤ i' → i' ≤ i0 → firstJ p i' = none) ∨
    (∃ i j : Nat, miScan p i0 = (i, j) ∧ 2 ≤ i ∧ i ≤ i0 ∧
      firstJ p i = some j ∧ ∀ i', i < i' → i' ≤ i0 → firstJ p i' = none) := by
  intro i0
  induction i0 with
  | zero =>
    left
    exact ⟨by rw [miScan, if_pos (by omega)], fun i' h1 h2 => by omega⟩
  | succ i0 ih =>
    by_cases h2 : i0 + 1 < 2
    · left
      exact ⟨by rw [miScan, if_pos h2], fun i' h1 h2' => by omega⟩
    · cases hfind : firstJ p (i0 + 1) with
      | some j =>
        right
        exact ⟨i0 + 1, j, by rw [miScan, if_neg h2, hfind], by omega,
          Nat.le_refl _, hfind, fun i' ha hb => by omega⟩
      | none =>
        have hun : miScan p (i0 + 1) = miScan p i0 := by
          rw [miScan, if_neg h2, hfind]
          simp only [Nat.add_sub_cancel]
        rcases ih with ⟨ha, hb⟩ | ⟨i, j, ha, hb, hc, hd, he⟩
        · left
          refine ⟨hun ▸ ha, fun i' h1 h2' => ?_⟩
          by_cases h : i' ≤ i0
          · exact hb i' h1 h
          · have : i' = i0 + 1 := by omega
            subst this
            exact hfind
        · right
          refine ⟨i, j, hun ▸ ha, hb, by omega, hd, fun i' h1 h2' => ?_⟩
          by_cases h : i' ≤ i0
          · exact he i' h1 h
          · have : i' = i0 + 1 := by omega
            subst this
            exact hfind

theorem firstJ_some (p : List Nat) {i j : Nat} (h : firstJ p i = some j) :
    j ≤ p.length - i ∧ isIntervalAt p j i = true := by
  unfold firstJ at h
  have h1 := List.mem_of_find?_eq_some h
  rw [List.mem_range] at h1
  exact ⟨by omega, by simpa using List.find?_some h⟩

theorem firstJ_none (p : List Nat) {i : Nat} (h : firstJ p i = none) :
    ∀ j, j + i ≤ p.length → isIntervalAt p j i = false := by
  intro j hj
  unfold firstJ at h
  have := List.find?_eq_none.mp h j
  rcases hcase : isIntervalAt p j i with _ | _
  · rfl
  · exfalso
    refine this ?_ hcase
    rw [List.mem_range]
    rcases Nat.le_total i p.length with h' | h'
    · omega
    · omega

/-- A non-simple answer of `maximal_interval`: an interval of size
`i ≥ 2` fitting in `p`, maximal among proper interval sizes. -/
theorem maximal_interval_spec (p : List Nat)
    (h : maximal_interval p ≠ (0, 0)) :
    2 ≤ (maximal_interval p).1 ∧
    (maximal_interval p).1 ≤ p.length - 1 ∧
    (maximal_interval p).2 + (maximal_interval p).1 ≤ p.length ∧
    isIntervalAt p (maximal_interval p).2 (maximal_interval p).1 = true ∧
    ∀ s j, (maximal_interval p).1 < s → s ≤ p.length - 1 →
      j + s ≤ p.length → isIntervalAt p j s = false := by
  rcases miScan_spec p (p.length - 1) with ⟨ha, _⟩ | ⟨i, j, ha, hb, hc, hd, he⟩
  · exact absurd ha h
  · unfold maximal_interval
    rw [ha]
    obtain ⟨hj1, hj2⟩ := firstJ_some p hd
    have hi_le : i ≤ p.length - 1 := hc
    refine ⟨hb, hc, by omega, hj2, ?_⟩
    intro s j' hs1 hs2 hs3
    exact firstJ_none p (he s (by omega) (by omega)) j' hs3

theorem maximal_interval_eq_00_iff (p : List Nat) :
    maximal_interval p = (0, 0) ↔
      ∀ s j, 2 ≤ s → s + 1 ≤ p.length → j + s ≤ p.length →
        isIntervalAt p j s = false := by
  rcases miScan_spec p (p.length - 1) with ⟨ha, hb⟩ | ⟨i, j, ha, hb, hc, hd, he⟩
  · unfold maximal_interval
    rw [ha]
    constructor
    · intro _ s j hs1 hs2 hj
      exact firstJ_none p (hb s hs1 (by omega)) j hj
    · intro _
      rfl
  · unfold maximal_interval
    rw [ha]
    constructor
    · intro hcon
      exfalso
      have := (Prod.mk.injEq _ _ _ _).mp hcon
      omega
    · intro hall
      exfalso
      obtain ⟨hj1, hj2⟩ := firstJ_some p hd
      have := hall i j hb (by omega) (by omega)
      rw [this] at hj2
      cases hj2

/-- The descent of the decomposition loop: when the base is not simple the
collapsed and standardized base is strictly shorter (so the guard inside
`decompLoop` always succeeds). -/
theorem decompLoop_progress (base : List Nat)
    (h : is_simple base = false) :
    (standardize (base.take (maximal_interval base).2 ++
      [base.getD (maximal_interval base).2 0] ++
      base.drop ((maximal_interval base).1 + (maximal_interval base).2))).length
      < base.length := by
  have hne : maximal_interval base ≠ (0, 0) := by
    intro hcon
    unfold is_simple at h
    rw [hcon] at h
    cases h
  obtain ⟨h2, hle, hfit, _, _⟩ := maximal_interval_spec base hne
  rw [standardize_length]
  simp only [List.length_append, List.length_take, List.length_drop,
    List.length_cons, List.length_nil]
  omega

theorem decompLoop_step (base : List Nat) (comps : List (List Nat))
    (h : is_simple base = false) :
    decompLoop base comps =
      decompLoop
        (standardize (base.take (maximal_interval base).2 ++
          [base.getD (maximal_interval base).2 0] ++
          base.drop ((maximal_interval base).1 + (maximal_interval base).2)))
        (comps.take (maximal_interval base).2 ++
          [standardize ((base.drop (maximal_interval base).2).take
            (maximal_interval base).1)] ++
          comps.drop ((maximal_interval base).1 + (maximal_interval base).2)) := by
  conv_lhs => rw [decompLoop]
  rw [if_neg (by rw [h]; exact Bool.false_ne_true)]
  rw [dif_pos (decompLoop_progress base h)]

theorem decompLoop_simple (base : List Nat) (comps : List (List Nat))
    (h : is_simple base = true) :
    decompLoop base comps = (base, comps) := by
  rw [decompLoop, if_pos h]

/-- The final base of the decomposition loop never grows. -/
theorem decompLoop_base_le : ∀ n : Nat, ∀ base : List Nat,
    ∀ comps : List (List Nat), base.length = n →
    (decompLoop base comps).1.length ≤ base.length := by
  intro n
  induction n using Nat.strong_induction_on with
  | _ n IH =>
    intro base comps hlen
    cases hs : is_simple base with
    | true => rw [decompLoop_simple base comps hs]
    | false =>
      rw [decompLoop_step base comps hs]
      have hprog := decompLoop_progress base hs
      have := IH _ (by omega : (standardize (base.take (maximal_interval base).2 ++
        [base.getD (maximal_interval base).2 0] ++
        base.drop ((maximal_interval base).1 + (maximal_interval base).2))).length < n)
        _ (comps.take (maximal_interval base).2 ++
          [standardize ((base.drop (maximal_interval base).2).take
            (maximal_interval base).1)] ++
          comps.drop ((maximal_interval base).1 + (maximal_interval base).2)) rfl
      omega

theorem getD_range_map (f : Nat → Nat) (n : Nat) {j : Nat} (hj : j < n) :
    ((List.range n).map f).getD j 0 = f j := by
  rw [List.getD_eq_getElem _ _ (by simpa using hj), List.getElem_map,
    List.getElem_range]

theorem listMax_append_singleton (l : List Nat) (x : Nat) :
    listMax (l ++ [x]) = max (listMax l) x := by
  unfold listMax
  rw [List.foldl_append]
  rfl

theorem listMin_append_singleton (l : List Nat) (x : Nat) (h : l ≠ []) :
    listMin (l ++ [x]) = min (listMin l) x := by
  cases l with
  | nil => exact absurd rfl h
  | cons a t =>
    show List.foldl min a (t ++ [x]) = min (List.foldl min a t) x
    rw [List.foldl_append]
    rfl

/-- Extending a window slice by one position on the right. -/
theorem slice_snoc (p : List Nat) (a k : Nat) (h : a + k < p.length) :
    (p.drop a).take (k + 1) = (p.drop a).take k ++ [p.getD (a + k) 0] := by
  have hk : k < (p.drop a).length := by
    rw [List.length_drop]
    omega
  rw [List.take_succ]
  congr 1
  rw [List.getElem?_eq_getElem hk, List.getElem_drop]
  simp only [Option.toList_some]
  congr 1
  rw [List.getD_eq_getElem _ _ (by omega)]

theorem slice_take_one (p : List Nat) {j : Nat} (hj : j < p.length) :
    (p.drop j).take 1 = [p.getD j 0] := by
  have := slice_snoc p j 0 (by omega)
  simpa using this

/-- The `mins` pass updates the window minima from size `min (i-1) j` to
size `min i j`. -/
theorem slPassMin_spec (p mins : List Nat) (i : Nat) (hi : 1 ≤ i)
    (hinv : ∀ j, j < p.length →
      mins.getD j 0 =
        listMin ((p.drop (j - min (i - 1) j)).take (min (i - 1) j + 1))) :
    ∀ j, j < p.length →
      (slPassMin p i mins).getD j 0 =
        listMin ((p.drop (j - min i j)).take (min i j + 1)) := by
  intro j hj
  unfold slPassMin
  rw [getD_range_map _ _ hj]
  by_cases hij : i ≤ j
  · rw [if_pos hij]
    have hj1 : j - 1 < p.length := by omega
    have h1 := hinv (j - 1) hj1
    have hm1 : min (i - 1) (j - 1) = i - 1 := by omega
    rw [hm1] at h1
    have hm2 : min i j = i := by omega
    rw [hm2]
    have harith : j - 1 - (i - 1) = j - i := by omega
    rw [harith] at h1
    have harith2 : (i - 1) + 1 = i := by omega
    rw [harith2] at h1
    rw [slice_snoc p (j - i) i (by omega)]
    rw [listMin_append_singleton _ _ ?_]
    · rw [← h1]
      congr 2
      omega
    · intro hcon
      have := congrArg List.length hcon
      simp only [List.length_take, List.length_drop, List.length_nil] at this
      omega
  · rw [if_neg hij]
    have h1 := hinv j hj
    have hm1 : min (i - 1) j = j := by omega
    have hm2 : min i j = j := by omega
    rw [hm1] at h1
    rw [hm2, h1]

/-- The matching fact for the `maxs` pass. -/
theorem slPassMax_spec (p maxs : List Nat) (i : Nat) (hi : 1 ≤ i)
    (hinv : ∀ j, j < p.length →
      maxs.getD j 0 =
        listMax ((p.drop (j - min (i - 1) j)).take (min (i - 1) j + 1))) :
    ∀ j, j < p.length →
      (slPassMax p i maxs).getD j 0 =
        listMax ((p.drop (j - min i j)).take (min i j + 1)) := by
  intro j hj
  unfold slPassMax
  rw [getD_range_map _ _ hj]
  by_cases hij : i ≤ j
  · rw [if_pos hij]
    have hj1 : j - 1 < p.length := by omega
    have h1 := hinv (j - 1) hj1
    have hm1 : min (i - 1) (j - 1) = i - 1 := by omega
    rw [hm1] at h1
    have hm2 : min i j = i := by omega
    rw [hm2]
    have harith : j - 1 - (i - 1) = j - i := by omega
    rw [harith] at h1
    have harith2 : (i - 1) + 1 = i := by omega
    rw [harith2] at h1
    rw [slice_snoc p (j - i) i (by omega)]
    rw [listMax_append_singleton]
    rw [← h1]
    congr 2
    omega
  · rw [if_neg hij]
    have h1 := hinv j hj
    have hm1 : min (i - 1) j = j := by omega
    have hm2 : min i j = j := by omega
    rw [hm1] at h1
    rw [hm2, h1]

theorem slPass_length (p l : List Nat) (i : Nat) :
    (slPassMin p i l).length = p.length ∧
    (slPassMax p i l).length = p.length := by
  constructor <;> simp [slPassMin, slPassMax]

/-- Full characterization of the scan of `simple_location`: it returns
`(0, 0)` exactly when no window of size `i + 1` and up is an interval. -/
theorem slScan_spec (p : List Nat) : ∀ fuel i : Nat, ∀ mins maxs : List Nat,
    p.length - 1 - i = fuel → 1 ≤ i →
    (∀ j, j < p.length → mins.getD j 0 =
      listMin ((p.drop (j - min (i - 1) j)).take (min (i - 1) j + 1))) →
    (∀ j, j < p.length → maxs.getD j 0 =
      listMax ((p.drop (j - min (i - 1) j)).take (min (i - 1) j + 1))) →
    (slScan p mins maxs i = (0, 0) ↔
      ∀ s j, i + 1 ≤ s → s + 1 ≤ p.length → j + s ≤ p.length →
        isIntervalAt p j s = false) := by
  intro fuel
  induction fuel with
  | zero =>
    intro i mins maxs hfuel hi hminv hmaxv
    rw [slScan, if_pos (by omega)]
    constructor
    · intro _ s j hs1 hs2 hj
      omega
    · intro _
      rfl
  | succ fuel IH =>
    intro i mins maxs hfuel hi hminv hmaxv
    have hlt : ¬(p.length - 1 ≤ i) := by omega
    have hminv' := slPassMin_spec p mins i hi hminv
    have hmaxv' := slPassMax_spec p maxs i hi hmaxv
    have hhit : ∀ j, i ≤ j → j < p.length →
        (((slPassMax p i maxs).getD j 0 - (slPassMin p i mins).getD j 0 == i)
          = isIntervalAt p (j - i) (i + 1)) := by
      intro j hij hjn
      rw [hminv' j hjn, hmaxv' j hjn]
      have hm : min i j = i := by omega
      rw [hm]
      unfold isIntervalAt
      have h1 : (i + 1) - 1 = i := by omega
      rw [h1]
    cases hfind : ((List.range' i (p.length - i)).reverse).find?
        (fun j => (slPassMax p i maxs).getD j 0 -
          (slPassMin p i mins).getD j 0 == i) with
    | some j =>
      have hunfold : slScan p mins maxs i = (i, j) := by
        rw [slScan, if_neg hlt]
        show (match ((List.range' i (p.length - i)).reverse).find?
              (fun j => (slPassMax p i maxs).getD j 0 -
                (slPassMin p i mins).getD j 0 == i) with
            | some j => (i, j)
            | none => slScan p (slPassMin p i mins) (slPassMax p i maxs)
                (i + 1)) = (i, j)
        rw [hfind]
      rw [hunfold]
      have hjmem := List.mem_of_find?_eq_some hfind
      rw [List.mem_reverse, mem_range'_iff] at hjmem
      have hjn : j < p.length := by omega
      have hji : i ≤ j := hjmem.1
      have hjhit : ((slPassMax p i maxs).getD j 0 -
          (slPassMin p i mins).getD j 0 == i) = true := by
        simpa using List.find?_some hfind
      rw [hhit j hji hjn] at hjhit
      constructor
      · intro hcon
        exfalso
        have := (Prod.mk.injEq _ _ _ _).mp hcon
        omega
      · intro hall
        exfalso
        have := hall (i + 1) (j - i) (by omega) (by omega) (by omega)
        rw [this] at hjhit
        cases hjhit
    | none =>
      have hunfold : slScan p mins maxs i =
          slScan p (slPassMin p i mins) (slPassMax p i maxs) (i + 1) := by
        rw [slScan, if_neg hlt]
        show (match ((List.range' i (p.length - i)).reverse).find?
              (fun j => (slPassMax p i maxs).getD j 0 -
                (slPassMin p i mins).getD j 0 == i) with
            | some j => (i, j)
            | none => slScan p (slPassMin p i mins) (slPassMax p i maxs)
                (i + 1)) =
          slScan p (slPassMin p i mins) (slPassMax p i maxs) (i + 1)
        rw [hfind]
      rw [hunfold]
      have hIH := IH (i + 1) (slPassMin p i mins) (slPassMax p i maxs)
        (by omega) (by omega)
        (by intro j hj; simpa using hminv' j hj)
        (by intro j hj; simpa using hmaxv' j hj)
      rw [hIH]
      constructor
      · intro hup s j hs1 hs2 hj
        by_cases hseq : s = i + 1
        · subst hseq
          have hmem : j + i ∈ ((List.range' i (p.length - i)).reverse) := by
            rw [List.mem_reverse, mem_range'_iff]
            omega
          have hnone := List.find?_eq_none.mp hfind _ hmem
          simp only [Bool.not_eq_true] at hnone
          rw [hhit (j + i) (by omega) (by omega)] at hnone
          have harith : j + i - i = j := by omega
          rw [harith] at hnone
          exact hnone
        · exact hup s j (by omega) hs2 hj
      · intro hall s j hs1 hs2 hj
        exact hall s j (by omega) hs2 hj

theorem simple_location_eq_00_iff (p : List Nat) :
    simple_location p = (0, 0) ↔
      ∀ s j, 2 ≤ s → s + 1 ≤ p.length → j + s ≤ p.length →
        isIntervalAt p j s = false := by
  unfold simple_location
  have hinv : ∀ j, j < p.length → p.getD j 0 =
      listMin ((p.drop (j - min (1 - 1) j)).take (min (1 - 1) j + 1)) := by
    intro j hj
    simp only [Nat.sub_self, Nat.zero_min, Nat.sub_zero, Nat.zero_add]
    rw [slice_take_one p hj]
    rfl
  have hinv2 : ∀ j, j < p.length → p.getD j 0 =
      listMax ((p.drop (j - min (1 - 1) j)).take (min (1 - 1) j + 1)) := by
    intro j hj
    simp only [Nat.sub_self, Nat.zero_min, Nat.sub_zero, Nat.zero_add]
    rw [slice_take_one p hj]
    show p.getD j 0 = max 0 (p.getD j 0)
    omega
  rw [slScan_spec p (p.length - 1 - 1) 1 p p rfl (Nat.le_refl 1) hinv hinv2]

/-- C4: For every permutation `P`, the three simplicity tests agree:
`decomposition(P)` returns `(P, list of singleton components)` if and only
if `maximal_interval(P)` returns `(0,0)`, if and only if
`simple_location(P)` returns `(0,0)` (no sub-range of positions of length
between 2 and `len(P)-1` has values forming a contiguous integer range). -/
theorem simplicity_agreement (p : List Nat) :
    ((decomposition p = (p, List.replicate p.length [0])) ↔
      maximal_interval p = (0, 0)) ∧
    (maximal_interval p = (0, 0) ↔ simple_location p = (0, 0)) := by
  constructor
  · constructor
    · intro hd
      by_contra hne
      have hs : is_simple p = false := by
        unfold is_simple
        cases h : (maximal_interval p == (0, 0)) with
        | false => rfl
        | true => exact absurd (by simpa using h) hne
      unfold decomposition at hd
      rw [decompLoop_step p _ hs] at hd
      have hprog := decompLoop_progress p hs
      have hle := decompLoop_base_le
        (standardize (p.take (maximal_interval p).2 ++
          [p.getD (maximal_interval p).2 0] ++
          p.drop ((maximal_interval p).1 + (maximal_interval p).2))).length
        _
        ((List.replicate p.length [0]).take (maximal_interval p).2 ++
          [standardize ((p.drop (maximal_interval p).2).take
            (maximal_interval p).1)] ++
          (List.replicate p.length [0]).drop
            ((maximal_interval p).1 + (maximal_interval p).2)) rfl
      have hfst := congrArg Prod.fst hd
      simp only [] at hfst
      rw [hfst] at hle
      omega
    · intro hm
      have hs : is_simple p = true := by
        unfold is_simple
        rw [hm]
        rfl
      unfold decomposition
      exact decompLoop_simple p _ hs
  · rw [maximal_interval_eq_00_iff, simple_location_eq_00_iff]

theorem getD_set_self' {α : Type} (d : α) (l : List α) (pos : Nat) (v : α)
    (h : pos < l.length) : (l.set pos v).getD pos d = v := by
  rw [List.getD_eq_getElem?_getD, List.getElem?_set_self h]
  rfl

theorem getD_set_ne' {α : Type} (d : α) (l : List α) {x pos : Nat} (v : α)
    (h : x ≠ pos) : (l.set x v).getD pos d = l.getD pos d := by
  rw [List.getD_eq_getElem?_getD, List.getElem?_set_ne h,
    ← List.getD_eq_getElem?_getD]

/-- State of the `for value in range(n)` loop of `inflate` after a block of
values: the shift accumulates the component lengths in value order, and
each position whose value was processed holds its shifted component. -/
theorem inflFold_spec (base : List Nat) (comps : List (List Nat))
    (hb : IsPermList base) :
    ∀ (k a : Nat) (acc : List (List Nat)) (sh : Nat),
    acc.length = base.length →
    (((List.range' a k).foldl (inflStep base comps) (acc, sh)).2 =
      sh + ((List.range' a k).map
        (fun v => (comps.getD (base.indexOf v) []).length)).sum) ∧
    (((List.range' a k).foldl (inflStep base comps) (acc, sh)).1.length =
      base.length) ∧
    (∀ pos, pos < base.length →
      ((List.range' a k).foldl (inflStep base comps) (acc, sh)).1.getD pos [] =
        if a ≤ base.getD pos 0 ∧ base.getD pos 0 < a + k
        then (comps.getD pos []).map (fun cv => cv + (sh +
          ((List.range' a (base.getD pos 0 - a)).map
            (fun v => (comps.getD (base.indexOf v) []).length)).sum))
        else acc.getD pos []) := by
  have hnd := hb.nodup
  intro k
  induction k with
  | zero =>
    intro a acc sh hacc
    refine ⟨by simp, by simpa using hacc, ?_⟩
    intro pos hpos
    rw [if_neg (by omega)]
    rfl
  | succ k IH =>
    intro a acc sh hacc
    have hstep : (List.range' a (k + 1)).foldl (inflStep base comps) (acc, sh) =
        (List.range' (a + 1) k).foldl (inflStep base comps)
          (acc.set (base.indexOf a)
            ((comps.getD (base.indexOf a) []).map (fun cv => cv + sh)),
           sh + (comps.getD (base.indexOf a) []).length) := rfl
    have hacc1 : (acc.set (base.indexOf a)
        ((comps.getD (base.indexOf a) []).map (fun cv => cv + sh))).length =
        base.length := by
      rw [List.length_set]
      exact hacc
    obtain ⟨ih2, ih1, ihpos⟩ := IH (a + 1) _ _ hacc1
    rw [hstep]
    refine ⟨?_, ih1, ?_⟩
    · rw [ih2]
      have hr : List.range' a (k + 1) = a :: List.range' (a + 1) k := rfl
      rw [hr, List.map_cons, List.sum_cons]
      omega
    · intro pos hpos
      rw [ihpos pos hpos]
      by_cases hva : base.getD pos 0 = a
      · -- this position's value is processed by the head step
        have hmem : a ∈ base := by
          rw [← hva, List.getD_eq_getElem _ _ hpos]
          exact base.getElem_mem hpos
        have hidx : base.indexOf a = pos := by
          rw [← hva, List.getD_eq_getElem _ _ hpos]
          exact List.indexOf_getElem hnd pos hpos
        rw [if_neg (by omega), if_pos (by omega), hidx,
          getD_set_self' [] acc pos _ (by omega)]
        rw [hva]
        have : a - a = 0 := by omega
        rw [this]
        apply List.map_congr_left
        intro cv _
        simp
      · by_cases hrange : a ≤ base.getD pos 0 ∧ base.getD pos 0 < a + (k + 1)
        · -- processed later in the block
          have h1 : a + 1 ≤ base.getD pos 0 := by omega
          rw [if_pos (by omega), if_pos hrange]
          have hsplit : base.getD pos 0 - a = (base.getD pos 0 - (a + 1)) + 1 := by
            omega
          rw [hsplit]
          have hrng : List.range' a ((base.getD pos 0 - (a + 1)) + 1) =
              a :: List.range' (a + 1) (base.getD pos 0 - (a + 1)) := rfl
          rw [hrng]
          apply List.map_congr_left
          intro cv _
          simp only [List.map_cons, List.sum_cons]
          omega
        · -- untouched by the whole block
          rw [if_neg (by omega), if_neg hrange]
          have hne : base.indexOf a ≠ pos := by
            by_cases hmem : a ∈ base
            · intro he
              apply hva
              rw [← he, List.getD_eq_getElem _ _ (he ▸ hpos)]
              exact (List.getElem_indexOf (by rwa [he] : base.indexOf a < base.length)).symm ▸ rfl
            · rw [List.indexOf_of_not_mem hmem]
              omega
          rw [getD_set_ne' [] acc _ hne]

theorem getD_range'_map {α : Type} (d : α) (f : Nat → α) (a n : Nat)
    {j : Nat} (hj : j < n) :
    ((List.range' a n).map f).getD j d = f (a + j) := by
  have hlen : j < ((List.range' a n).map f).length := by
    simpa using hj
  rw [List.getD_eq_getElem _ _ hlen, List.getElem_map, List.getElem_range']
  congr 1
  omega

/-- Closed form of the `inflated` array of `inflate`: position `pos`
carries its component shifted by the total length of the components of all
smaller values. -/
theorem inflateFlat_eq (base : List Nat) (comps : List (List Nat))
    (hb : IsPermList base) :
    inflateFlat base comps =
      ((List.range' 0 base.length).map (fun pos => (comps.getD pos []).map
        (fun cv => cv +
          ((List.range' 0 (base.getD pos 0)).map
            (fun v => (comps.getD (base.indexOf v) []).length)).sum))).flatten := by
  unfold inflateFlat
  rw [List.range_eq_range' base.length]
  obtain ⟨_, hlen, hpos⟩ := inflFold_spec base comps hb base.length 0
    (List.replicate base.length []) 0 (by simp)
  congr 1
  apply List.ext_getElem
  · rw [hlen]
    simp
  · intro pos h1 h2
    have hpn : pos < base.length := by rwa [hlen] at h1
    have hbv : base.getD pos 0 < base.length := by
      rw [List.getD_eq_getElem _ _ hpn]
      exact hb.mem_iff_lt.mp (base.getElem_mem hpn)
    have hchar := hpos pos hpn
    rw [if_pos ⟨by omega, by omega⟩] at hchar
    rw [← List.getD_eq_getElem _ [] h1, ← List.getD_eq_getElem _ [] h2, hchar,
      getD_range'_map [] _ 0 base.length hpn]
    simp only [Nat.zero_add, Nat.sub_zero]

theorem shiftSum_succ (base : List Nat) (comps : List (List Nat)) (v : Nat) :
    shiftSum base comps (v + 1) =
      shiftSum base comps v + (comps.getD (base.indexOf v) []).length := by
  unfold shiftSum
  rw [List.range'_concat, List.map_append, List.sum_append]
  simp

theorem shiftSum_mono (base : List Nat) (comps : List (List Nat))
    {v w : Nat} (h : v ≤ w) :
    shiftSum base comps v ≤ shiftSum base comps w := by
  induction w with
  | zero =>
    have : v = 0 := by omega
    subst this
    exact Nat.le_refl _
  | succ w ih =>
    rcases Nat.lt_or_ge v (w + 1) with hlt | hge
    · have hvw : v ≤ w := by omega
      have := ih hvw
      rw [shiftSum_succ]
      omega
    · have : v = w + 1 := by omega
      subst this
      exact Nat.le_refl _

/-- Every entry of the segment placed at position `pos` by `inflate` lies in
the half-open band `[shiftSum bv, shiftSum (bv+1))` of its value `bv`. -/
theorem inflate_segment_band (base : List Nat) (comps : List (List Nat))
    (hb : IsPermList base) (hlen : comps.length = base.length)
    (hc : ∀ c ∈ comps, IsPermList c) {pos : Nat} (hpos : pos < base.length)
    {x : Nat}
    (hx : x ∈ (comps.getD pos []).map
      (fun cv => cv + shiftSum base comps (base.getD pos 0))) :
    shiftSum base comps (base.getD pos 0) ≤ x ∧
      x < shiftSum base comps (base.getD pos 0 + 1) := by
  obtain ⟨cv, hcv, rfl⟩ := List.mem_map.mp hx
  have hposc : pos < comps.length := by omega
  have hgd : comps.getD pos [] = comps[pos] := List.getD_eq_getElem _ _ hposc
  have hcp : IsPermList comps[pos] := hc _ (comps.getElem_mem hposc)
  have hcvlt : cv < (comps.getD pos []).length := by
    rw [hgd] at hcv ⊢
    exact hcp.mem_iff_lt.mp hcv
  have hidx : base.indexOf (base.getD pos 0) = pos := by
    rw [List.getD_eq_getElem _ _ hpos]
    exact List.indexOf_getElem hb.nodup pos hpos
  rw [shiftSum_succ, hidx]
  omega

/-- The flattened list built by `inflate` has no duplicate entries when the
base and all components are permutations and the shapes match. -/
theorem inflateFlat_nodup (base : List Nat) (comps : List (List Nat))
    (hb : IsPermList base) (hlen : comps.length = base.length)
    (hc : ∀ c ∈ comps, IsPermList c) :
    (inflateFlat base comps).Nodup := by
  rw [inflateFlat_eq base comps hb]
  rw [List.nodup_flatten]
  constructor
  · intro l hl
    obtain ⟨pos, hpos, rfl⟩ := List.mem_map.mp hl
    have hposn : pos < base.length := by
      have := List.mem_range'_1.mp hpos
      omega
    have hposc : pos < comps.length := by omega
    have hgd : comps.getD pos [] = comps[pos] := List.getD_eq_getElem _ _ hposc
    have hnd : (comps.getD pos []).Nodup := by
      rw [hgd]
      exact (hc _ (comps.getElem_mem hposc)).nodup
    exact hnd.map (add_left_injective _)
  · rw [List.pairwise_map]
    rw [List.pairwise_iff_getElem]
    intro i j hi hj hij
    simp only [List.length_range'] at hi hj
    have hgi : (List.range' 0 base.length)[i] = i := by
      rw [List.getElem_range']
      omega
    have hgj : (List.range' 0 base.length)[j] = j := by
      rw [List.getElem_range']
      omega
    rw [hgi, hgj]
    intro x hxi hxj
    have hbi := inflate_segment_band base comps hb hlen hc hi hxi
    have hbj := inflate_segment_band base comps hb hlen hc hj hxj
    have hne : base.getD i 0 ≠ base.getD j 0 := by
      rw [List.getD_eq_getElem _ _ hi, List.getD_eq_getElem _ _ hj]
      intro heq
      exact absurd (List.Nodup.getElem_inj_iff hb.nodup |>.mp heq) (by omega)
    rcases Nat.lt_or_ge (base.getD i 0) (base.getD j 0) with hlt | hge
    · have := shiftSum_mono base comps (show base.getD i 0 + 1 ≤ base.getD j 0 by omega)
      omega
    · have hlt : base.getD j 0 < base.getD i 0 := by omega
      have := shiftSum_mono base comps (show base.getD j 0 + 1 ≤ base.getD i 0 by omega)
      omega

/-- CLAIM C7: `inflate` signals the ShapeMismatch error exactly when the
number of supplied components differs from the base permutation's length;
when the lengths agree it raises nothing and returns a permutation. -/
theorem inflate_shape (base : List Nat) (comps : List (List Nat))
    (hb : IsPermList base) (hc : ∀ c ∈ comps, IsPermList c) :
    ((∃ e, inflate base comps = Except.error e) ↔
      base.length ≠ comps.length) ∧
    (base.length = comps.length →
      ∃ r, inflate base comps = Except.ok r ∧ IsPermList r) := by
  constructor
  · constructor
    · rintro ⟨e, he⟩ heq
      unfold inflate at he
      rw [if_neg (by omega)] at he
      exact absurd he (by simp)
    · intro hne
      exact ⟨"ShapeMismatch", by unfold inflate; rw [if_pos hne]⟩
  · intro heq
    refine ⟨standardize (inflateFlat base comps), ?_, ?_⟩
    · unfold inflate
      rw [if_neg (by omega)]
    · exact standardize_isPermList (inflateFlat_nodup base comps hb heq.symm hc)

/-- Witness for C7 at base `[1,0]` with components `[[0,1],[0]]`. -/
theorem inflate_shape_witness :
    IsPermList [1, 0] ∧ (∀ c ∈ [[0, 1], [0]], IsPermList c) ∧
    (((∃ e, inflate [1, 0] [[0, 1], [0]] = Except.error e) ↔
        ([1, 0] : List Nat).length ≠
          ([[0, 1], [0]] : List (List Nat)).length) ∧
      (([1, 0] : List Nat).length = ([[0, 1], [0]] : List (List Nat)).length →
        ∃ r, inflate [1, 0] [[0, 1], [0]] = Except.ok r ∧ IsPermList r)) :=
  ⟨by decide, by decide,
    inflate_shape [1, 0] [[0, 1], [0]] (by decide) (by decide)⟩

theorem foldl_min_le_init (xs : List Nat) : ∀ a : Nat, xs.foldl min a ≤ a := by
  induction xs with
  | nil => intro a; exact Nat.le_refl a
  | cons y ys ih =>
    intro a
    calc ys.foldl min (min a y) ≤ min a y := ih (min a y)
    _ ≤ a := Nat.min_le_left _ _

theorem foldl_min_le_mem (xs : List Nat) :
    ∀ a : Nat, ∀ x ∈ xs, xs.foldl min a ≤ x := by
  induction xs with
  | nil => intro a x hx; cases hx
  | cons y ys ih =>
    intro a x hx
    rcases List.mem_cons.mp hx with rfl | hmem
    · calc ys.foldl min (min a x) ≤ min a x := foldl_min_le_init ys _
      _ ≤ x := Nat.min_le_right _ _
    · exact ih (min a y) x hmem

theorem foldl_min_mem (xs : List Nat) :
    ∀ a : Nat, xs.foldl min a = a ∨ xs.foldl min a ∈ xs := by
  induction xs with
  | nil => intro a; left; rfl
  | cons y ys ih =>
    intro a
    rcases ih (min a y) with h | h
    · rcases min_choice a y with h2 | h2
      · left
        rw [List.foldl_cons, h, h2]
      · right
        rw [List.mem_cons]
        left
        rw [List.foldl_cons, h, h2]
    · right
      exact List.mem_cons_of_mem _ h

theorem listMin_le {l : List Nat} {x : Nat} (hx : x ∈ l) : listMin l ≤ x := by
  cases l with
  | nil => cases hx
  | cons y ys =>
    rcases List.mem_cons.mp hx with rfl | hmem
    · exact foldl_min_le_init ys x
    · exact foldl_min_le_mem ys y x hmem

theorem listMin_mem {l : List Nat} (h : l ≠ []) : listMin l ∈ l := by
  cases l with
  | nil => exact absurd rfl h
  | cons y ys =>
    rcases foldl_min_mem ys y with h2 | h2
    · show ys.foldl min y ∈ y :: ys
      rw [h2]
      exact List.mem_cons_self _ _
    · exact List.mem_cons_of_mem _ h2

theorem init_le_foldl_max (xs : List Nat) : ∀ a : Nat, a ≤ xs.foldl max a := by
  induction xs with
  | nil => intro a; exact Nat.le_refl a
  | cons y ys ih =>
    intro a
    calc a ≤ max a y := Nat.le_max_left _ _
    _ ≤ ys.foldl max (max a y) := ih (max a y)

theorem mem_le_foldl_max (xs : List Nat) :
    ∀ a : Nat, ∀ x ∈ xs, x ≤ xs.foldl max a := by
  induction xs with
  | nil => intro a x hx; cases hx
  | cons y ys ih =>
    intro a x hx
    rcases List.mem_cons.mp hx with rfl | hmem
    · calc x ≤ max a x := Nat.le_max_right _ _
      _ ≤ ys.foldl max (max a x) := init_le_foldl_max ys _
    · exact ih (max a y) x hmem

theorem foldl_max_mem (xs : List Nat) :
    ∀ a : Nat, xs.foldl max a = a ∨ xs.foldl max a ∈ xs := by
  induction xs with
  | nil => intro a; left; rfl
  | cons y ys ih =>
    intro a
    rcases ih (max a y) with h | h
    · rcases max_choice a y with h2 | h2
      · left
        rw [List.foldl_cons, h, h2]
      · right
        rw [List.mem_cons]
        left
        rw [List.foldl_cons, h, h2]
    · right
      exact List.mem_cons_of_mem _ h

theorem le_listMax {l : List Nat} {x : Nat} (hx : x ∈ l) : x ≤ listMax l :=
  mem_le_foldl_max l 0 x hx

theorem listMax_mem {l : List Nat} (h : l ≠ []) : listMax l ∈ l := by
  rcases foldl_max_mem l 0 with h2 | h2
  · cases l with
    | nil => exact absurd rfl h
    | cons y ys =>
      have hy : y ≤ listMax (y :: ys) := le_listMax (List.mem_cons_self _ _)
      unfold listMax at hy ⊢
      rw [h2] at hy ⊢
      have hy0 : y = 0 := Nat.le_zero.mp hy
      rw [← hy0]
      exact List.mem_cons_self _ _
  · exact h2

/-- The entries of a size-`i` interval of a duplicate-free list are exactly
the `i` consecutive values starting at the interval's minimum. -/
theorem interval_values {p : List Nat} (hnd : p.Nodup) {i j : Nat}
    (hi : 1 ≤ i) (hij : j + i ≤ p.length)
    (hint : isIntervalAt p j i = true) :
    ∀ v : Nat, v ∈ (p.drop j).take i ↔
      listMin ((p.drop j).take i) ≤ v ∧
        v < listMin ((p.drop j).take i) + i := by
  set itv := (p.drop j).take i with hitv
  have hlen : itv.length = i := by
    rw [hitv, List.length_take, List.length_drop]
    omega
  have hne : itv ≠ [] := by
    intro hc
    rw [hc] at hlen
    simp only [List.length_nil] at hlen
    omega
  have hndi : itv.Nodup :=
    hnd.sublist ((List.take_sublist _ _).trans (List.drop_sublist _ _))
  have hm : listMin itv ∈ itv := listMin_mem hne
  have hM : listMax itv ∈ itv := listMax_mem hne
  have hmM : listMax itv - listMin itv = i - 1 := by
    unfold isIntervalAt at hint
    rw [← hitv] at hint
    simpa using hint
  have hmle : listMin itv ≤ listMax itv := listMin_le hM
  have hsub : itv.toFinset ⊆ Finset.Icc (listMin itv) (listMax itv) := by
    intro v hv
    rw [List.mem_toFinset] at hv
    rw [Finset.mem_Icc]
    exact ⟨listMin_le hv, le_listMax hv⟩
  have hcard1 : itv.toFinset.card = i := by
    rw [List.toFinset_card_of_nodup hndi, hlen]
  have hcard2 : (Finset.Icc (listMin itv) (listMax itv)).card = i := by
    rw [Nat.card_Icc]
    omega
  have heq : itv.toFinset = Finset.Icc (listMin itv) (listMax itv) :=
    Finset.eq_of_subset_of_card_le hsub (by omega)
  intro v
  rw [← List.mem_toFinset, heq, Finset.mem_Icc]
  omega

theorem countP_lt_range' (m i v : Nat) :
    (List.range' m i).countP (fun y => decide (y < v)) =
      min v (m + i) - min v m := by
  induction i with
  | zero => simp
  | succ i ih =>
    rw [List.range'_concat, List.countP_append, ih]
    simp only [List.countP_cons, List.countP_nil, decide_eq_true_eq,
      Nat.one_mul]
    split <;> omega

theorem slice_eq_map_range' (q : List Nat) (t s : Nat)
    (h : t + s ≤ q.length) :
    (q.drop t).take s = (List.range' t s).map (fun k => q.getD k 0) := by
  apply List.ext_getElem
  · simp only [List.length_take, List.length_drop, List.length_map,
      List.length_range']
    omega
  · intro idx h1 h2
    simp only [List.length_take, List.length_drop] at h1
    rw [List.getElem_take, List.getElem_drop, List.getElem_map,
      List.getElem_range']
    rw [List.getD_eq_getElem _ _ (by omega : t + 1 * idx < q.length)]
    congr 1
    omega

theorem mem_slice_iff {q : List Nat} {t s : Nat} (h : t + s ≤ q.length)
    {v : Nat} :
    v ∈ (q.drop t).take s ↔
      ∃ k : Nat, t ≤ k ∧ k < t + s ∧ q.getD k 0 = v := by
  rw [slice_eq_map_range' q t s h, List.mem_map]
  constructor
  · rintro ⟨k, hk, rfl⟩
    have := List.mem_range'_1.mp hk
    exact ⟨k, by omega, by omega, rfl⟩
  · rintro ⟨k, h1, h2, rfl⟩
    exact ⟨k, List.mem_range'_1.mpr ⟨h1, by omega⟩, rfl⟩

theorem perm_of_interval_values {l : List Nat} {m s : Nat} (hnd : l.Nodup)
    (hlen : l.length = s) (hv : ∀ v, v ∈ l ↔ m ≤ v ∧ v < m + s) :
    l.Perm (List.range' m s) := by
  have hnr : (List.range' m s).Nodup := List.nodup_range' m s 1 Nat.one_pos
  apply List.perm_of_nodup_nodup_toFinset_eq hnd hnr
  ext w
  rw [List.mem_toFinset, List.mem_toFinset, hv w, List.mem_range'_1]

theorem countP_lt_of_interval {l : List Nat} {m s : Nat} (hnd : l.Nodup)
    (hlen : l.length = s) (hv : ∀ v, v ∈ l ↔ m ≤ v ∧ v < m + s) (v : Nat) :
    l.countP (fun y => decide (y < v)) = min v (m + s) - min v m := by
  rw [(perm_of_interval_values hnd hlen hv).countP_eq, countP_lt_range']

theorem standardize_of_interval {l : List Nat} {m s : Nat} (hnd : l.Nodup)
    (hlen : l.length = s) (hv : ∀ v, v ∈ l ↔ m ≤ v ∧ v < m + s) :
    standardize l = l.map (fun x => x - m) := by
  unfold standardize
  apply List.map_congr_left
  intro x hx
  have hc := countP_lt_of_interval hnd hlen hv x
  have hx' := (hv x).mp hx
  rw [hc]
  omega

theorem isIntervalAt_iff_values {q : List Nat} (hnd : q.Nodup) {t s : Nat}
    (hs : 1 ≤ s) (hts : t + s ≤ q.length) :
    (isIntervalAt q t s = true ↔
      ∃ mm : Nat, ∀ v : Nat,
        v ∈ (q.drop t).take s ↔ mm ≤ v ∧ v < mm + s) := by
  constructor
  · intro h
    exact ⟨listMin _, interval_values hnd hs hts h⟩
  · rintro ⟨mm, hmm⟩
    set itv := (q.drop t).take s with hitv
    have hlen : itv.length = s := by
      rw [hitv, List.length_take, List.length_drop]
      omega
    have hne : itv ≠ [] := by
      intro hc
      rw [hc] at hlen
      simp only [List.length_nil] at hlen
      omega
    have hmmem : mm ∈ itv := (hmm mm).mpr ⟨Nat.le_refl _, by omega⟩
    have htop : mm + s - 1 ∈ itv := (hmm _).mpr ⟨by omega, by omega⟩
    have h1 : listMin itv = mm := by
      have ha := listMin_le hmmem
      have hb := (hmm _).mp (listMin_mem hne)
      omega
    have h2 : listMax itv = mm + s - 1 := by
      have ha := le_listMax htop
      have hb := (hmm _).mp (listMax_mem hne)
      omega
    unfold isIntervalAt
    rw [← hitv, h1, h2]
    have h3 : mm + s - 1 - mm = s - 1 := by omega
    rw [h3]
    exact beq_self_eq_true _

theorem getD_append_left' {α : Type} (l₁ l₂ : List α) (d : α) (k : Nat)
    (h : k < l₁.length) :
    (l₁ ++ l₂).getD k d = l₁.getD k d := by
  rw [List.getD_eq_getElem _ _ (by rw [List.length_append]; omega),
    List.getD_eq_getElem _ _ h, List.getElem_append_left]

theorem getD_append_right' {α : Type} (l₁ l₂ : List α) (d : α) (k : Nat)
    (h : l₁.length ≤ k) :
    (l₁ ++ l₂).getD k d = l₂.getD (k - l₁.length) d := by
  rw [List.getD_eq_getElem?_getD, List.getD_eq_getElem?_getD,
    List.getElem?_append_right h]

theorem getD_take' {α : Type} (l : List α) (d : α) (s k : Nat) (h : k < s)
    (h2 : k < l.length) :
    (l.take s).getD k d = l.getD k d := by
  rw [List.getD_eq_getElem _ _ (by rw [List.length_take]; omega),
    List.getD_eq_getElem _ _ h2, List.getElem_take]

theorem getD_drop' {α : Type} (l : List α) (d : α) (t k : Nat) :
    (l.drop t).getD k d = l.getD (t + k) d := by
  rw [List.getD_eq_getElem?_getD, List.getD_eq_getElem?_getD,
    List.getElem?_drop]

theorem CollapseCtx.hnd (C : CollapseCtx) : C.base.Nodup := C.hb.nodup

theorem CollapseCtx.itv_length (C : CollapseCtx) :
    ((C.base.drop C.j).take C.i).length = C.i := by
  rw [List.length_take, List.length_drop]
  have := C.hij
  omega

theorem CollapseCtx.itv_nodup (C : CollapseCtx) :
    ((C.base.drop C.j).take C.i).Nodup :=
  C.hnd.sublist ((List.take_sublist _ _).trans (List.drop_sublist _ _))

theorem CollapseCtx.bj_block (C : CollapseCtx) :
    C.m ≤ C.bj ∧ C.bj < C.m + C.i := by
  apply (C.hval C.bj).mp
  apply (mem_slice_iff C.hij).mpr
  exact ⟨C.j, Nat.le_refl _, by have := C.hi; omega, rfl⟩

theorem CollapseCtx.mi_le_n (C : CollapseCtx) : C.m + C.i ≤ C.n := by
  have hmem : C.m + C.i - 1 ∈ (C.base.drop C.j).take C.i := by
    apply (C.hval _).mpr
    have := C.hi
    omega
  have hbase : C.m + C.i - 1 ∈ C.base :=
    ((List.take_sublist _ _).trans (List.drop_sublist _ _)).mem hmem
  have := C.hb.mem_iff_lt.mp hbase
  have := C.hi
  unfold CollapseCtx.n
  omega

theorem CollapseCtx.pos_block_iff (C : CollapseCtx) {pos : Nat}
    (h : pos < C.n) :
    (C.m ≤ C.base.getD pos 0 ∧ C.base.getD pos 0 < C.m + C.i) ↔
      (C.j ≤ pos ∧ pos < C.j + C.i) := by
  constructor
  · intro hv
    obtain ⟨k, hk1, hk2, hk3⟩ :=
      (mem_slice_iff C.hij).mp ((C.hval _).mpr hv)
    by_cases hkp : k = pos
    · omega
    · exact absurd hk3 (nodup_getD_ne C.hnd (by have := C.hij; omega) h hkp)
  · intro hp
    apply (C.hval _).mp
    apply (mem_slice_iff C.hij).mpr
    exact ⟨pos, hp.1, hp.2, rfl⟩

theorem CollapseCtx.nbPre_length (C : CollapseCtx) :
    C.nbPre.length = C.n - C.i + 1 := by
  unfold CollapseCtx.nbPre
  simp only [List.length_append, List.length_take, List.length_drop,
    List.length_cons, List.length_nil]
  have := C.hij
  have := C.hile
  unfold CollapseCtx.n
  omega

theorem CollapseCtx.nbPre_getD_lt (C : CollapseCtx) {pos : Nat}
    (h : pos < C.j) :
    C.nbPre.getD pos 0 = C.base.getD pos 0 := by
  unfold CollapseCtx.nbPre
  rw [List.append_assoc, getD_append_left' _ _ _ _ (by
    rw [List.length_take]
    have := C.hij
    have := C.hi
    omega)]
  exact getD_take_lt _ _ _ h (by have := C.hij; have := C.hi; omega)

theorem CollapseCtx.nbPre_getD_mid (C : CollapseCtx) :
    C.nbPre.getD C.j 0 = C.bj := by
  unfold CollapseCtx.nbPre
  rw [List.append_assoc, getD_append_right' _ _ _ _ (by
    rw [List.length_take]
    have := C.hij
    omega)]
  have hjt : C.j - (C.base.take C.j).length = 0 := by
    rw [List.length_take]
    have := C.hij
    omega
  rw [hjt]
  rfl

theorem CollapseCtx.nbPre_getD_gt (C : CollapseCtx) {pos : Nat}
    (h1 : C.j < pos) :
    C.nbPre.getD pos 0 = C.base.getD (pos + C.i - 1) 0 := by
  unfold CollapseCtx.nbPre
  have hjlen : (C.base.take C.j).length = C.j := by
    rw [List.length_take]
    have := C.hij
    omega
  rw [List.append_assoc, getD_append_right' _ _ _ _ (by omega)]
  rw [hjlen]
  have hcons : ([C.bj] ++ C.base.drop (C.i + C.j)).getD (pos - C.j) 0 =
      (C.base.drop (C.i + C.j)).getD (pos - C.j - 1) 0 := by
    apply getD_append_right'
    simp only [List.length_cons, List.length_nil]
    omega
  rw [hcons, getD_drop_add]
  congr 1
  have := C.hi
  omega

theorem CollapseCtx.nbPre_sublist (C : CollapseCtx) :
    C.nbPre.Sublist C.base := by
  have hjn : C.j < C.base.length := by
    have := C.hij
    have := C.hi
    omega
  have htake : C.base.take C.j ++ [C.bj] = C.base.take (C.j + 1) := by
    rw [List.take_succ]
    congr 1
    rw [List.getElem?_eq_getElem hjn]
    unfold CollapseCtx.bj
    rw [List.getD_eq_getElem _ _ hjn]
    rfl
  unfold CollapseCtx.nbPre
  rw [htake]
  have hdrop : C.base.drop (C.i + C.j) =
      (C.base.drop (C.j + 1)).drop (C.i - 1) := by
    rw [List.drop_drop]
    congr 1
    have := C.hi
    omega
  have hsub : (C.base.take (C.j + 1) ++ C.base.drop (C.i + C.j)).Sublist
      (C.base.take (C.j + 1) ++ C.base.drop (C.j + 1)) := by
    apply List.Sublist.append_left
    rw [hdrop]
    exact List.drop_sublist _ _
  have heq := List.take_append_drop (C.j + 1) C.base
  rw [heq] at hsub
  exact hsub

theorem CollapseCtx.nbPre_nodup (C : CollapseCtx) : C.nbPre.Nodup :=
  C.hnd.sublist C.nbPre_sublist

theorem CollapseCtx.nbPre_mem_cases (C : CollapseCtx) {v : Nat}
    (hv : v ∈ C.nbPre) :
    v < C.n ∧ (v = C.bj ∨ v < C.m ∨ C.m + C.i ≤ v) := by
  have hvbase : v ∈ C.base := C.nbPre_sublist.mem hv
  have hvn : v < C.n := C.hb.mem_iff_lt.mp hvbase
  refine ⟨hvn, ?_⟩
  by_cases hblock : C.m ≤ v ∧ v < C.m + C.i
  · left
    obtain ⟨k, hk1, hk2, hk3⟩ := (mem_slice_iff C.hij).mp ((C.hval v).mpr hblock)
    obtain ⟨idx, hidx, hgot⟩ := List.mem_iff_getElem.mp hv
    have hn : C.n = C.base.length := rfl
    have hidx' : idx < C.n - C.i + 1 := by
      have := C.nbPre_length
      omega
    have hgd : C.nbPre.getD idx 0 = v := by
      rw [List.getD_eq_getElem _ _ hidx]
      exact hgot
    rcases Nat.lt_trichotomy idx C.j with hc | hc | hc
    · exfalso
      rw [C.nbPre_getD_lt hc] at hgd
      rw [← hgd] at hk3
      have := nodup_getD_ne C.hnd (by have := C.hij; omega)
        (by have := C.hij; have := C.hi; omega : idx < C.base.length)
        (by omega : k ≠ idx)
      exact this hk3
    · rw [hc, C.nbPre_getD_mid] at hgd
      omega
    · exfalso
      rw [C.nbPre_getD_gt hc] at hgd
      rw [← hgd] at hk3
      have := nodup_getD_ne C.hnd (by have := C.hij; omega)
        (by have := C.hi; have := C.hij; omega :
          idx + C.i - 1 < C.base.length)
        (by have := C.hi; omega : k ≠ idx + C.i - 1)
      exact this hk3
  · right
    omega

theorem CollapseCtx.base_split (C : CollapseCtx) :
    C.base = C.base.take C.j ++
      ((C.base.drop C.j).take C.i ++ C.base.drop (C.i + C.j)) := by
  have h2 : (C.base.drop C.j).drop C.i = C.base.drop (C.i + C.j) := by
    rw [List.drop_drop]
    congr 1
    omega
  have h1 : C.base.drop C.j =
      (C.base.drop C.j).take C.i ++ C.base.drop (C.i + C.j) := by
    rw [← h2, List.take_append_drop]
  conv_lhs => rw [← List.take_append_drop C.j C.base, h1]

theorem CollapseCtx.countP_identity (C : CollapseCtx) (q : Nat → Bool) :
    C.nbPre.countP q + ((C.base.drop C.j).take C.i).countP q =
      C.base.countP q + (if q C.bj then 1 else 0) := by
  have hsplit := C.base_split
  conv_rhs => rw [hsplit]
  unfold CollapseCtx.nbPre
  simp only [List.countP_append, List.countP_cons, List.countP_nil]
  split <;> omega

theorem CollapseCtx.nb_eq_map (C : CollapseCtx) :
    C.nb = C.nbPre.map (collapseVal C.m C.i) := by
  unfold CollapseCtx.nb
  unfold standardize
  apply List.map_congr_left
  intro x hx
  obtain ⟨hxn, hxcase⟩ := C.nbPre_mem_cases hx
  have hid := C.countP_identity (fun y => decide (y < x))
  have hbase : C.base.countP (fun y => decide (y < x)) = min x C.n := by
    rw [C.hb.perm.countP_eq, countP_lt_range]
    rfl
  have hitv : ((C.base.drop C.j).take C.i).countP (fun y => decide (y < x)) =
      min x (C.m + C.i) - min x C.m :=
    countP_lt_of_interval C.itv_nodup C.itv_length C.hval x
  rw [hbase, hitv] at hid
  have hbj := C.bj_block
  have hmi := C.mi_le_n
  rcases hxcase with hcx | hcx | hcx
  · have hiff : (decide (C.bj < x) : Bool) = false := by
      simp only [decide_eq_false_iff_not, Nat.not_lt]
      omega
    rw [hiff, if_neg (by simp)] at hid
    unfold collapseVal
    rw [if_neg (by omega), if_pos (by omega)]
    omega
  · have hiff : (decide (C.bj < x) : Bool) = false := by
      simp only [decide_eq_false_iff_not, Nat.not_lt]
      omega
    rw [hiff, if_neg (by simp)] at hid
    unfold collapseVal
    rw [if_pos (by omega)]
    omega
  · have hiff : (decide (C.bj < x) : Bool) = true := by
      simp only [decide_eq_true_eq]
      omega
    rw [hiff, if_pos rfl] at hid
    unfold collapseVal
    rw [if_neg (by omega), if_neg (by omega)]
    omega

theorem CollapseCtx.nb_length (C : CollapseCtx) :
    C.nb.length = C.n - C.i + 1 := by
  unfold CollapseCtx.nb
  rw [standardize_length]
  exact C.nbPre_length

theorem CollapseCtx.nb_isPerm (C : CollapseCtx) : IsPermList C.nb :=
  standardize_isPermList C.nbPre_nodup

theorem CollapseCtx.nb_getD (C : CollapseCtx) {pos : Nat}
    (h : pos < C.n - C.i + 1) :
    C.nb.getD pos 0 = collapseVal C.m C.i (C.nbPre.getD pos 0) := by
  have hl := C.nbPre_length
  rw [C.nb_eq_map]
  exact getD_map_gen _ _ (by omega)

theorem CollapseCtx.nc_length (C : CollapseCtx) :
    C.nc.length = C.n - C.i + 1 := by
  unfold CollapseCtx.nc
  simp only [List.length_append, List.length_take, List.length_drop,
    List.length_cons, List.length_nil]
  have h1 := C.hlen
  have h2 := C.hij
  have h3 := C.hile
  unfold CollapseCtx.n
  omega

theorem CollapseCtx.nc_getD_lt (C : CollapseCtx) {pos : Nat}
    (h : pos < C.j) :
    C.nc.getD pos [] = C.comps.getD pos [] := by
  unfold CollapseCtx.nc
  rw [List.append_assoc, getD_append_left' _ _ _ _ (by
    rw [List.length_take]
    have := C.hij
    have := C.hlen
    have := C.hi
    omega)]
  apply getD_take'
  · exact h
  · have := C.hij
    have := C.hlen
    have := C.hi
    omega

theorem CollapseCtx.nc_getD_mid (C : CollapseCtx) :
    C.nc.getD C.j [] = standardize ((C.base.drop C.j).take C.i) := by
  unfold CollapseCtx.nc
  rw [List.append_assoc, getD_append_right' _ _ _ _ (by
    rw [List.length_take]
    have := C.hij
    have := C.hlen
    omega)]
  have hjt : C.j - (C.comps.take C.j).length = 0 := by
    rw [List.length_take]
    have := C.hij
    have := C.hlen
    omega
  rw [hjt]
  rfl

theorem CollapseCtx.nc_getD_gt (C : CollapseCtx) {pos : Nat}
    (h1 : C.j < pos) :
    C.nc.getD pos [] = C.comps.getD (pos + C.i - 1) [] := by
  unfold CollapseCtx.nc
  have hjlen : (C.comps.take C.j).length = C.j := by
    rw [List.length_take]
    have := C.hij
    have := C.hlen
    omega
  rw [List.append_assoc, getD_append_right' _ _ _ _ (by omega)]
  rw [hjlen]
  have hcons : ([standardize ((C.base.drop C.j).take C.i)] ++
      C.comps.drop (C.i + C.j)).getD (pos - C.j) [] =
      (C.comps.drop (C.i + C.j)).getD (pos - C.j - 1) [] := by
    apply getD_append_right'
    simp only [List.length_cons, List.length_nil]
    omega
  rw [hcons, getD_drop']
  congr 1
  have := C.hi
  omega

theorem CollapseCtx.m_lt_n (C : CollapseCtx) : C.m < C.n := by
  have := C.mi_le_n
  have := C.hi
  omega

theorem CollapseCtx.indexOf_base (C : CollapseCtx) {w : Nat} (hw : w < C.n) :
    C.base.indexOf w < C.n ∧
      C.base.getD (C.base.indexOf w) 0 = w := by
  have hmem : w ∈ C.base := C.hb.mem_iff_lt.mpr hw
  have hlt : C.base.indexOf w < C.base.length := List.indexOf_lt_length.mpr hmem
  refine ⟨hlt, ?_⟩
  rw [List.getD_eq_getElem _ _ hlt]
  exact List.getElem_indexOf hlt

theorem CollapseCtx.nb_getD_j (C : CollapseCtx) : C.nb.getD C.j 0 = C.m := by
  have hj : C.j < C.n - C.i + 1 := by
    have := C.hij
    have := C.hi
    unfold CollapseCtx.n
    omega
  rw [C.nb_getD hj, C.nbPre_getD_mid]
  have := C.bj_block
  unfold collapseVal
  rw [if_neg (by omega), if_pos (by omega)]

theorem CollapseCtx.indexOf_nb_eq (C : CollapseCtx) {pos : Nat}
    (h : pos < C.n - C.i + 1) :
    C.nb.indexOf (C.nb.getD pos 0) = pos := by
  have hlen : pos < C.nb.length := by
    rw [C.nb_length]
    exact h
  rw [List.getD_eq_getElem _ _ hlen]
  exact List.indexOf_getElem C.nb_isPerm.nodup pos hlen

/-- The component of an off-interval value is the same before and after the
collapse (it sits at a shifted position of the new component array). -/
theorem CollapseCtx.comp_match (C : CollapseCtx) {w : Nat} (hw : w < C.n)
    (hout : w < C.m ∨ C.m + C.i ≤ w) :
    C.nc.getD (C.nb.indexOf (collapseVal C.m C.i w)) [] =
      C.comps.getD (C.base.indexOf w) [] := by
  obtain ⟨hpos, hgd⟩ := C.indexOf_base hw
  set pos := C.base.indexOf w with hposdef
  have hnb : ¬ (C.j ≤ pos ∧ pos < C.j + C.i) := by
    intro hcon
    have := (C.pos_block_iff hpos).mpr hcon
    omega
  rcases Nat.lt_or_ge pos C.j with hc | hc
  · have hpos' : pos < C.n - C.i + 1 := by
      have := C.hij
      have := C.hi
      unfold CollapseCtx.n at *
      omega
    have hnbv : C.nb.getD pos 0 = collapseVal C.m C.i w := by
      rw [C.nb_getD hpos', C.nbPre_getD_lt hc, hgd]
    have hidx : C.nb.indexOf (collapseVal C.m C.i w) = pos := by
      rw [← hnbv]
      exact C.indexOf_nb_eq hpos'
    rw [hidx, C.nc_getD_lt hc]
  · have hcge : C.j + C.i ≤ pos := by omega
    have hpos' : pos - C.i + 1 < C.n - C.i + 1 := by
      have := C.hi
      omega
    have hgt : C.j < pos - C.i + 1 := by
      have := C.hi
      omega
    have hnbv : C.nb.getD (pos - C.i + 1) 0 = collapseVal C.m C.i w := by
      rw [C.nb_getD hpos', C.nbPre_getD_gt hgt]
      congr 1
      have harith : pos - C.i + 1 + C.i - 1 = pos := by
        have := C.hi
        omega
      rw [harith, hgd]
    have hidx : C.nb.indexOf (collapseVal C.m C.i w) = pos - C.i + 1 := by
      rw [← hnbv]
      exact C.indexOf_nb_eq hpos'
    rw [hidx, C.nc_getD_gt hgt]
    congr 1
    have := C.hi
    omega

theorem CollapseCtx.shift_low (C : CollapseCtx) :
    ∀ v : Nat, v ≤ C.m → shiftSum C.nb C.nc v = shiftSum C.base C.comps v := by
  intro v
  induction v with
  | zero => intro _; rfl
  | succ v ih =>
    intro hv
    rw [shiftSum_succ, shiftSum_succ, ih (by omega)]
    have hvm : v < C.m := by omega
    have hcv : collapseVal C.m C.i v = v := by
      unfold collapseVal
      rw [if_pos hvm]
    have := C.comp_match (w := v) (by have := C.m_lt_n; omega) (Or.inl hvm)
    rw [hcv] at this
    rw [this]

theorem CollapseCtx.shift_block (C : CollapseCtx) :
    ∀ d : Nat, d ≤ C.i →
      shiftSum C.base C.comps (C.m + d) = shiftSum C.base C.comps C.m + d := by
  intro d
  induction d with
  | zero => intro _; rfl
  | succ d ih =>
    intro hd
    have harith : C.m + (d + 1) = (C.m + d) + 1 := by omega
    rw [harith, shiftSum_succ, ih (by omega)]
    have hwn : C.m + d < C.n := by
      have := C.mi_le_n
      omega
    obtain ⟨hpos, hgd⟩ := C.indexOf_base hwn
    have hblock : C.j ≤ C.base.indexOf (C.m + d) ∧
        C.base.indexOf (C.m + d) < C.j + C.i := by
      apply (C.pos_block_iff hpos).mp
      rw [hgd]
      omega
    rw [C.hsing _ hblock.1 hblock.2]
    simp only [List.length_cons, List.length_nil]
    omega

theorem CollapseCtx.shift_high (C : CollapseCtx) :
    ∀ v : Nat, C.m + C.i ≤ v → v ≤ C.n →
      shiftSum C.nb C.nc (v - C.i + 1) = shiftSum C.base C.comps v := by
  intro v hv hvn
  induction v, hv using Nat.le_induction with
  | base =>
    have harith : C.m + C.i - C.i + 1 = C.m + 1 := by omega
    rw [harith, shiftSum_succ]
    have hidxm : C.nb.indexOf C.m = C.j := by
      have hj : C.j < C.n - C.i + 1 := by
        have := C.hij
        have := C.hi
        unfold CollapseCtx.n at *
        omega
      have := C.indexOf_nb_eq hj
      rw [C.nb_getD_j] at this
      exact this
    rw [hidxm, C.nc_getD_mid]
    rw [C.shift_low C.m (Nat.le_refl _)]
    rw [C.shift_block C.i (Nat.le_refl _)]
    rw [standardize_length, C.itv_length]
  | succ v hge ih =>
    have harith : v + 1 - C.i + 1 = (v - C.i + 1) + 1 := by
      have := C.hi
      omega
    have hR := shiftSum_succ C.base C.comps v
    rw [harith, shiftSum_succ, hR, ih (by omega)]
    have hcv : collapseVal C.m C.i v = v - C.i + 1 := by
      unfold collapseVal
      split_ifs with h1 h2
      · omega
      · omega
      · have := C.hi
        omega
    have := C.comp_match (w := v) (by omega) (Or.inr (by omega))
    rw [hcv] at this
    rw [this]

theorem inflateFlat_shift_form (q : List Nat) (cs : List (List Nat))
    (h : IsPermList q) :
    inflateFlat q cs =
      ((List.range' 0 q.length).map (fun pos => (cs.getD pos []).map
        (fun cv => cv + shiftSum q cs (q.getD pos 0)))).flatten := by
  rw [inflateFlat_eq q cs h]
  rfl

theorem flatten_singleton_map {α β : Type} (f : α → β) (l : List α) :
    (l.map (fun x => [f x])).flatten = l.map f := by
  induction l with
  | nil => rfl
  | cons a t ih => simp [ih]

theorem range'_split3 (a b c : Nat) :
    List.range' 0 (a + b + c) =
      List.range' 0 a ++ List.range' a b ++ List.range' (a + b) c := by
  have h1 : List.range' 0 a ++ List.range' (0 + 1 * a) (b + c) =
      List.range' 0 (b + c + a) := List.range'_append 0 a (b + c) 1
  have h2 : List.range' a b ++ List.range' (a + 1 * b) c =
      List.range' a (c + b) := List.range'_append a b c 1
  simp only [Nat.zero_add, Nat.one_mul] at h1 h2
  have h3 : a + b + c = b + c + a := by omega
  rw [h3, ← h1]
  have h4 : b + c = c + b := by omega
  rw [h4, ← h2, List.append_assoc]

theorem CollapseCtx.base_val_lt (C : CollapseCtx) {pos : Nat}
    (h : pos < C.n) : C.base.getD pos 0 < C.n := by
  rw [List.getD_eq_getElem _ _ h]
  exact C.hb.mem_iff_lt.mp (C.base.getElem_mem h)

theorem CollapseCtx.off_block (C : CollapseCtx) {pos : Nat} (h : pos < C.n)
    (hout : ¬ (C.j ≤ pos ∧ pos < C.j + C.i)) :
    C.base.getD pos 0 < C.m ∨ C.m + C.i ≤ C.base.getD pos 0 := by
  by_contra hcon
  push_neg at hcon
  have := (C.pos_block_iff h).mp ⟨by omega, hcon.2⟩
  omega

theorem CollapseCtx.shift_off (C : CollapseCtx) {w : Nat} (hw : w < C.n)
    (hout : w < C.m ∨ C.m + C.i ≤ w) :
    shiftSum C.nb C.nc (collapseVal C.m C.i w) =
      shiftSum C.base C.comps w := by
  rcases hout with hc | hc
  · have hcv : collapseVal C.m C.i w = w := by
      unfold collapseVal
      rw [if_pos hc]
    rw [hcv]
    exact C.shift_low w (by omega)
  · have hcv : collapseVal C.m C.i w = w - C.i + 1 := by
      have hhi := C.hi
      unfold collapseVal
      split_ifs <;> omega
    rw [hcv]
    exact C.shift_high w hc (by omega)

theorem CollapseCtx.standardize_itv (C : CollapseCtx) :
    standardize ((C.base.drop C.j).take C.i) =
      ((C.base.drop C.j).take C.i).map (fun x => x - C.m) :=
  standardize_of_interval C.itv_nodup C.itv_length C.hval

theorem CollapseCtx.part1 (C : CollapseCtx) :
    (List.range' 0 C.j).map (fun pos => (C.nc.getD pos []).map
      (fun cv => cv + shiftSum C.nb C.nc (C.nb.getD pos 0))) =
    (List.range' 0 C.j).map (fun pos => (C.comps.getD pos []).map
      (fun cv => cv + shiftSum C.base C.comps (C.base.getD pos 0))) := by
  apply List.map_congr_left
  intro pos hpos
  have hn : C.n = C.base.length := rfl
  have hpj : pos < C.j := by
    have := List.mem_range'_1.mp hpos
    omega
  have hposn : pos < C.n := by
    have := C.hij
    omega
  have hposn' : pos < C.n - C.i + 1 := by
    have := C.hij
    have := C.hi
    omega
  rw [C.nc_getD_lt hpj, C.nb_getD hposn', C.nbPre_getD_lt hpj]
  rw [C.shift_off (C.base_val_lt hposn) (C.off_block hposn (by omega))]

theorem CollapseCtx.part3 (C : CollapseCtx) :
    (List.range' (C.j + 1) (C.n - C.i - C.j)).map
      (fun pos => (C.nc.getD pos []).map
        (fun cv => cv + shiftSum C.nb C.nc (C.nb.getD pos 0))) =
    (List.range' (C.j + C.i) (C.n - C.i - C.j)).map
      (fun pos => (C.comps.getD pos []).map
        (fun cv => cv + shiftSum C.base C.comps (C.base.getD pos 0))) := by
  have hn : C.n = C.base.length := rfl
  apply List.ext_getElem
  · simp only [List.length_map, List.length_range']
  · intro idx h1 h2
    simp only [List.length_map, List.length_range'] at h1
    rw [List.getElem_map, List.getElem_map, List.getElem_range',
      List.getElem_range']
    simp only [Nat.one_mul]
    have hgt : C.j < C.j + 1 + idx := by omega
    have hidx' : C.j + 1 + idx < C.n - C.i + 1 := by omega
    have harith : C.j + 1 + idx + C.i - 1 = C.j + C.i + idx := by
      have := C.hi
      omega
    have hposn : C.j + C.i + idx < C.n := by
      have := C.hi
      omega
    rw [C.nc_getD_gt hgt, C.nb_getD hidx', C.nbPre_getD_gt hgt, harith]
    rw [C.shift_off (C.base_val_lt hposn)
      (C.off_block hposn (by omega))]

theorem CollapseCtx.part2 (C : CollapseCtx) :
    (C.nc.getD C.j []).map
      (fun cv => cv + shiftSum C.nb C.nc (C.nb.getD C.j 0)) =
    ((List.range' C.j C.i).map (fun pos => (C.comps.getD pos []).map
      (fun cv => cv + shiftSum C.base C.comps (C.base.getD pos 0)))).flatten
    := by
  have hn : C.n = C.base.length := rfl
  rw [C.nc_getD_mid, C.nb_getD_j, C.standardize_itv, List.map_map]
  rw [C.shift_low C.m (Nat.le_refl _)]
  have hRHS : ∀ k ∈ List.range' C.j C.i,
      (C.comps.getD k []).map
        (fun cv => cv + shiftSum C.base C.comps (C.base.getD k 0)) =
      [shiftSum C.base C.comps C.m + (C.base.getD k 0 - C.m)] := by
    intro k hk
    have hkb : C.j ≤ k ∧ k < C.j + C.i := by
      have := List.mem_range'_1.mp hk
      omega
    rw [C.hsing k hkb.1 hkb.2]
    have hkn : k < C.n := by
      have := C.hij
      omega
    have hw := (C.pos_block_iff hkn).mpr hkb
    have hsb := C.shift_block (C.base.getD k 0 - C.m) (by omega)
    have harith : C.m + (C.base.getD k 0 - C.m) = C.base.getD k 0 := by omega
    rw [harith] at hsb
    simp only [List.map_cons, List.map_nil]
    rw [hsb, Nat.zero_add]
  rw [List.map_congr_left hRHS, flatten_singleton_map]
  rw [slice_eq_map_range' C.base C.j C.i C.hij, List.map_map]
  apply List.map_congr_left
  intro k hk
  simp only [Function.comp]
  omega

theorem CollapseCtx.flat_eq (C : CollapseCtx) :
    inflateFlat C.nb C.nc = inflateFlat C.base C.comps := by
  have hn : C.n = C.base.length := rfl
  rw [inflateFlat_shift_form C.nb C.nc C.nb_isPerm,
    inflateFlat_shift_form C.base C.comps C.hb]
  rw [C.nb_length]
  have hL : List.range' 0 (C.n - C.i + 1) =
      List.range' 0 C.j ++ List.range' C.j 1 ++
        List.range' (C.j + 1) (C.n - C.i - C.j) := by
    have h := range'_split3 C.j 1 (C.n - C.i - C.j)
    have harith : C.j + 1 + (C.n - C.i - C.j) = C.n - C.i + 1 := by
      have := C.hij
      have := C.hi
      omega
    rw [harith] at h
    exact h
  have hR : List.range' 0 C.base.length =
      List.range' 0 C.j ++ List.range' C.j C.i ++
        List.range' (C.j + C.i) (C.n - C.i - C.j) := by
    have h := range'_split3 C.j C.i (C.n - C.i - C.j)
    have harith : C.j + C.i + (C.n - C.i - C.j) = C.base.length := by
      have := C.hij
      omega
    rw [harith] at h
    exact h
  rw [hL, hR]
  simp only [List.map_append, List.flatten_append]
  rw [C.part1, C.part3]
  congr 1
  congr 1
  have h1 : List.range' C.j 1 = [C.j] := rfl
  rw [h1]
  simp only [List.map_cons, List.map_nil, List.flatten_cons,
    List.flatten_nil, List.append_nil]
  exact C.part2

theorem collapseVal_inj_off {m i v w : Nat} (hi : 1 ≤ i)
    (hv : v < m ∨ m + i ≤ v) (hw : w < m ∨ m + i ≤ w)
    (h : collapseVal m i v = collapseVal m i w) : v = w := by
  unfold collapseVal at h
  split_ifs at h <;> omega

/-- Reading the collapsed base at an off-`j` position comes from reading the
original base at a shifted position outside the collapsed interval. -/
theorem CollapseCtx.nb_getD_off (C : CollapseCtx) {pos : Nat}
    (hpos : pos < C.n - C.i + 1) (hne : pos ≠ C.j) :
    ∃ P : Nat, P < C.n ∧ ¬ (C.j ≤ P ∧ P < C.j + C.i) ∧
      C.nb.getD pos 0 = collapseVal C.m C.i (C.base.getD P 0) ∧
      ((pos < C.j ∧ P = pos) ∨ (C.j < pos ∧ P = pos + C.i - 1)) := by
  have hn : C.n = C.base.length := rfl
  have hi := C.hi
  have hij := C.hij
  rcases Nat.lt_or_ge pos C.j with hc | hc
  · refine ⟨pos, by omega, by omega, ?_, Or.inl ⟨hc, rfl⟩⟩
    rw [C.nb_getD hpos, C.nbPre_getD_lt hc]
  · have hgt : C.j < pos := by omega
    refine ⟨pos + C.i - 1, by omega, by omega, ?_, Or.inr ⟨hgt, rfl⟩⟩
    rw [C.nb_getD hpos, C.nbPre_getD_gt hgt]

/-- Conversely, every off-interval position of the original base is read, up
to the value collapse, at a shifted position of the collapsed base. -/
theorem CollapseCtx.base_pos_to_nb (C : CollapseCtx) {P : Nat}
    (hP : P < C.n) (hoff : ¬ (C.j ≤ P ∧ P < C.j + C.i)) :
    ∃ pos : Nat, pos < C.n - C.i + 1 ∧ pos ≠ C.j ∧
      C.nb.getD pos 0 = collapseVal C.m C.i (C.base.getD P 0) ∧
      ((P < C.j ∧ pos = P) ∨ (C.j + C.i ≤ P ∧ pos = P - C.i + 1)) := by
  have hn : C.n = C.base.length := rfl
  have hi := C.hi
  have hij := C.hij
  rcases Nat.lt_or_ge P C.j with hc | hc
  · refine ⟨P, by omega, by omega, ?_, Or.inl ⟨hc, rfl⟩⟩
    rw [C.nb_getD (by omega), C.nbPre_getD_lt hc]
  · have hge : C.j + C.i ≤ P := by omega
    refine ⟨P - C.i + 1, by omega, by omega, ?_, Or.inr ⟨hge, rfl⟩⟩
    rw [C.nb_getD (by omega), C.nbPre_getD_gt (by omega)]
    congr 2
    omega

/-- An interval of the collapsed base lying strictly left of the collapsed
position pulls back to an interval of the original base in place. -/
theorem CollapseCtx.expand_left (C : CollapseCtx) {t' s' : Nat}
    (hs' : 1 ≤ s') (hts : t' + s' ≤ C.j)
    (hint : isIntervalAt C.nb t' s' = true) :
    isIntervalAt C.base t' s' = true := by
  have hn : C.n = C.base.length := rfl
  have hnbl := C.nb_length
  have hij := C.hij
  have hi := C.hi
  have htsn : t' + s' ≤ C.nb.length := by omega
  have htsb : t' + s' ≤ C.base.length := by omega
  obtain ⟨m', hm'⟩ :=
    (isIntervalAt_iff_values C.nb_isPerm.nodup hs' htsn).mp hint
  have hmout : ¬ (m' ≤ C.m ∧ C.m < m' + s') := by
    intro hcon
    obtain ⟨pos, hp1, hp2, hp3⟩ :=
      (mem_slice_iff htsn).mp ((hm' C.m).mpr hcon)
    have hjb : C.j < C.nb.length := by omega
    have hne := nodup_getD_ne C.nb_isPerm.nodup
      (show pos < C.nb.length by omega) hjb (show pos ≠ C.j by omega)
    rw [hp3, C.nb_getD_j] at hne
    exact hne rfl
  apply (isIntervalAt_iff_values C.hnd hs' htsb).mpr
  rcases Nat.lt_or_ge C.m m' with hside | hside
  · refine ⟨m' + C.i - 1, fun v => ?_⟩
    constructor
    · intro hv
      obtain ⟨pos, hp1, hp2, hp3⟩ := (mem_slice_iff htsb).mp hv
      have hoff : ¬ (C.j ≤ pos ∧ pos < C.j + C.i) := by omega
      obtain ⟨pos', hq1, hq2, hq3, hq4⟩ :=
        C.base_pos_to_nb (show pos < C.n by omega) hoff
      have hmem : C.nb.getD pos' 0 ∈ (C.nb.drop t').take s' :=
        (mem_slice_iff htsn).mpr ⟨pos', by omega, by omega, rfl⟩
      have hbnd := (hm' _).mp hmem
      rw [hq3, hp3] at hbnd
      have hvoff := C.off_block (show pos < C.n by omega) hoff
      rw [hp3] at hvoff
      unfold collapseVal at hbnd
      split_ifs at hbnd <;> omega
    · intro hv
      have hvv : C.m + C.i ≤ v := by omega
      have hpsi : collapseVal C.m C.i v = v - C.i + 1 := by
        unfold collapseVal
        split_ifs <;> omega
      have hpsib : m' ≤ v - C.i + 1 ∧ v - C.i + 1 < m' + s' := by omega
      obtain ⟨pos, hp1, hp2, hp3⟩ :=
        (mem_slice_iff htsn).mp ((hm' _).mpr hpsib)
      have hposne : pos ≠ C.j := by omega
      obtain ⟨P, hP1, hP2, hP3, hP4⟩ :=
        C.nb_getD_off (show pos < C.n - C.i + 1 by omega) hposne
      have hPoff := C.off_block hP1 hP2
      have hw : C.base.getD P 0 = v := by
        apply collapseVal_inj_off (show 1 ≤ C.i by omega) hPoff (Or.inr hvv)
        rw [← hP3, hp3, hpsi]
      apply (mem_slice_iff htsb).mpr
      exact ⟨P, by omega, by omega, hw⟩
  · have hms : m' + s' ≤ C.m := by omega
    refine ⟨m', fun v => ?_⟩
    constructor
    · intro hv
      obtain ⟨pos, hp1, hp2, hp3⟩ := (mem_slice_iff htsb).mp hv
      have hoff : ¬ (C.j ≤ pos ∧ pos < C.j + C.i) := by omega
      obtain ⟨pos', hq1, hq2, hq3, hq4⟩ :=
        C.base_pos_to_nb (show pos < C.n by omega) hoff
      have hmem : C.nb.getD pos' 0 ∈ (C.nb.drop t').take s' :=
        (mem_slice_iff htsn).mpr ⟨pos', by omega, by omega, rfl⟩
      have hbnd := (hm' _).mp hmem
      rw [hq3, hp3] at hbnd
      have hvoff := C.off_block (show pos < C.n by omega) hoff
      rw [hp3] at hvoff
      unfold collapseVal at hbnd
      split_ifs at hbnd <;> omega
    · intro hv
      have hvm : v < C.m := by omega
      have hpsi : collapseVal C.m C.i v = v := by
        unfold collapseVal
        rw [if_pos hvm]
      obtain ⟨pos, hp1, hp2, hp3⟩ :=
        (mem_slice_iff htsn).mp ((hm' v).mpr hv)
      have hposne : pos ≠ C.j := by omega
      obtain ⟨P, hP1, hP2, hP3, hP4⟩ :=
        C.nb_getD_off (show pos < C.n - C.i + 1 by omega) hposne
      have hPoff := C.off_block hP1 hP2
      have hw : C.base.getD P 0 = v := by
        apply collapseVal_inj_off (show 1 ≤ C.i by omega) hPoff (Or.inl hvm)
        rw [← hP3, hp3, hpsi]
      apply (mem_slice_iff htsb).mpr
      exact ⟨P, by omega, by omega, hw⟩

/-- An interval of the collapsed base lying strictly right of the collapsed
position pulls back to an interval of the original base shifted by
`i - 1`. -/
theorem CollapseCtx.expand_right (C : CollapseCtx) {t' s' : Nat}
    (hs' : 1 ≤ s') (hjt : C.j < t') (hts : t' + s' ≤ C.n - C.i + 1)
    (hint : isIntervalAt C.nb t' s' = true) :
    isIntervalAt C.base (t' + C.i - 1) s' = true := by
  have hn : C.n = C.base.length := rfl
  have hnbl := C.nb_length
  have hij := C.hij
  have hi := C.hi
  have htsn : t' + s' ≤ C.nb.length := by omega
  have htsb : t' + C.i - 1 + s' ≤ C.base.length := by omega
  obtain ⟨m', hm'⟩ :=
    (isIntervalAt_iff_values C.nb_isPerm.nodup hs' htsn).mp hint
  have hmout : ¬ (m' ≤ C.m ∧ C.m < m' + s') := by
    intro hcon
    obtain ⟨pos, hp1, hp2, hp3⟩ :=
      (mem_slice_iff htsn).mp ((hm' C.m).mpr hcon)
    have hjb : C.j < C.nb.length := by omega
    have hne := nodup_getD_ne C.nb_isPerm.nodup
      (show pos < C.nb.length by omega) hjb (show pos ≠ C.j by omega)
    rw [hp3, C.nb_getD_j] at hne
    exact hne rfl
  apply (isIntervalAt_iff_values C.hnd hs' htsb).mpr
  rcases Nat.lt_or_ge C.m m' with hside | hside
  · refine ⟨m' + C.i - 1, fun v => ?_⟩
    constructor
    · intro hv
      obtain ⟨pos, hp1, hp2, hp3⟩ := (mem_slice_iff htsb).mp hv
      have hoff : ¬ (C.j ≤ pos ∧ pos < C.j + C.i) := by omega
      obtain ⟨pos', hq1, hq2, hq3, hq4⟩ :=
        C.base_pos_to_nb (show pos < C.n by omega) hoff
      have hmem : C.nb.getD pos' 0 ∈ (C.nb.drop t').take s' :=
        (mem_slice_iff htsn).mpr ⟨pos', by omega, by omega, rfl⟩
      have hbnd := (hm' _).mp hmem
      rw [hq3, hp3] at hbnd
      have hvoff := C.off_block (show pos < C.n by omega) hoff
      rw [hp3] at hvoff
      unfold collapseVal at hbnd
      split_ifs at hbnd <;> omega
    · intro hv
      have hvv : C.m + C.i ≤ v := by omega
      have hpsi : collapseVal C.m C.i v = v - C.i + 1 := by
        unfold collapseVal
        split_ifs <;> omega
      have hpsib : m' ≤ v - C.i + 1 ∧ v - C.i + 1 < m' + s' := by omega
      obtain ⟨pos, hp1, hp2, hp3⟩ :=
        (mem_slice_iff htsn).mp ((hm' _).mpr hpsib)
      have hposne : pos ≠ C.j := by omega
      obtain ⟨P, hP1, hP2, hP3, hP4⟩ :=
        C.nb_getD_off (show pos < C.n - C.i + 1 by omega) hposne
      have hPoff := C.off_block hP1 hP2
      have hw : C.base.getD P 0 = v := by
        apply collapseVal_inj_off (show 1 ≤ C.i by omega) hPoff (Or.inr hvv)
        rw [← hP3, hp3, hpsi]
      apply (mem_slice_iff htsb).mpr
      exact ⟨P, by omega, by omega, hw⟩
  · have hms : m' + s' ≤ C.m := by omega
    refine ⟨m', fun v => ?_⟩
    constructor
    · intro hv
      obtain ⟨pos, hp1, hp2, hp3⟩ := (mem_slice_iff htsb).mp hv
      have hoff : ¬ (C.j ≤ pos ∧ pos < C.j + C.i) := by omega
      obtain ⟨pos', hq1, hq2, hq3, hq4⟩ :=
        C.base_pos_to_nb (show pos < C.n by omega) hoff
      have hmem : C.nb.getD pos' 0 ∈ (C.nb.drop t').take s' :=
        (mem_slice_iff htsn).mpr ⟨pos', by omega, by omega, rfl⟩
      have hbnd := (hm' _).mp hmem
      rw [hq3, hp3] at hbnd
      have hvoff := C.off_block (show pos < C.n by omega) hoff
      rw [hp3] at hvoff
      unfold collapseVal at hbnd
      split_ifs at hbnd <;> omega
    · intro hv
      have hvm : v < C.m := by omega
      have hpsi : collapseVal C.m C.i v = v := by
        unfold collapseVal
        rw [if_pos hvm]
      obtain ⟨pos, hp1, hp2, hp3⟩ :=
        (mem_slice_iff htsn).mp ((hm' v).mpr hv)
      have hposne : pos ≠ C.j := by omega
      obtain ⟨P, hP1, hP2, hP3, hP4⟩ :=
        C.nb_getD_off (show pos < C.n - C.i + 1 by omega) hposne
      have hPoff := C.off_block hP1 hP2
      have hw : C.base.getD P 0 = v := by
        apply collapseVal_inj_off (show 1 ≤ C.i by omega) hPoff (Or.inl hvm)
        rw [← hP3, hp3, hpsi]
      apply (mem_slice_iff htsb).mpr
      exact ⟨P, by omega, by omega, hw⟩

/-- An interval of the collapsed base covering the collapsed position pulls
back to an interval of the original base enlarged by `i - 1`. -/
theorem CollapseCtx.expand_mid (C : CollapseCtx) {t' s' : Nat}
    (hs' : 1 ≤ s') (hc1 : t' ≤ C.j) (hc2 : C.j < t' + s')
    (hts : t' + s' ≤ C.n - C.i + 1) (hint : isIntervalAt C.nb t' s' = true) :
    isIntervalAt C.base t' (s' + C.i - 1) = true := by
  have hn : C.n = C.base.length := rfl
  have hnbl := C.nb_length
  have hij := C.hij
  have hi := C.hi
  have htsn : t' + s' ≤ C.nb.length := by omega
  have htsb : t' + (s' + C.i - 1) ≤ C.base.length := by omega
  obtain ⟨m', hm'⟩ :=
    (isIntervalAt_iff_values C.nb_isPerm.nodup hs' htsn).mp hint
  have hmin : m' ≤ C.m ∧ C.m < m' + s' := by
    apply (hm' C.m).mp
    apply (mem_slice_iff htsn).mpr
    exact ⟨C.j, hc1, hc2, C.nb_getD_j⟩
  apply (isIntervalAt_iff_values C.hnd (by omega) htsb).mpr
  refine ⟨m', fun v => ?_⟩
  constructor
  · intro hv
    obtain ⟨pos, hp1, hp2, hp3⟩ := (mem_slice_iff htsb).mp hv
    by_cases hblk : C.j ≤ pos ∧ pos < C.j + C.i
    · have hvb : C.m ≤ C.base.getD pos 0 ∧ C.base.getD pos 0 < C.m + C.i :=
        (C.pos_block_iff (by omega)).mpr hblk
      rw [hp3] at hvb
      omega
    · obtain ⟨pos', hq1, hq2, hq3, hq4⟩ :=
        C.base_pos_to_nb (show pos < C.n by omega) hblk
      have hmem : C.nb.getD pos' 0 ∈ (C.nb.drop t').take s' :=
        (mem_slice_iff htsn).mpr ⟨pos', by omega, by omega, rfl⟩
      have hbnd := (hm' _).mp hmem
      rw [hq3, hp3] at hbnd
      have hvoff := C.off_block (show pos < C.n by omega) hblk
      rw [hp3] at hvoff
      unfold collapseVal at hbnd
      split_ifs at hbnd <;> omega
  · intro hv
    by_cases hblk : C.m ≤ v ∧ v < C.m + C.i
    · obtain ⟨k, hk1, hk2, hk3⟩ :=
        (mem_slice_iff C.hij).mp ((C.hval v).mpr hblk)
      apply (mem_slice_iff htsb).mpr
      exact ⟨k, by omega, by omega, hk3⟩
    · have hvoff : v < C.m ∨ C.m + C.i ≤ v := by omega
      have hpsib : m' ≤ collapseVal C.m C.i v ∧
          collapseVal C.m C.i v < m' + s' := by
        unfold collapseVal
        split_ifs <;> omega
      obtain ⟨pos, hp1, hp2, hp3⟩ :=
        (mem_slice_iff htsn).mp ((hm' _).mpr hpsib)
      have hposne : pos ≠ C.j := by
        intro hcon
        rw [hcon, C.nb_getD_j] at hp3
        unfold collapseVal at hp3
        split_ifs at hp3 <;> omega
      obtain ⟨P, hP1, hP2, hP3, hP4⟩ :=
        C.nb_getD_off (show pos < C.n - C.i + 1 by omega) hposne
      have hPoff := C.off_block hP1 hP2
      have hw : C.base.getD P 0 = v := by
        apply collapseVal_inj_off (show 1 ≤ C.i by omega) hPoff hvoff
        rw [← hP3, hp3]
      apply (mem_slice_iff htsb).mpr
      exact ⟨P, by omega, by omega, hw⟩

theorem CollapseCtx.nc_isPerm (C : CollapseCtx)
    (hcs : ∀ c ∈ C.comps, IsPermList c) : ∀ c ∈ C.nc, IsPermList c := by
  intro c hc
  unfold CollapseCtx.nc at hc
  rcases List.mem_append.mp hc with h1 | h1
  · rcases List.mem_append.mp h1 with h2 | h2
    · exact hcs c ((List.take_sublist _ _).mem h2)
    · rw [List.mem_singleton] at h2
      rw [h2]
      exact standardize_isPermList C.itv_nodup
  · exact hcs c ((List.drop_sublist _ _).mem h1)

/-- No nontrivial proper interval of the collapsed base contains a
non-singleton component: intervals covering the collapsed position would
expand past the maximal interval, and the rest pull back to old intervals
covered by the old invariant. -/
theorem CollapseCtx.noNest_preserved (C : CollapseCtx)
    (hnn : NoNest C.base C.comps)
    (hmax : ∀ s t : Nat, C.i < s → s ≤ C.n - 1 → t + s ≤ C.n →
      isIntervalAt C.base t s = false) :
    NoNest C.nb C.nc := by
  intro s' t' k' hs2 hsp hts hint hk1 hk2
  have hn : C.n = C.base.length := rfl
  have hnbl := C.nb_length
  have hi := C.hi
  have hij := C.hij
  rw [hnbl] at hsp hts
  by_cases hcj : t' ≤ C.j ∧ C.j < t' + s'
  · exfalso
    have hexp := C.expand_mid (by omega) hcj.1 hcj.2 hts hint
    have hfalse := hmax (s' + C.i - 1) t' (by omega) (by omega) (by omega)
    rw [hfalse] at hexp
    cases hexp
  · rcases Nat.lt_or_ge C.j t' with hB | hA
    · have hexp := C.expand_right (by omega) hB hts hint
      have hk'gt : C.j < k' := by omega
      rw [C.nc_getD_gt hk'gt]
      exact hnn s' (t' + C.i - 1) (k' + C.i - 1) hs2 (by omega) (by omega)
        hexp (by omega) (by omega)
    · have hA' : t' + s' ≤ C.j := by omega
      have hexp := C.expand_left (by omega) hA' hint
      rw [C.nc_getD_lt (by omega)]
      exact hnn s' t' k' hs2 (by omega) (by omega) hexp hk1 hk2

/-- Inflating a permutation by all-singleton components gives it back. -/
theorem inflateFlat_replicate (p : List Nat) (hp : IsPermList p) :
    inflateFlat p (List.replicate p.length [0]) = p := by
  rw [inflateFlat_shift_form p _ hp]
  have hshift : ∀ v : Nat, v ≤ p.length →
      shiftSum p (List.replicate p.length [0]) v = v := by
    intro v
    induction v with
    | zero => intro _; rfl
    | succ v ih =>
      intro hv
      rw [shiftSum_succ, ih (by omega)]
      have hmem : v ∈ p := hp.mem_iff_lt.mpr (by omega)
      have hlt : p.indexOf v < p.length := List.indexOf_lt_length.mpr hmem
      rw [List.getD_eq_getElem _ _ (by simpa using hlt),
        List.getElem_replicate]
      simp
  have hseg : ∀ pos ∈ List.range' 0 p.length,
      ((List.replicate p.length [0]).getD pos []).map
        (fun cv => cv + shiftSum p (List.replicate p.length [0])
          (p.getD pos 0)) = [p.getD pos 0] := by
    intro pos hpos
    have hpn : pos < p.length := by
      have := List.mem_range'_1.mp hpos
      omega
    have hval : p.getD pos 0 < p.length := by
      rw [List.getD_eq_getElem _ _ hpn]
      exact hp.mem_iff_lt.mp (p.getElem_mem hpn)
    rw [List.getD_eq_getElem (List.replicate p.length [0]) []
      (by simpa using hpn), List.getElem_replicate]
    simp only [List.map_cons, List.map_nil, Nat.zero_add]
    rw [hshift _ (by omega)]
  rw [List.map_congr_left hseg, flatten_singleton_map]
  have hslice := slice_eq_map_range' p 0 p.length (by omega)
  simp only [List.drop_zero, List.take_length] at hslice
  exact hslice.symm

theorem noNest_replicate (p : List Nat) :
    NoNest p (List.replicate p.length [0]) := by
  intro s t k hs2 hsp hts hint hk1 hk2
  rw [List.getD_eq_getElem _ _
    (by simpa using (show k < p.length by omega)), List.getElem_replicate]

/-- The decomposition loop preserves the inflation of the current state and
the base/components length balance. -/
theorem decompLoop_invariant : ∀ N : Nat, ∀ base : List Nat,
    ∀ comps : List (List Nat), base.length = N → IsPermList base →
    comps.length = base.length → (∀ c ∈ comps, IsPermList c) →
    NoNest base comps →
    inflateFlat (decompLoop base comps).1 (decompLoop base comps).2 =
      inflateFlat base comps ∧
    (decompLoop base comps).2.length = (decompLoop base comps).1.length := by
  intro N
  induction N using Nat.strong_induction_on with
  | _ N IH =>
    intro base comps hN hb hlen hcs hnn
    cases hs : is_simple base with
    | true =>
      rw [decompLoop_simple base comps hs]
      exact ⟨rfl, hlen⟩
    | false =>
      have hne : maximal_interval base ≠ (0, 0) := by
        intro hcon
        unfold is_simple at hs
        rw [hcon] at hs
        simp at hs
      obtain ⟨h2, hle, hfit, hintv, hmax⟩ := maximal_interval_spec base hne
      have hvalchar := interval_values hb.nodup (by omega) (by omega) hintv
      have hsing : ∀ k : Nat, (maximal_interval base).2 ≤ k →
          k < (maximal_interval base).2 + (maximal_interval base).1 →
          comps.getD k [] = [0] := by
        intro k hk1 hk2
        exact hnn (maximal_interval base).1 (maximal_interval base).2 k h2
          (by omega) (by omega) hintv hk1 hk2
      let C : CollapseCtx := ⟨base, comps, (maximal_interval base).1,
        (maximal_interval base).2, listMin ((base.drop
          (maximal_interval base).2).take (maximal_interval base).1),
        hb, hlen, h2, by omega, by omega, hvalchar, hsing⟩
      have hCnb : C.nb = standardize (base.take (maximal_interval base).2 ++
          [base.getD (maximal_interval base).2 0] ++
          base.drop ((maximal_interval base).1 +
            (maximal_interval base).2)) := rfl
      have hCnc : C.nc = comps.take (maximal_interval base).2 ++
          [standardize ((base.drop (maximal_interval base).2).take
            (maximal_interval base).1)] ++
          comps.drop ((maximal_interval base).1 +
            (maximal_interval base).2) := rfl
      rw [decompLoop_step base comps hs, ← hCnb, ← hCnc]
      have hprog := decompLoop_progress base hs
      rw [← hCnb] at hprog
      obtain ⟨hflat, hlen'⟩ := IH C.nb.length (by omega) C.nb C.nc rfl
        C.nb_isPerm (by rw [C.nc_length, C.nb_length]) (C.nc_isPerm hcs)
        (C.noNest_preserved hnn (fun s t h1 h2 h3 => hmax s t h1 h2 h3))
      exact ⟨by rw [hflat, C.flat_eq], hlen'⟩

/-- CLAIM C2: for every permutation `P`, inflating the base of
`decomposition(P)` by its components reconstructs `P` exactly: `inflate` is
a left inverse of the substitution decomposition. -/
theorem decomposition_inflate_roundtrip (p : List Nat) (hp : IsPermList p) :
    inflate (decomposition p).1 (decomposition p).2 = Except.ok p := by
  unfold decomposition
  obtain ⟨hflat, hlen⟩ := decompLoop_invariant p.length p
    (List.replicate p.length [0]) rfl hp (by simp)
    (fun c hc => by rw [List.eq_of_mem_replicate hc]; decide)
    (noNest_replicate p)
  rw [inflateFlat_replicate p hp] at hflat
  unfold inflate
  rw [if_neg (by omega)]
  rw [hflat, standardize_eq_self hp]

/-- Witness for C2 at the permutation `[2, 0, 1]`. -/
theorem decomposition_inflate_roundtrip_witness :
    IsPermList [2, 0, 1] ∧
      inflate (decomposition [2, 0, 1]).1 (decomposition [2, 0, 1]).2 =
        Except.ok [2, 0, 1] :=
  ⟨by decide, decomposition_inflate_roundtrip [2, 0, 1] (by decide)⟩

theorem involvedInSt_none (σ : CacheStore) (self : PermInstance)
    (target : List Nat) (hcase : σ self.id = none) :
    involvedInSt σ self target =
      (involved_in self.entries target,
       fun i => if i = self.id then some (set_up_bounds self.entries)
                else σ i) := by
  unfold involvedInSt
  rw [hcase]
  show (involvedInWith
      ((if self.id = self.id then some (set_up_bounds self.entries)
        else σ self.id).getD (set_up_bounds self.entries)).2
      ((if self.id = self.id then some (set_up_bounds self.entries)
        else σ self.id).getD (set_up_bounds self.entries)).1
      self.entries target,
     fun i => if i = self.id then some (set_up_bounds self.entries)
              else σ i) = _
  rw [if_pos rfl]
  simp only [Option.getD_some]
  unfold involvedInWith involved_in
  rfl

theorem involvedInSt_some (σ : CacheStore) (self : PermInstance)
    (target : List Nat) (b : List Int × List Int)
    (hcase : σ self.id = some b) :
    involvedInSt σ self target =
      (involvedInWith b.2 b.1 self.entries target, σ) := by
  unfold involvedInSt
  rw [hcase]
  show (involvedInWith
      ((σ self.id).getD (set_up_bounds self.entries)).2
      ((σ self.id).getD (set_up_bounds self.entries)).1
      self.entries target, σ) = _
  rw [hcase]
  simp only [Option.getD_some]

/-- CLAIM C9: a containment query is pure in the entry sequences (its result
is the pure `involved_in` of the two entry lists and no entry list is
touched); its only state change is writing the calling instance's own bound
cache on the first query — once the cache holds the instance's own bounds a
query leaves the whole store untouched — and the cache entry of every other
instance is never altered, so no uninitialized default cache is shared
between distinct instances. -/
theorem involved_in_cache_frame (σ : CacheStore) (self : PermInstance)
    (target : List Nat)
    (hσ : σ self.id = none ∨
      σ self.id = some (set_up_bounds self.entries)) :
    ((involvedInSt σ self target).1 = involved_in self.entries target) ∧
    ((involvedInSt σ self target).2 self.id =
      some (set_up_bounds self.entries)) ∧
    (σ self.id = some (set_up_bounds self.entries) →
      (involvedInSt σ self target).2 = σ) ∧
    (∀ other : Nat, other ≠ self.id →
      (involvedInSt σ self target).2 other = σ other) := by
  rcases hσ with hcase | hcase
  · rw [involvedInSt_none σ self target hcase]
    refine ⟨rfl, ?_, ?_, ?_⟩
    · exact if_pos rfl
    · intro hsome
      rw [hcase] at hsome
      cases hsome
    · intro other hother
      exact if_neg hother
  · rw [involvedInSt_some σ self target _ hcase]
    refine ⟨?_, hcase, fun _ => rfl, fun other hother => rfl⟩
    unfold involvedInWith involved_in
    rfl

/-- Witness for C9: a first query on instance `0` with entries `[0, 1]`
against target `[1, 0]` over the empty store. -/
theorem involved_in_cache_frame_witness :
    ((fun _ : Nat => (none : Option (List Int × List Int)))
        (PermInstance.mk 0 [0, 1]).id = none ∨
      (fun _ : Nat => (none : Option (List Int × List Int)))
        (PermInstance.mk 0 [0, 1]).id =
        some (set_up_bounds (PermInstance.mk 0 [0, 1]).entries)) ∧
    (((involvedInSt (fun _ => none) (PermInstance.mk 0 [0, 1]) [1, 0]).1 =
        involved_in (PermInstance.mk 0 [0, 1]).entries [1, 0]) ∧
      ((involvedInSt (fun _ => none) (PermInstance.mk 0 [0, 1]) [1, 0]).2
          (PermInstance.mk 0 [0, 1]).id =
        some (set_up_bounds (PermInstance.mk 0 [0, 1]).entries)) ∧
      ((fun _ : Nat => (none : Option (List Int × List Int)))
          (PermInstance.mk 0 [0, 1]).id =
          some (set_up_bounds (PermInstance.mk 0 [0, 1]).entries) →
        (involvedInSt (fun _ => none) (PermInstance.mk 0 [0, 1]) [1, 0]).2 =
          fun _ => none) ∧
      (∀ other : Nat, other ≠ (PermInstance.mk 0 [0, 1]).id →
        (involvedInSt (fun _ => none) (PermInstance.mk 0 [0, 1]) [1, 0]).2
            other =
          (fun _ : Nat => (none : Option (List Int × List Int))) other)) :=
  ⟨Or.inl rfl,
    involved_in_cache_frame (fun _ => none) (PermInstance.mk 0 [0, 1]) [1, 0]
      (Or.inl rfl)⟩

end Permpy
